import Mathlib

/-!
# A shallow embedding of `rust_rbtree` (src/src/main.rs)

The Rust program implements a red-black tree over `Rc<RefCell<Node<T>>>`
pointers with a shared `nil` sentinel node.  We embed the heap of nodes as an
arena (`List Node`) indexed by natural numbers; index `0` is the `nil`
sentinel that `RedBlackTree::new` allocates, and `Rc::ptr_eq` becomes equality
of indices.  Every statement of the Rust functions `insert`, `fix_insert`,
`left_rotate`, `right_rotate` and `inorder_helper` is transliterated in
source order, reading and writing the arena sequentially exactly as the
`RefCell` borrows do.  The element type `T` is instantiated at `Int`
(the demonstration driver uses `i32`); `T::default()` is `0`.

Loops in the Rust code are modelled with an explicit fuel parameter.  A
computation returns `Res.fuelOut` when the fuel is exhausted,
`Res.panicked` when the Rust would panic (an `unwrap` of `None`), and
`Res.ok` with the result otherwise.  `Res.fuelOut` for every fuel is how
a genuinely diverging loop manifests.
-/

inductive Color where
  | red : Color
  | black : Color
deriving DecidableEq

/-- One tree node: `data`, `color`, and the `left`/`right`/`parent` links.
A link is `none` (Rust `None`) or `some i` for arena index `i`
(`Some(rc)`); index `0` is the shared `nil` sentinel. -/
structure Node where
  data : Int
  color : Color
  left : Option Nat
  right : Option Nat
  parent : Option Nat
deriving DecidableEq

/-- The `nil` sentinel allocated by `RedBlackTree::new`:
`data: T::default(), color: Black, left/right/parent: None`. -/
def nilNode : Node := ⟨0, Color.black, none, none, none⟩

/-- The tree: the arena of allocated nodes (index `0` is the `nil`
sentinel) and the optional root index. -/
structure RBTree where
  nodes : List Node
  root : Option Nat
deriving DecidableEq

/-- `RedBlackTree::new()`. -/
def RBTree.new : RBTree := ⟨[nilNode], none⟩

/-- Dereference an arena index (the out-of-range default is never reached
on states built by the operations). -/
def nd (t : RBTree) (i : Nat) : Node := t.nodes.getD i nilNode

def setField (t : RBTree) (i : Nat) (f : Node → Node) : RBTree :=
  { t with nodes := t.nodes.set i (f (nd t i)) }

def setLeft (t : RBTree) (i : Nat) (v : Option Nat) : RBTree :=
  setField t i (fun x => { x with left := v })

def setRight (t : RBTree) (i : Nat) (v : Option Nat) : RBTree :=
  setField t i (fun x => { x with right := v })

def setParent (t : RBTree) (i : Nat) (v : Option Nat) : RBTree :=
  setField t i (fun x => { x with parent := v })

def setColor (t : RBTree) (i : Nat) (c : Color) : RBTree :=
  setField t i (fun x => { x with color := c })

def setRoot (t : RBTree) (r : Option Nat) : RBTree := { t with root := r }

/-- Result of running a fueled computation: `ok`, a Rust panic
(`unwrap` on `None`), or fuel exhaustion. -/
inductive Res (α : Type) where
  | ok : α → Res α
  | panicked : Res α
  | fuelOut : Res α
deriving DecidableEq

/-- `left_rotate` (src/src/main.rs lines 213-233), statement by statement.
`none` models the panic of an `unwrap` on `None`. -/
def left_rotate (t : RBTree) (x : Nat) : Option RBTree :=
  match (nd t x).right with          -- let y = x.right.clone().unwrap()
  | none => none
  | some y =>
    let t := setRight t x (nd t y).left              -- x.right = y.left
    let t :=                                         -- if let Some(l) = y.left { l.parent = x }
      match (nd t y).left with
      | none => t
      | some l => setParent t l (some x)
    let t := setParent t y (nd t x).parent           -- y.parent = x.parent
    let t? : Option RBTree :=
      match (nd t x).parent with
      | none => some (setRoot t (some y))            -- root = y
      | some xp =>
        match (nd t xp).left with                    -- x.parent.left.unwrap()
        | none => none
        | some xpl =>
          some (if x = xpl then setLeft t xp (some y) else setRight t xp (some y))
    match t? with
    | none => none
    | some t =>
      let t := setLeft t y (some x)                  -- y.left = x
      some (setParent t x (some y))                  -- x.parent = y

/-- `right_rotate` (src/src/main.rs lines 243-263), the mirror image. -/
def right_rotate (t : RBTree) (y : Nat) : Option RBTree :=
  match (nd t y).left with           -- let x = y.left.clone().unwrap()
  | none => none
  | some x =>
    let t := setLeft t y (nd t x).right              -- y.left = x.right
    let t :=                                         -- if let Some(r) = x.right { r.parent = y }
      match (nd t x).right with
      | none => t
      | some r => setParent t r (some y)
    let t := setParent t x (nd t y).parent           -- x.parent = y.parent
    let t? : Option RBTree :=
      match (nd t y).parent with
      | none => some (setRoot t (some x))            -- root = x
      | some yp =>
        match (nd t yp).right with                   -- y.parent.right.unwrap()
        | none => none
        | some ypr =>
          some (if y = ypr then setRight t yp (some x) else setLeft t yp (some x))
    match t? with
    | none => none
    | some t =>
      let t := setRight t x (some y)                 -- x.right = y
      some (setParent t y (some x))                  -- y.parent = x

/-- One iteration of the `while` loop of `fix_insert`
(src/src/main.rs lines 133-198). -/
inductive FixStep where
  | exit : RBTree → FixStep
  | cont : RBTree → Nat → Nat → FixStep   -- new tree, new current node, rotations performed
  | panic : FixStep
deriving DecidableEq

/-- The rotation cases of `fix_insert` (lines 168-196): uncle is black or
absent.  `isLeftChild` records whether the parent is the grandparent's left
child.  If the current node is the "inner" grandchild the code first sets
`current_node = parent` and rotates at it, then (in either shape) recolors
`parent` black and `grandparent` red and rotates at the grandparent.
The loop then continues with the (possibly updated) current node. -/
def fixRotCase (t : RBTree) (cur p g : Nat) (isLeftChild : Bool) : FixStep :=
  if isLeftChild then
    match (nd t p).right with                        -- parent.right.unwrap()
    | none => FixStep.panic
    | some pr =>
      if pr = cur then
        match left_rotate t p with                   -- current_node = parent; left_rotate
        | none => FixStep.panic
        | some t1 =>
          let t2 := setColor t1 p Color.black        -- parent.color = Black
          let t3 := setColor t2 g Color.red          -- grandparent.color = Red
          match right_rotate t3 g with
          | none => FixStep.panic
          | some t4 => FixStep.cont t4 p 2
      else
        let t2 := setColor t p Color.black
        let t3 := setColor t2 g Color.red
        match right_rotate t3 g with
        | none => FixStep.panic
        | some t4 => FixStep.cont t4 cur 1
  else
    match (nd t p).left with                         -- parent.left.unwrap()
    | none => FixStep.panic
    | some pl =>
      if pl = cur then
        match right_rotate t p with                  -- current_node = parent; right_rotate
        | none => FixStep.panic
        | some t1 =>
          let t2 := setColor t1 p Color.black
          let t3 := setColor t2 g Color.red
          match left_rotate t3 g with
          | none => FixStep.panic
          | some t4 => FixStep.cont t4 p 2
      else
        let t2 := setColor t p Color.black
        let t3 := setColor t2 g Color.red
        match left_rotate t3 g with
        | none => FixStep.panic
        | some t4 => FixStep.cont t4 cur 1

/-- One iteration of the `fix_insert` loop.  Mirrors lines 133-197: exit
when the current node has no parent or a black parent; when the
grandparent is absent the body does nothing and the loop repeats with the
same current node; otherwise recolor (red uncle, advancing to the
grandparent) or fall into the rotation cases. -/
def fixStep (t : RBTree) (cur : Nat) : FixStep :=
  match (nd t cur).parent with
  | none => FixStep.exit t
  | some p =>
    if (nd t p).color = Color.black then FixStep.exit t
    else
      match (nd t p).parent with
      | none => FixStep.cont t cur 0                 -- `if let Some(gp)` fails: body skipped
      | some g =>
        match (nd t g).left with                     -- gp.left.unwrap()
        | none => FixStep.panic
        | some gl =>
          let isLeftChild := p = gl
          let uncle : Option Nat :=
            if p = gl then (nd t g).right else (nd t g).left
          match uncle with
          | some u =>
            if (nd t u).color = Color.red then
              let t1 := setColor t p Color.black
              let t2 := setColor t1 u Color.black
              let t3 := setColor t2 g Color.red
              FixStep.cont t3 g 0                    -- current_node = grandparent; continue
            else fixRotCase t cur p g isLeftChild
          | none => fixRotCase t cur p g isLeftChild

/-- The `while` loop of `fix_insert`, with fuel.  Accumulates the number of
rotations performed (instrumentation; it does not influence control flow). -/
def fixLoop : Nat → RBTree → Nat → Nat → Res (RBTree × Nat)
  | 0, _, _, _ => Res.fuelOut
  | fuel + 1, t, cur, rots =>
    match fixStep t cur with
    | FixStep.panic => Res.panicked
    | FixStep.exit t' => Res.ok (t', rots)
    | FixStep.cont t' cur' r => fixLoop fuel t' cur' (rots + r)

/-- After the loop, `fix_insert` unconditionally recolors the root (if
present) black (lines 200-202). -/
def forceRootBlack (t : RBTree) : RBTree :=
  match t.root with
  | none => t
  | some r => setColor t r Color.black

/-- `fix_insert` (lines 130-203): run the loop, then force the root black. -/
def fix_insert (fuel : Nat) (t : RBTree) (node : Nat) : Res (RBTree × Nat) :=
  match fixLoop fuel t node 0 with
  | Res.ok (t', rots) => Res.ok (forceRootBlack t', rots)
  | Res.panicked => Res.panicked
  | Res.fuelOut => Res.fuelOut

/-- The BST descent loop of `insert` (lines 87-100).  Returns the final
`parent` variable.  At each node it compares the new data, breaks when the
child slot on the comparison side is the `nil` sentinel (`ptr_eq`), and
otherwise descends into that child. -/
def descend : Nat → RBTree → Int → Option Nat → Option Nat → Res (Option Nat)
  | 0, _, _, _, _ => Res.fuelOut
  | fuel + 1, t, data, current, parent =>
    match current with
    | none => Res.ok parent
    | some cur =>
      if data < (nd t cur).data then
        match (nd t cur).left with                   -- cur.left.unwrap()
        | none => Res.panicked
        | some l =>
          if l = 0 then Res.ok (some cur)            -- break: insert here
          else descend fuel t data (some l) (some cur)
      else
        match (nd t cur).right with                  -- cur.right.unwrap()
        | none => Res.panicked
        | some r =>
          if r = 0 then Res.ok (some cur)            -- break: insert here
          else descend fuel t data (some r) (some cur)

/-- `insert` (lines 72-122).  Allocates a fresh red node whose children are
the `nil` sentinel; if the tree is empty it becomes the (black) root;
otherwise descend, attach on the side given by re-comparing the data, and
run `fix_insert` on the new node.  Returns the tree together with the
number of rotations this insertion performed. -/
def RBTree.insert (fuel : Nat) (t : RBTree) (data : Int) : Res (RBTree × Nat) :=
  let newIdx := t.nodes.length
  let t1 : RBTree := { t with nodes := t.nodes ++ [⟨data, Color.red, some 0, some 0, none⟩] }
  match t1.root with
  | none =>
    let t2 := setRoot t1 (some newIdx)
    Res.ok (setColor t2 newIdx Color.black, 0)       -- root = new; new.color = Black
  | some r =>
    match descend fuel t1 data (some r) none with
    | Res.panicked => Res.panicked
    | Res.fuelOut => Res.fuelOut
    | Res.ok parent =>
      let t2 := setParent t1 newIdx parent           -- new.parent = parent
      let t3 :=
        match parent with
        | none => t2
        | some p =>
          if data < (nd t2 p).data then setLeft t2 p (some newIdx)
          else setRight t2 p (some newIdx)
      fix_insert fuel t3 newIdx

/-- Run a sequence of `insert` calls (each with the given fuel) on a tree. -/
def insertAll (fuel : Nat) : RBTree → List Int → Res RBTree
  | t, [] => Res.ok t
  | t, v :: vs =>
    match RBTree.insert fuel t v with
    | Res.ok (t', _) => insertAll fuel t' vs
    | Res.panicked => Res.panicked
    | Res.fuelOut => Res.fuelOut

/-- Run a sequence of `insert` calls on the tree built by `new()`, as the
demonstration driver does. -/
def insertSeq (fuel : Nat) (vs : List Int) : Res RBTree :=
  insertAll fuel RBTree.new vs

/-- `inorder_helper` (lines 270-279), with fuel: stop at an absent link or
at the `nil` sentinel, otherwise visit left subtree, the node's data, right
subtree.  `none` is fuel exhaustion. -/
def inorder_helper : Nat → RBTree → Option Nat → Option (List Int)
  | _, _, none => some []
  | 0, _, some _ => none
  | fuel + 1, t, some i =>
    if i = 0 then some []
    else
      match inorder_helper fuel t (nd t i).left, inorder_helper fuel t (nd t i).right with
      | some l, some r => some (l ++ (nd t i).data :: r)
      | _, _ => none

/-- `inorder` (lines 266-268): traverse from the root. -/
def RBTree.inorder (fuel : Nat) (t : RBTree) : Option (List Int) :=
  inorder_helper fuel t t.root

/-- The tree of a successful run, if any. -/
def resTree : Res RBTree → Option RBTree
  | Res.ok t => some t
  | _ => none

/-- The rotation count of a successful `insert`, if any. -/
def resRots : Res (RBTree × Nat) → Option Nat
  | Res.ok (_, n) => some n
  | _ => none

/-! ## A pure view of the reachable tree

`CTree` is a plain colored binary tree; `ctreeF` reads the tree reachable
from a link out of the arena (with fuel, since a corrupted arena need not
be well-founded).  The red-black invariants of the specification are
stated over this view. -/

inductive CTree where
  | leaf : CTree
  | node : Color → Int → CTree → CTree → CTree
deriving DecidableEq

/-- Abstract the structure reachable from a link as a pure colored tree.
An absent link and the `nil` sentinel are `leaf`. -/
def ctreeF : Nat → RBTree → Option Nat → Option CTree
  | _, _, none => some CTree.leaf
  | 0, _, some _ => none
  | fuel + 1, t, some i =>
    if i = 0 then some CTree.leaf
    else
      match ctreeF fuel t (nd t i).left, ctreeF fuel t (nd t i).right with
      | some l, some r => some (CTree.node (nd t i).color (nd t i).data l r)
      | _, _ => none

def CTree.isRed : CTree → Bool
  | CTree.node Color.red _ _ _ => true
  | _ => false

/-- "No red node has a red child" on the pure view. -/
def CTree.noRedRed : CTree → Bool
  | CTree.leaf => true
  | CTree.node Color.red _ l r => !l.isRed && !r.isRed && l.noRedRed && r.noRedRed
  | CTree.node Color.black _ l r => l.noRedRed && r.noRedRed

/-- The black-height of a tree when every path from the root to a childless
position passes through the same number of black nodes; `none` when the
counts disagree somewhere. -/
def CTree.blackHeight : CTree → Option Nat
  | CTree.leaf => some 0
  | CTree.node c _ l r =>
    match l.blackHeight, r.blackHeight with
    | some a, some b =>
      if a = b then some (a + (match c with | Color.black => 1 | Color.red => 0)) else none
    | _, _ => none

/-! ## The diverging run `insert 1; insert 2; insert 1`

The third insertion puts the new node `1` as left child of the red node
`2`, whose parent is the root.  The uncle is the `nil` sentinel (black) and
the shape is a "triangle", so `fix_insert` rotates right at the parent and
then, having recolored the *old* parent (now the bottom of the line) black
instead of the new subtree root, rotates left at the grandparent.  The loop
then continues with a black current node whose parent (the new root) is red
and has no grandparent — a state `fixStep` maps to itself.  These are the
concrete arena states of that run. -/

/-- The tree after `insert 1; insert 2` on `new()`. -/
def stateTwo : RBTree :=
  ⟨[⟨0, Color.black, none, none, none⟩,
    ⟨1, Color.black, some 0, some 2, none⟩,
    ⟨2, Color.red, some 0, some 0, some 1⟩], some 1⟩

/-- The arena just before `fix_insert` runs in the third insertion
(`insert 1`): the new node `3` is attached as left child of node `2`. -/
def stateAttached : RBTree :=
  ⟨[⟨0, Color.black, none, none, none⟩,
    ⟨1, Color.black, some 0, some 2, none⟩,
    ⟨2, Color.red, some 3, some 0, some 1⟩,
    ⟨1, Color.red, some 0, some 0, some 2⟩], some 1⟩

/-- The state after the first `fix_insert` iteration of that run (one right
rotation at node `2`, one left rotation at the old root): current node `2`
is black, its parent `3` is red and is the root.  `fixStep` maps this state
to itself, so the loop never exits. -/
def stateStuck : RBTree :=
  ⟨[⟨0, Color.black, none, none, some 1⟩,
    ⟨1, Color.red, some 0, some 0, some 3⟩,
    ⟨2, Color.black, some 0, some 0, some 3⟩,
    ⟨1, Color.red, some 1, some 2, none⟩], some 3⟩

/-- A state on which the `fix_insert` loop body acts as the identity (and
does not break) runs the loop out of any amount of fuel. -/
theorem fixLoop_fuelOut_of_fixpoint (t : RBTree) (cur : Nat)
    (h : fixStep t cur = FixStep.cont t cur 0) :
    ∀ fuel rots, fixLoop fuel t cur rots = Res.fuelOut := by
  intro fuel
  induction fuel with
  | zero => intro rots; rfl
  | succ n ih =>
    intro rots
    show (match fixStep t cur with
          | FixStep.panic => Res.panicked
          | FixStep.exit t' => Res.ok (t', rots)
          | FixStep.cont t' cur' r => fixLoop n t' cur' (rots + r)) = Res.fuelOut
    rw [h]
    exact ih rots

theorem fix_insert_fuelOut {f : Nat} {t : RBTree} {i : Nat}
    (h : fixLoop f t i 0 = Res.fuelOut) : fix_insert f t i = Res.fuelOut := by
  unfold fix_insert
  rw [h]

theorem insertAll_cons_fuelOut {f : Nat} {t : RBTree} {v : Int} {vs : List Int}
    (h : RBTree.insert f t v = Res.fuelOut) :
    insertAll f t (v :: vs) = Res.fuelOut := by
  unfold insertAll
  rw [h]

/-- The run `insert 1; insert 2; insert 1` from `new()` exhausts any
amount of fuel: the two rotations of the triangle case leave the loop in a
state it never leaves. -/
theorem insertSeq_121_fuelOut : ∀ fuel, insertSeq fuel [1, 2, 1] = Res.fuelOut := by
  intro fuel
  match fuel with
  | 0 => rfl
  | 1 => rfl
  | n + 2 =>
    have hfix : fixLoop (n + 1) stateStuck 2 2 = Res.fuelOut :=
      fixLoop_fuelOut_of_fixpoint stateStuck 2 (by decide) (n + 1) 2
    have hloop : fixLoop (n + 2) stateAttached 3 0 = Res.fuelOut := by
      rw [show fixLoop (n + 2) stateAttached 3 0 = fixLoop (n + 1) stateStuck 2 2 from rfl]
      exact hfix
    have hins : RBTree.insert (n + 2) stateTwo 1 = Res.fuelOut := by
      rw [show RBTree.insert (n + 2) stateTwo 1 = fix_insert (n + 2) stateAttached 3 from rfl]
      exact fix_insert_fuelOut hloop
    show insertAll (n + 2) RBTree.new [1, 2, 1] = Res.fuelOut
    rw [show insertAll (n + 2) RBTree.new [1, 2, 1] = insertAll (n + 2) stateTwo [1] from rfl]
    exact insertAll_cons_fuelOut hins

/-! ## Claims settled by concrete runs -/

/-- C1: the claim says every `insert` terminates because the `fix_insert`
loop exits as soon as the parent is black or absent.  It is false: on the
run `insert 1; insert 2; insert 1` the third call never returns — after
the triangle-case rotations the loop is in a state it maps to itself
(current node black, parent red, grandparent absent), so the loop runs
out of any amount of fuel instead of completing. -/
theorem c1_third_insert_diverges :
    ∀ fuel, insertSeq fuel [1, 2, 1] = Res.fuelOut :=
  fun fuel => insertSeq_121_fuelOut fuel

/-- C2: the claim says that after every completed `insert` no red node has
a red child.  It is false: every insertion of the run `1, 2, 3, 5, 4`
completes, yet in the final tree the red node `2` has the red child `3`
(the buggy triangle case recolors the wrong node and then keeps looping,
recoloring the true root red's replacement inconsistently). -/
theorem c2_red_red_violation :
    ((resTree (insertSeq 50 [1, 2, 3, 5, 4])).bind (fun t => ctreeF 50 t t.root)).map
      CTree.noRedRed = some false := by decide

/-- C3: the claim says that after every completed `insert` all paths from
a node to a childless position pass through the same number of black
nodes.  It is false: the run `1, 2, 3, 5, 4` completes and leaves a tree
whose black-node counts disagree between paths. -/
theorem c3_black_height_violation :
    ((resTree (insertSeq 50 [1, 2, 3, 5, 4])).bind (fun t => ctreeF 50 t t.root)).map
      CTree.blackHeight = some none := by decide

/-- C4: inserting 20,15,25,10,5,1,30,18 into an empty tree yields the
in-order sequence [1,5,10,15,18,20,25,30], a black root with value 20
(hence 20 or 15), and a tree without adjacent red nodes. -/
theorem c4_scenario_a :
    ((resTree (insertSeq 50 [20, 15, 25, 10, 5, 1, 30, 18])).bind
        (fun t => t.inorder 50) = some [1, 5, 10, 15, 18, 20, 25, 30]) ∧
    ((resTree (insertSeq 50 [20, 15, 25, 10, 5, 1, 30, 18])).bind
        (fun t => t.root.map (fun r => (nd t r).data)) = some 20 ∨
     (resTree (insertSeq 50 [20, 15, 25, 10, 5, 1, 30, 18])).bind
        (fun t => t.root.map (fun r => (nd t r).data)) = some 15) ∧
    ((resTree (insertSeq 50 [20, 15, 25, 10, 5, 1, 30, 18])).bind
        (fun t => t.root.map (fun r => (nd t r).color)) = some Color.black) ∧
    (((resTree (insertSeq 50 [20, 15, 25, 10, 5, 1, 30, 18])).bind
        (fun t => ctreeF 50 t t.root)).map CTree.noRedRed = some true) := by
  refine ⟨by decide, Or.inl (by decide), by decide, by decide⟩

/-- C5: the claim says every sequence of insertions yields a tree whose
in-order traversal is non-decreasing.  It is false in that for the
sequence `1, 2, 1` no resulting tree exists at all: the third `insert`
never returns, so `in_order` is never reached. -/
theorem c5_no_resulting_tree :
    ∀ fuel, (resTree (insertSeq fuel [1, 2, 1])).bind (fun t => t.inorder fuel) = none := by
  intro fuel
  rw [insertSeq_121_fuelOut fuel]
  rfl

/-- C6: the claim says a single insertion performs at most 2 rotations and
that a rotation case always ends the fixup loop.  It is false: after
inserting 1, 2, 3, 5, the insertion of 4 performs 3 rotations — the
triangle case's two rotations do not end the loop, which then runs a
third rotation one level up. -/
theorem c6_three_rotations :
    ∃ n, (resTree (insertSeq 50 [1, 2, 3, 5])).bind
        (fun t => resRots (RBTree.insert 50 t 4)) = some n ∧ 2 < n := by
  exact ⟨3, by decide, by decide⟩

/-- C8: the claim says that after N insertions the in-order traversal
yields exactly N values.  It is false for N = 3: after `insert 1;
insert 2; insert 1` there is no traversal of 3 values, because the third
insertion never completes. -/
theorem c8_no_three_values :
    ∀ fuel, (resTree (insertSeq fuel [1, 2, 1])).bind
        (fun t => (t.inorder fuel).map List.length) = none := by
  intro fuel
  rw [insertSeq_121_fuelOut fuel]
  rfl

/-! ## Arena access lemmas -/

theorem nd_setField (t : RBTree) (i : Nat) (f : Node → Node) (j : Nat) :
    nd (setField t i f) j = if i = j ∧ i < t.nodes.length then f (nd t i) else nd t j := by
  unfold nd setField
  simp only [List.getD_eq_getElem?_getD, List.getElem?_set]
  by_cases h1 : i = j
  · subst h1
    by_cases h2 : i < t.nodes.length
    · simp [h2, List.getElem?_eq_getElem h2, nd, List.getD_eq_getElem?_getD]
    · simp [h2, List.getElem?_eq_none (Nat.le_of_not_lt h2)]
  · simp [h1]

theorem length_setField (t : RBTree) (i : Nat) (f : Node → Node) :
    (setField t i f).nodes.length = t.nodes.length := List.length_set ..

theorem root_setField (t : RBTree) (i : Nat) (f : Node → Node) :
    (setField t i f).root = t.root := rfl

theorem nd_setLeft (t : RBTree) (i : Nat) (v : Option Nat) (j : Nat) :
    nd (setLeft t i v) j =
      if i = j ∧ i < t.nodes.length then { nd t i with left := v } else nd t j :=
  nd_setField ..

theorem nd_setRight (t : RBTree) (i : Nat) (v : Option Nat) (j : Nat) :
    nd (setRight t i v) j =
      if i = j ∧ i < t.nodes.length then { nd t i with right := v } else nd t j :=
  nd_setField ..

theorem nd_setParent (t : RBTree) (i : Nat) (v : Option Nat) (j : Nat) :
    nd (setParent t i v) j =
      if i = j ∧ i < t.nodes.length then { nd t i with parent := v } else nd t j :=
  nd_setField ..

theorem nd_setColor (t : RBTree) (i : Nat) (c : Color) (j : Nat) :
    nd (setColor t i c) j =
      if i = j ∧ i < t.nodes.length then { nd t i with color := c } else nd t j :=
  nd_setField ..

theorem nd_push (t : RBTree) (x : Node) (j : Nat) (h : j < t.nodes.length) :
    nd { t with nodes := t.nodes ++ [x] } j = nd t j := by
  unfold nd
  simp only [List.getD_eq_getElem?_getD, List.getElem?_append_left h]

theorem nd_push_self (t : RBTree) (x : Node) :
    nd { t with nodes := t.nodes ++ [x] } t.nodes.length = x := by
  unfold nd
  simp [List.getD_eq_getElem?_getD]

/-- An out-of-range index dereferences to the default node. -/
theorem nd_oob (t : RBTree) (j : Nat) (h : t.nodes.length ≤ j) : nd t j = nilNode := by
  unfold nd
  simp [List.getD_eq_getElem?_getD, List.getElem?_eq_none h]

/-! ## The pure shape of a well-formed arena

`ITree` is a binary tree of arena indices; `Enc t o T` says the links
reachable from `o` in arena `t` spell out exactly the finite tree `T`
(a derivation is finite, so `Enc` rules out cycles along the tree links).
`pcT` adds that every node's parent link points back to its tree parent.
Together with distinctness of the indices (`Nodup`) and completeness
(every allocated non-sentinel node occurs in the tree) this is the
well-formedness invariant `WF` that all reachable states enjoy. -/

inductive ITree where
  | leaf : ITree
  | node : Nat → ITree → ITree → ITree
deriving DecidableEq

/-- In-order list of the indices of an index tree. -/
def ITree.idxs : ITree → List Nat
  | ITree.leaf => []
  | ITree.node i l r => l.idxs ++ i :: r.idxs

/-- In-order list of the stored values of an index tree, read off an arena. -/
def ITree.valsIn : ITree → RBTree → List Int
  | ITree.leaf, _ => []
  | ITree.node i l r, t => l.valsIn t ++ (nd t i).data :: r.valsIn t

/-- The structure reachable from link `o` in arena `t` is exactly the
finite index tree `T`: an absent link or the `nil` sentinel is a leaf, and
a real node's subtrees are read off its `left`/`right` links. -/
inductive Enc (t : RBTree) : Option Nat → ITree → Prop where
  | absent : Enc t none ITree.leaf
  | nil : Enc t (some 0) ITree.leaf
  | node : ∀ {i : Nat} {l r : ITree}, i ≠ 0 → i < t.nodes.length →
      Enc t (nd t i).left l → Enc t (nd t i).right r →
      Enc t (some i) (ITree.node i l r)

/-- Parent links point back along the tree: the root's parent link is `q`,
and every child's parent link is its tree parent. -/
def pcT (t : RBTree) : ITree → Option Nat → Prop
  | ITree.leaf, _ => True
  | ITree.node i l r, q => (nd t i).parent = q ∧ pcT t l (some i) ∧ pcT t r (some i)

instance instDecPcT (t : RBTree) : (T : ITree) → (q : Option Nat) → Decidable (pcT t T q)
  | ITree.leaf, _ => isTrue trivial
  | ITree.node i l r, q =>
    letI : Decidable (pcT t l (some i)) := instDecPcT t l (some i)
    letI : Decidable (pcT t r (some i)) := instDecPcT t r (some i)
    inferInstanceAs (Decidable ((nd t i).parent = q ∧ pcT t l (some i) ∧ pcT t r (some i)))

/-- Computable reading of the reachable structure, with fuel; used to
discharge `Enc` obligations on concrete arenas. -/
def itreeF : Nat → RBTree → Option Nat → Option ITree
  | _, _, none => some ITree.leaf
  | 0, _, some _ => none
  | fuel + 1, t, some i =>
    if i = 0 then some ITree.leaf
    else if i < t.nodes.length then
      match itreeF fuel t (nd t i).left, itreeF fuel t (nd t i).right with
      | some l, some r => some (ITree.node i l r)
      | _, _ => none
    else none

theorem itreeF_enc : ∀ {f : Nat} {t : RBTree} {o : Option Nat} {T : ITree},
    itreeF f t o = some T → Enc t o T := by
  intro f
  induction f with
  | zero =>
    intro t o T h
    match o with
    | none => cases h; exact Enc.absent
    | some i => cases h
  | succ n ih =>
    intro t o T h
    match o with
    | none => cases h; exact Enc.absent
    | some i =>
      by_cases h0 : i = 0
      · subst h0
        simp [itreeF] at h
        subst h
        exact Enc.nil
      · by_cases hlen : i < t.nodes.length
        · simp only [itreeF, if_neg h0, if_pos hlen] at h
          match hl : itreeF n t (nd t i).left, hr : itreeF n t (nd t i).right with
          | some l, some r =>
            rw [hl, hr] at h
            cases h
            exact Enc.node h0 hlen (ih hl) (ih hr)
          | some l, none => rw [hl, hr] at h; cases h
          | none, some r => rw [hl, hr] at h; cases h
          | none, none => rw [hl, hr] at h; cases h
        · simp [itreeF, h0, hlen] at h

/-- The full well-formedness invariant of reachable arenas, with the
encoded tree `T` exposed: non-empty arena, a non-sentinel root, both child
links present on every real node, and the reachable structure a
duplicate-free, parent-consistent tree containing every real node. -/
def WFT (t : RBTree) (T : ITree) : Prop :=
  0 < t.nodes.length ∧
  (∀ r, t.root = some r → r ≠ 0) ∧
  (∀ i, i ≠ 0 → i < t.nodes.length →
    (nd t i).left ≠ none ∧ (nd t i).right ≠ none) ∧
  Enc t t.root T ∧ T.idxs.Nodup ∧ pcT t T none ∧
  (∀ i, i ≠ 0 → i < t.nodes.length → i ∈ T.idxs)

/-- A well-formed arena: some index tree witnesses `WFT`. -/
def WF (t : RBTree) : Prop := ∃ T : ITree, WFT t T

/-! ## Frame and membership lemmas for `Enc` / `pcT` -/

theorem enc_frame {t t' : RBTree} (hlen : t'.nodes.length = t.nodes.length) :
    ∀ {o : Option Nat} {S : ITree}, Enc t o S →
      (∀ k, k ∈ S.idxs →
        (nd t' k).left = (nd t k).left ∧ (nd t' k).right = (nd t k).right) →
      Enc t' o S := by
  intro o S hE
  induction hE with
  | absent => intro _; exact Enc.absent
  | nil => intro _; exact Enc.nil
  | node h0 hl hL hR ihL ihR =>
    intro h
    rename_i i l r
    have hi := h i (by simp [ITree.idxs])
    have hL' := ihL (fun k hk => h k (by simp [ITree.idxs, hk]))
    have hR' := ihR (fun k hk => h k (by simp [ITree.idxs, hk]))
    exact Enc.node h0 (hlen ▸ hl) (hi.1.symm ▸ hL') (hi.2.symm ▸ hR')

theorem pcT_frame {t t' : RBTree} :
    ∀ {S : ITree} {q : Option Nat}, pcT t S q →
      (∀ k, k ∈ S.idxs → (nd t' k).parent = (nd t k).parent) → pcT t' S q := by
  intro S
  induction S with
  | leaf => intro q _ _; trivial
  | node i l r ihl ihr =>
    intro q h hf
    obtain ⟨hp, hl, hr⟩ := h
    refine ⟨?_, ?_, ?_⟩
    · rw [hf i (by simp [ITree.idxs])]; exact hp
    · exact ihl hl (fun k hk => hf k (by simp [ITree.idxs, hk]))
    · exact ihr hr (fun k hk => hf k (by simp [ITree.idxs, hk]))

theorem valsIn_frame {t t' : RBTree} :
    ∀ {S : ITree}, (∀ k, k ∈ S.idxs → (nd t' k).data = (nd t k).data) →
      S.valsIn t' = S.valsIn t := by
  intro S
  induction S with
  | leaf => intro _; rfl
  | node i l r ihl ihr =>
    intro h
    show l.valsIn t' ++ (nd t' i).data :: r.valsIn t' = l.valsIn t ++ (nd t i).data :: r.valsIn t
    rw [h i (by simp [ITree.idxs]),
        ihl (fun k hk => h k (by simp [ITree.idxs, hk])),
        ihr (fun k hk => h k (by simp [ITree.idxs, hk]))]

/-- Indices occurring in an encoded tree are non-sentinel and in range. -/
theorem enc_mem {t : RBTree} :
    ∀ {o : Option Nat} {S : ITree}, Enc t o S → ∀ k, k ∈ S.idxs →
      k ≠ 0 ∧ k < t.nodes.length := by
  intro o S hE
  induction hE with
  | absent => intro k hk; cases hk
  | nil => intro k hk; cases hk
  | node h0 hl hL hR ihL ihR =>
    intro k hk
    rename_i i l r
    simp [ITree.idxs] at hk
    rcases hk with hk | rfl | hk
    · exact ihL k hk
    · exact ⟨h0, hl⟩
    · exact ihR k hk

/-- An encoded node of the tree: its incoming link is `some` of it. -/
theorem enc_node_shape {t : RBTree} {i : Nat} {S : ITree}
    (hE : Enc t (some i) S) (h0 : i ≠ 0) :
    ∃ l r, S = ITree.node i l r ∧ i < t.nodes.length ∧
      Enc t (nd t i).left l ∧ Enc t (nd t i).right r := by
  cases hE with
  | nil => exact absurd rfl h0
  | node h0' hl hL hR => exact ⟨_, _, rfl, hl, hL, hR⟩

/-- The real right child of a member of an encoded tree is a member. -/
theorem enc_right_mem {t : RBTree} :
    ∀ {o : Option Nat} {S : ITree}, Enc t o S → ∀ {x y : Nat}, x ∈ S.idxs →
      (nd t x).right = some y → y ≠ 0 → y ∈ S.idxs := by
  intro o S hE
  induction hE with
  | absent => intro x y hx _ _; cases hx
  | nil => intro x y hx _ _; cases hx
  | node h0 hl hL hR ihL ihR =>
    intro x y hx hxy hy0
    rename_i i l r
    simp [ITree.idxs] at hx ⊢
    rcases hx with hx | rfl | hx
    · exact Or.inl (ihL hx hxy hy0)
    · obtain ⟨rl, rr, rfl, _, _, _⟩ := enc_node_shape (hxy ▸ hR) hy0
      simp [ITree.idxs]
    · exact Or.inr (Or.inr (ihR hx hxy hy0))

/-- The real left child of a member of an encoded tree is a member. -/
theorem enc_left_mem {t : RBTree} :
    ∀ {o : Option Nat} {S : ITree}, Enc t o S → ∀ {x y : Nat}, x ∈ S.idxs →
      (nd t x).left = some y → y ≠ 0 → y ∈ S.idxs := by
  intro o S hE
  induction hE with
  | absent => intro x y hx _ _; cases hx
  | nil => intro x y hx _ _; cases hx
  | node h0 hl hL hR ihL ihR =>
    intro x y hx hxy hy0
    rename_i i l r
    simp [ITree.idxs] at hx ⊢
    rcases hx with hx | rfl | hx
    · exact Or.inl (ihL hx hxy hy0)
    · obtain ⟨rl, rr, rfl, _, _, _⟩ := enc_node_shape (hxy ▸ hL) hy0
      simp [ITree.idxs]
    · exact Or.inr (Or.inr (ihR hx hxy hy0))

/-- A member of an encoded, parent-consistent tree either is pointed to by
the incoming link (parent link `q`) or has a member parent holding it as a
child. -/
theorem enc_parent_mem {t : RBTree} :
    ∀ {o : Option Nat} {S : ITree}, Enc t o S → ∀ {q : Option Nat}, pcT t S q →
      ∀ {x : Nat}, x ∈ S.idxs →
      (o = some x ∧ (nd t x).parent = q) ∨
      (∃ pp, (nd t x).parent = some pp ∧ pp ∈ S.idxs ∧
        ((nd t pp).left = some x ∨ (nd t pp).right = some x)) := by
  intro o S hE
  induction hE with
  | absent => intro q _ x hx; cases hx
  | nil => intro q _ x hx; cases hx
  | node h0 hlen hL hR ihL ihR =>
    rename_i i l r
    intro q hPC x hx
    obtain ⟨hp, hpl, hpr⟩ := hPC
    have hx' : x ∈ l.idxs ∨ x = i ∨ x ∈ r.idxs := by simpa [ITree.idxs] using hx
    rcases hx' with hx1 | rfl | hx1
    · rcases ihL hpl hx1 with ⟨hlink, hpar⟩ | ⟨pp, hpar, hmem, hside⟩
      · exact Or.inr ⟨i, hpar, by simp [ITree.idxs], Or.inl hlink⟩
      · exact Or.inr ⟨pp, hpar, by simp [ITree.idxs, hmem], hside⟩
    · exact Or.inl ⟨rfl, hp⟩
    · rcases ihR hpr hx1 with ⟨hlink, hpar⟩ | ⟨pp, hpar, hmem, hside⟩
      · exact Or.inr ⟨i, hpar, by simp [ITree.idxs], Or.inr hlink⟩
      · exact Or.inr ⟨pp, hpar, by simp [ITree.idxs, hmem], hside⟩

/-! ## Characterizing the writes of a rotation -/

theorem length_setLeft (t : RBTree) (i : Nat) (v : Option Nat) :
    (setLeft t i v).nodes.length = t.nodes.length := length_setField ..
theorem length_setRight (t : RBTree) (i : Nat) (v : Option Nat) :
    (setRight t i v).nodes.length = t.nodes.length := length_setField ..
theorem length_setParent (t : RBTree) (i : Nat) (v : Option Nat) :
    (setParent t i v).nodes.length = t.nodes.length := length_setField ..
theorem length_setColor (t : RBTree) (i : Nat) (c : Color) :
    (setColor t i c).nodes.length = t.nodes.length := length_setField ..
theorem length_setRoot (t : RBTree) (r : Option Nat) :
    (setRoot t r).nodes.length = t.nodes.length := rfl
theorem root_setLeft (t : RBTree) (i : Nat) (v : Option Nat) :
    (setLeft t i v).root = t.root := rfl
theorem root_setRight (t : RBTree) (i : Nat) (v : Option Nat) :
    (setRight t i v).root = t.root := rfl
theorem root_setParent (t : RBTree) (i : Nat) (v : Option Nat) :
    (setParent t i v).root = t.root := rfl
theorem root_setColor (t : RBTree) (i : Nat) (c : Color) :
    (setColor t i c).root = t.root := rfl
theorem root_setRoot (t : RBTree) (r : Option Nat) : (setRoot t r).root = r := rfl
theorem nd_setRoot (t : RBTree) (r : Option Nat) (j : Nat) :
    nd (setRoot t r) j = nd t j := rfl

theorem lt_of_right_some {t : RBTree} {x y : Nat} (h : (nd t x).right = some y) :
    x < t.nodes.length := by
  by_contra hc
  rw [nd_oob t x (Nat.le_of_not_lt hc)] at h
  simp [nilNode] at h

theorem lt_of_left_some {t : RBTree} {x y : Nat} (h : (nd t x).left = some y) :
    x < t.nodes.length := by
  by_contra hc
  rw [nd_oob t x (Nat.le_of_not_lt hc)] at h
  simp [nilNode] at h

theorem lt_of_parent_some {t : RBTree} {x y : Nat} (h : (nd t x).parent = some y) :
    x < t.nodes.length := by
  by_contra hc
  rw [nd_oob t x (Nat.le_of_not_lt hc)] at h
  simp [nilNode] at h

/-- `left_rotate` at a node `x` whose parent link is absent: the writes it
performs, node by node.  `y` is `x`'s right child, `b0l` is `y`'s left
child. -/
theorem lrot_char_root (t : RBTree) (x y b0l : Nat)
    (hxy : (nd t x).right = some y)
    (hb0 : (nd t y).left = some b0l)
    (hxney : x ≠ y) (hbx : b0l ≠ x) (hby : b0l ≠ y)
    (hblen : b0l < t.nodes.length)
    (hxp : (nd t x).parent = none) :
    ∃ t', left_rotate t x = some t' ∧
      t'.nodes.length = t.nodes.length ∧
      t'.root = some y ∧
      (∀ k, k ≠ x → k ≠ y → k ≠ b0l → nd t' k = nd t k) ∧
      nd t' x = { nd t x with right := some b0l, parent := some y } ∧
      nd t' y = { nd t y with left := some x, parent := none } ∧
      nd t' b0l = { nd t b0l with parent := some x } := by
  have hxlen : x < t.nodes.length := lt_of_right_some hxy
  have hylen : y < t.nodes.length := lt_of_left_some hb0
  have hyx : y ≠ x := Ne.symm hxney
  have hxb : x ≠ b0l := Ne.symm hbx
  have hyb : y ≠ b0l := Ne.symm hby
  have h1 : (nd (setRight t x (some b0l)) y).left = some b0l := by
    rw [nd_setRight, if_neg (fun h => hxney h.1)]
    exact hb0
  have h2 : (nd (setParent (setRight t x (some b0l)) b0l (some x)) x).parent = none := by
    rw [nd_setParent, if_neg (fun h => hbx h.1), nd_setRight, if_pos ⟨rfl, hxlen⟩]
    exact hxp
  have h3 : (nd (setParent (setParent (setRight t x (some b0l)) b0l (some x)) y none) x).parent
      = none := by
    rw [nd_setParent, if_neg (fun h => hxney h.1.symm)]
    exact h2
  have heq : left_rotate t x =
      some (setParent (setLeft (setRoot (setParent (setParent (setRight t x (some b0l)) b0l
        (some x)) y none) (some y)) y (some x)) x (some y)) := by
    simp only [left_rotate, hxy, hb0, h1, h2, h3]
  refine ⟨_, heq, ?_, ?_, ?_, ?_, ?_, ?_⟩
  · simp [length_setParent, length_setLeft, length_setRoot, length_setRight]
  · simp [root_setParent, root_setLeft, root_setRoot]
  · intro k hkx hky hkb
    rw [nd_setParent, if_neg (fun h => hkx h.1.symm), nd_setLeft,
      if_neg (fun h => hky h.1.symm), nd_setRoot, nd_setParent,
      if_neg (fun h => hky h.1.symm), nd_setParent, if_neg (fun h => hkb h.1.symm),
      nd_setRight, if_neg (fun h => hkx h.1.symm)]
  · rw [nd_setParent, if_pos ⟨rfl, by
        simp [length_setParent, length_setLeft, length_setRoot, length_setRight, hxlen]⟩,
      nd_setLeft, if_neg (fun h => hyx h.1), nd_setRoot, nd_setParent,
      if_neg (fun h => hyx h.1), nd_setParent, if_neg (fun h => hbx h.1),
      nd_setRight, if_pos ⟨rfl, hxlen⟩]
  · rw [nd_setParent, if_neg (fun h => hxney h.1), nd_setLeft, if_pos ⟨rfl, by
        simp [length_setParent, length_setRoot, length_setRight, hylen]⟩,
      nd_setRoot, nd_setParent, if_pos ⟨rfl, by
        simp [length_setParent, length_setRight, hylen]⟩,
      nd_setParent, if_neg (fun h => hby h.1), nd_setRight, if_neg (fun h => hxney h.1)]
  · rw [nd_setParent, if_neg (fun h => hxb h.1), nd_setLeft, if_neg (fun h => hyb h.1),
      nd_setRoot, nd_setParent, if_neg (fun h => hyb h.1), nd_setParent, if_pos ⟨rfl, by
        simp [length_setRight, hblen]⟩,
      nd_setRight, if_neg (fun h => hxb h.1)]

/-- `left_rotate` at a node `x` whose parent link is `some qq` and which is
`qq`'s left child: as `lrot_char_root`, but `qq`'s left slot is redirected
to `y` and the root is unchanged. -/
theorem lrot_char_slotL (t : RBTree) (x y b0l qq : Nat)
    (hxy : (nd t x).right = some y)
    (hb0 : (nd t y).left = some b0l)
    (hxney : x ≠ y) (hbx : b0l ≠ x) (hby : b0l ≠ y)
    (hblen : b0l < t.nodes.length)
    (hqx : qq ≠ x) (hqy : qq ≠ y) (hqb : qq ≠ b0l)
    (hxp : (nd t x).parent = some qq)
    (hq_left : (nd t qq).left = some x) :
    ∃ t', left_rotate t x = some t' ∧
      t'.nodes.length = t.nodes.length ∧
      t'.root = t.root ∧
      (∀ k, k ≠ x → k ≠ y → k ≠ b0l → k ≠ qq → nd t' k = nd t k) ∧
      nd t' x = { nd t x with right := some b0l, parent := some y } ∧
      nd t' y = { nd t y with left := some x, parent := some qq } ∧
      nd t' b0l = { nd t b0l with parent := some x } ∧
      nd t' qq = { nd t qq with left := some y } := by
  have hxlen : x < t.nodes.length := lt_of_right_some hxy
  have hylen : y < t.nodes.length := lt_of_left_some hb0
  have hqlen : qq < t.nodes.length := lt_of_left_some hq_left
  have hyx : y ≠ x := Ne.symm hxney
  have hxb : x ≠ b0l := Ne.symm hbx
  have hyb : y ≠ b0l := Ne.symm hby
  have hxq : x ≠ qq := Ne.symm hqx
  have hyq : y ≠ qq := Ne.symm hqy
  have hbq : b0l ≠ qq := Ne.symm hqb
  have h1 : (nd (setRight t x (some b0l)) y).left = some b0l := by
    rw [nd_setRight, if_neg (fun h => hxney h.1)]
    exact hb0
  have h2 : (nd (setParent (setRight t x (some b0l)) b0l (some x)) x).parent = some qq := by
    rw [nd_setParent, if_neg (fun h => hbx h.1), nd_setRight, if_pos ⟨rfl, hxlen⟩]
    exact hxp
  have h3 : (nd (setParent (setParent (setRight t x (some b0l)) b0l (some x)) y
      (some qq)) x).parent = some qq := by
    rw [nd_setParent, if_neg (fun h => hyx h.1)]
    exact h2
  have h4 : (nd (setParent (setParent (setRight t x (some b0l)) b0l (some x)) y
      (some qq)) qq).left = some x := by
    rw [nd_setParent, if_neg (fun h => hyq h.1), nd_setParent, if_neg (fun h => hbq h.1),
      nd_setRight, if_neg (fun h => hxq h.1)]
    exact hq_left
  have heq : left_rotate t x =
      some (setParent (setLeft (setLeft (setParent (setParent (setRight t x (some b0l)) b0l
        (some x)) y (some qq)) qq (some y)) y (some x)) x (some y)) := by
    simp only [left_rotate, hxy, hb0, h1, h2, h3, h4, if_pos rfl, if_true]
  refine ⟨_, heq, ?_, ?_, ?_, ?_, ?_, ?_, ?_⟩
  · simp [length_setParent, length_setLeft, length_setRight]
  · simp [root_setParent, root_setLeft, root_setRight]
  · intro k hkx hky hkb hkq
    rw [nd_setParent, if_neg (fun h => hkx h.1.symm), nd_setLeft,
      if_neg (fun h => hky h.1.symm), nd_setLeft, if_neg (fun h => hkq h.1.symm),
      nd_setParent, if_neg (fun h => hky h.1.symm), nd_setParent,
      if_neg (fun h => hkb h.1.symm), nd_setRight, if_neg (fun h => hkx h.1.symm)]
  · rw [nd_setParent, if_pos ⟨rfl, by
        simp [length_setParent, length_setLeft, length_setRight, hxlen]⟩,
      nd_setLeft, if_neg (fun h => hyx h.1), nd_setLeft, if_neg (fun h => hqx h.1),
      nd_setParent, if_neg (fun h => hyx h.1), nd_setParent, if_neg (fun h => hbx h.1),
      nd_setRight, if_pos ⟨rfl, hxlen⟩]
  · rw [nd_setParent, if_neg (fun h => hxney h.1), nd_setLeft, if_pos ⟨rfl, by
        simp [length_setParent, length_setLeft, length_setRight, hylen]⟩,
      nd_setLeft, if_neg (fun h => hqy h.1), nd_setParent, if_pos ⟨rfl, by
        simp [length_setParent, length_setRight, hylen]⟩,
      nd_setParent, if_neg (fun h => hby h.1), nd_setRight, if_neg (fun h => hxney h.1)]
  · rw [nd_setParent, if_neg (fun h => hxb h.1), nd_setLeft, if_neg (fun h => hyb h.1),
      nd_setLeft, if_neg (fun h => hqb h.1), nd_setParent, if_neg (fun h => hyb h.1),
      nd_setParent, if_pos ⟨rfl, by simp [length_setRight, hblen]⟩,
      nd_setRight, if_neg (fun h => hxb h.1)]
  · rw [nd_setParent, if_neg (fun h => hxq h.1), nd_setLeft, if_neg (fun h => hyq h.1),
      nd_setLeft, if_pos ⟨rfl, by
        simp [length_setParent, length_setRight, hqlen]⟩,
      nd_setParent, if_neg (fun h => hyq h.1), nd_setParent, if_neg (fun h => hbq h.1),
      nd_setRight, if_neg (fun h => hxq h.1)]

/-- `left_rotate` at a node `x` whose parent link is `some qq` and which is
not `qq`'s left child (so the code redirects `qq`'s right slot). -/
theorem lrot_char_slotR (t : RBTree) (x y b0l qq ql : Nat)
    (hxy : (nd t x).right = some y)
    (hb0 : (nd t y).left = some b0l)
    (hxney : x ≠ y) (hbx : b0l ≠ x) (hby : b0l ≠ y)
    (hblen : b0l < t.nodes.length)
    (hqx : qq ≠ x) (hqy : qq ≠ y) (hqb : qq ≠ b0l)
    (hxp : (nd t x).parent = some qq)
    (hql : (nd t qq).left = some ql) (hqlx : ql ≠ x) :
    ∃ t', left_rotate t x = some t' ∧
      t'.nodes.length = t.nodes.length ∧
      t'.root = t.root ∧
      (∀ k, k ≠ x → k ≠ y → k ≠ b0l → k ≠ qq → nd t' k = nd t k) ∧
      nd t' x = { nd t x with right := some b0l, parent := some y } ∧
      nd t' y = { nd t y with left := some x, parent := some qq } ∧
      nd t' b0l = { nd t b0l with parent := some x } ∧
      nd t' qq = { nd t qq with right := some y } := by
  have hxlen : x < t.nodes.length := lt_of_right_some hxy
  have hylen : y < t.nodes.length := lt_of_left_some hb0
  have hqlen : qq < t.nodes.length := lt_of_left_some hql
  have hyx : y ≠ x := Ne.symm hxney
  have hxb : x ≠ b0l := Ne.symm hbx
  have hyb : y ≠ b0l := Ne.symm hby
  have hxq : x ≠ qq := Ne.symm hqx
  have hyq : y ≠ qq := Ne.symm hqy
  have hbq : b0l ≠ qq := Ne.symm hqb
  have hxql : x ≠ ql := Ne.symm hqlx
  have h1 : (nd (setRight t x (some b0l)) y).left = some b0l := by
    rw [nd_setRight, if_neg (fun h => hxney h.1)]
    exact hb0
  have h2 : (nd (setParent (setRight t x (some b0l)) b0l (some x)) x).parent = some qq := by
    rw [nd_setParent, if_neg (fun h => hbx h.1), nd_setRight, if_pos ⟨rfl, hxlen⟩]
    exact hxp
  have h3 : (nd (setParent (setParent (setRight t x (some b0l)) b0l (some x)) y
      (some qq)) x).parent = some qq := by
    rw [nd_setParent, if_neg (fun h => hyx h.1)]
    exact h2
  have h4 : (nd (setParent (setParent (setRight t x (some b0l)) b0l (some x)) y
      (some qq)) qq).left = some ql := by
    rw [nd_setParent, if_neg (fun h => hyq h.1), nd_setParent, if_neg (fun h => hbq h.1),
      nd_setRight, if_neg (fun h => hxq h.1)]
    exact hql
  have heq : left_rotate t x =
      some (setParent (setLeft (setRight (setParent (setParent (setRight t x (some b0l)) b0l
        (some x)) y (some qq)) qq (some y)) y (some x)) x (some y)) := by
    simp only [left_rotate, hxy, hb0, h1, h2, h3, h4, if_neg hxql]
  refine ⟨_, heq, ?_, ?_, ?_, ?_, ?_, ?_, ?_⟩
  · simp [length_setParent, length_setLeft, length_setRight]
  · simp [root_setParent, root_setLeft, root_setRight]
  · intro k hkx hky hkb hkq
    rw [nd_setParent, if_neg (fun h => hkx h.1.symm), nd_setLeft,
      if_neg (fun h => hky h.1.symm), nd_setRight, if_neg (fun h => hkq h.1.symm),
      nd_setParent, if_neg (fun h => hky h.1.symm), nd_setParent,
      if_neg (fun h => hkb h.1.symm), nd_setRight, if_neg (fun h => hkx h.1.symm)]
  · rw [nd_setParent, if_pos ⟨rfl, by
        simp [length_setParent, length_setLeft, length_setRight, hxlen]⟩,
      nd_setLeft, if_neg (fun h => hyx h.1), nd_setRight, if_neg (fun h => hqx h.1),
      nd_setParent, if_neg (fun h => hyx h.1), nd_setParent, if_neg (fun h => hbx h.1),
      nd_setRight, if_pos ⟨rfl, hxlen⟩]
  · rw [nd_setParent, if_neg (fun h => hxney h.1), nd_setLeft, if_pos ⟨rfl, by
        simp [length_setParent, length_setRight, hylen]⟩,
      nd_setRight, if_neg (fun h => hqy h.1), nd_setParent, if_pos ⟨rfl, by
        simp [length_setParent, length_setRight, hylen]⟩,
      nd_setParent, if_neg (fun h => hby h.1), nd_setRight, if_neg (fun h => hxney h.1)]
  · rw [nd_setParent, if_neg (fun h => hxb h.1), nd_setLeft, if_neg (fun h => hyb h.1),
      nd_setRight, if_neg (fun h => hqb h.1), nd_setParent, if_neg (fun h => hyb h.1),
      nd_setParent, if_pos ⟨rfl, by simp [length_setRight, hblen]⟩,
      nd_setRight, if_neg (fun h => hxb h.1)]
  · rw [nd_setParent, if_neg (fun h => hxq h.1), nd_setLeft, if_neg (fun h => hyq h.1),
      nd_setRight, if_pos ⟨rfl, by
        simp [length_setParent, length_setRight, hqlen]⟩,
      nd_setParent, if_neg (fun h => hyq h.1), nd_setParent, if_neg (fun h => hbq h.1),
      nd_setRight, if_neg (fun h => hxq h.1)]

/-- `right_rotate` at a node `x` whose parent link is absent: the writes it
performs, node by node.  `y` is `x`'s right child, `b0r` is `y`'s left
child. -/
theorem rrot_char_root (t : RBTree) (x y b0r : Nat)
    (hxy : (nd t x).left = some y)
    (hb0 : (nd t y).right = some b0r)
    (hxney : x ≠ y) (hbx : b0r ≠ x) (hby : b0r ≠ y)
    (hblen : b0r < t.nodes.length)
    (hxp : (nd t x).parent = none) :
    ∃ t', right_rotate t x = some t' ∧
      t'.nodes.length = t.nodes.length ∧
      t'.root = some y ∧
      (∀ k, k ≠ x → k ≠ y → k ≠ b0r → nd t' k = nd t k) ∧
      nd t' x = { nd t x with left := some b0r, parent := some y } ∧
      nd t' y = { nd t y with right := some x, parent := none } ∧
      nd t' b0r = { nd t b0r with parent := some x } := by
  have hxlen : x < t.nodes.length := lt_of_left_some hxy
  have hylen : y < t.nodes.length := lt_of_right_some hb0
  have hyx : y ≠ x := Ne.symm hxney
  have hxb : x ≠ b0r := Ne.symm hbx
  have hyb : y ≠ b0r := Ne.symm hby
  have h1 : (nd (setLeft t x (some b0r)) y).right = some b0r := by
    rw [nd_setLeft, if_neg (fun h => hxney h.1)]
    exact hb0
  have h2 : (nd (setParent (setLeft t x (some b0r)) b0r (some x)) x).parent = none := by
    rw [nd_setParent, if_neg (fun h => hbx h.1), nd_setLeft, if_pos ⟨rfl, hxlen⟩]
    exact hxp
  have h3 : (nd (setParent (setParent (setLeft t x (some b0r)) b0r (some x)) y none) x).parent
      = none := by
    rw [nd_setParent, if_neg (fun h => hxney h.1.symm)]
    exact h2
  have heq : right_rotate t x =
      some (setParent (setRight (setRoot (setParent (setParent (setLeft t x (some b0r)) b0r
        (some x)) y none) (some y)) y (some x)) x (some y)) := by
    simp only [right_rotate, hxy, hb0, h1, h2, h3]
  refine ⟨_, heq, ?_, ?_, ?_, ?_, ?_, ?_⟩
  · simp [length_setParent, length_setRight, length_setRoot, length_setLeft]
  · simp [root_setParent, root_setRight, root_setRoot]
  · intro k hkx hky hkb
    rw [nd_setParent, if_neg (fun h => hkx h.1.symm), nd_setRight,
      if_neg (fun h => hky h.1.symm), nd_setRoot, nd_setParent,
      if_neg (fun h => hky h.1.symm), nd_setParent, if_neg (fun h => hkb h.1.symm),
      nd_setLeft, if_neg (fun h => hkx h.1.symm)]
  · rw [nd_setParent, if_pos ⟨rfl, by
        simp [length_setParent, length_setRight, length_setRoot, length_setLeft, hxlen]⟩,
      nd_setRight, if_neg (fun h => hyx h.1), nd_setRoot, nd_setParent,
      if_neg (fun h => hyx h.1), nd_setParent, if_neg (fun h => hbx h.1),
      nd_setLeft, if_pos ⟨rfl, hxlen⟩]
  · rw [nd_setParent, if_neg (fun h => hxney h.1), nd_setRight, if_pos ⟨rfl, by
        simp [length_setParent, length_setRoot, length_setLeft, hylen]⟩,
      nd_setRoot, nd_setParent, if_pos ⟨rfl, by
        simp [length_setParent, length_setLeft, hylen]⟩,
      nd_setParent, if_neg (fun h => hby h.1), nd_setLeft, if_neg (fun h => hxney h.1)]
  · rw [nd_setParent, if_neg (fun h => hxb h.1), nd_setRight, if_neg (fun h => hyb h.1),
      nd_setRoot, nd_setParent, if_neg (fun h => hyb h.1), nd_setParent, if_pos ⟨rfl, by
        simp [length_setLeft, hblen]⟩,
      nd_setLeft, if_neg (fun h => hxb h.1)]

/-- `right_rotate` at a node `x` whose parent link is `some qq` and which is
`qq`'s left child: as `rrot_char_root`, but `qq`'s left slot is redirected
to `y` and the root is unchanged. -/
theorem rrot_char_slotR (t : RBTree) (x y b0r qq : Nat)
    (hxy : (nd t x).left = some y)
    (hb0 : (nd t y).right = some b0r)
    (hxney : x ≠ y) (hbx : b0r ≠ x) (hby : b0r ≠ y)
    (hblen : b0r < t.nodes.length)
    (hqx : qq ≠ x) (hqy : qq ≠ y) (hqb : qq ≠ b0r)
    (hxp : (nd t x).parent = some qq)
    (hq_right : (nd t qq).right = some x) :
    ∃ t', right_rotate t x = some t' ∧
      t'.nodes.length = t.nodes.length ∧
      t'.root = t.root ∧
      (∀ k, k ≠ x → k ≠ y → k ≠ b0r → k ≠ qq → nd t' k = nd t k) ∧
      nd t' x = { nd t x with left := some b0r, parent := some y } ∧
      nd t' y = { nd t y with right := some x, parent := some qq } ∧
      nd t' b0r = { nd t b0r with parent := some x } ∧
      nd t' qq = { nd t qq with right := some y } := by
  have hxlen : x < t.nodes.length := lt_of_left_some hxy
  have hylen : y < t.nodes.length := lt_of_right_some hb0
  have hqren : qq < t.nodes.length := lt_of_right_some hq_right
  have hyx : y ≠ x := Ne.symm hxney
  have hxb : x ≠ b0r := Ne.symm hbx
  have hyb : y ≠ b0r := Ne.symm hby
  have hxq : x ≠ qq := Ne.symm hqx
  have hyq : y ≠ qq := Ne.symm hqy
  have hbq : b0r ≠ qq := Ne.symm hqb
  have h1 : (nd (setLeft t x (some b0r)) y).right = some b0r := by
    rw [nd_setLeft, if_neg (fun h => hxney h.1)]
    exact hb0
  have h2 : (nd (setParent (setLeft t x (some b0r)) b0r (some x)) x).parent = some qq := by
    rw [nd_setParent, if_neg (fun h => hbx h.1), nd_setLeft, if_pos ⟨rfl, hxlen⟩]
    exact hxp
  have h3 : (nd (setParent (setParent (setLeft t x (some b0r)) b0r (some x)) y
      (some qq)) x).parent = some qq := by
    rw [nd_setParent, if_neg (fun h => hyx h.1)]
    exact h2
  have h4 : (nd (setParent (setParent (setLeft t x (some b0r)) b0r (some x)) y
      (some qq)) qq).right = some x := by
    rw [nd_setParent, if_neg (fun h => hyq h.1), nd_setParent, if_neg (fun h => hbq h.1),
      nd_setLeft, if_neg (fun h => hxq h.1)]
    exact hq_right
  have heq : right_rotate t x =
      some (setParent (setRight (setRight (setParent (setParent (setLeft t x (some b0r)) b0r
        (some x)) y (some qq)) qq (some y)) y (some x)) x (some y)) := by
    simp only [right_rotate, hxy, hb0, h1, h2, h3, h4, if_pos rfl, if_true]
  refine ⟨_, heq, ?_, ?_, ?_, ?_, ?_, ?_, ?_⟩
  · simp [length_setParent, length_setRight, length_setLeft]
  · simp [root_setParent, root_setRight, root_setLeft]
  · intro k hkx hky hkb hkq
    rw [nd_setParent, if_neg (fun h => hkx h.1.symm), nd_setRight,
      if_neg (fun h => hky h.1.symm), nd_setRight, if_neg (fun h => hkq h.1.symm),
      nd_setParent, if_neg (fun h => hky h.1.symm), nd_setParent,
      if_neg (fun h => hkb h.1.symm), nd_setLeft, if_neg (fun h => hkx h.1.symm)]
  · rw [nd_setParent, if_pos ⟨rfl, by
        simp [length_setParent, length_setRight, length_setLeft, hxlen]⟩,
      nd_setRight, if_neg (fun h => hyx h.1), nd_setRight, if_neg (fun h => hqx h.1),
      nd_setParent, if_neg (fun h => hyx h.1), nd_setParent, if_neg (fun h => hbx h.1),
      nd_setLeft, if_pos ⟨rfl, hxlen⟩]
  · rw [nd_setParent, if_neg (fun h => hxney h.1), nd_setRight, if_pos ⟨rfl, by
        simp [length_setParent, length_setRight, length_setLeft, hylen]⟩,
      nd_setRight, if_neg (fun h => hqy h.1), nd_setParent, if_pos ⟨rfl, by
        simp [length_setParent, length_setLeft, hylen]⟩,
      nd_setParent, if_neg (fun h => hby h.1), nd_setLeft, if_neg (fun h => hxney h.1)]
  · rw [nd_setParent, if_neg (fun h => hxb h.1), nd_setRight, if_neg (fun h => hyb h.1),
      nd_setRight, if_neg (fun h => hqb h.1), nd_setParent, if_neg (fun h => hyb h.1),
      nd_setParent, if_pos ⟨rfl, by simp [length_setLeft, hblen]⟩,
      nd_setLeft, if_neg (fun h => hxb h.1)]
  · rw [nd_setParent, if_neg (fun h => hxq h.1), nd_setRight, if_neg (fun h => hyq h.1),
      nd_setRight, if_pos ⟨rfl, by
        simp [length_setParent, length_setLeft, hqren]⟩,
      nd_setParent, if_neg (fun h => hyq h.1), nd_setParent, if_neg (fun h => hbq h.1),
      nd_setLeft, if_neg (fun h => hxq h.1)]

/-- `right_rotate` at a node `x` whose parent link is `some qq` and which is
not `qq`'s left child (so the code redirects `qq`'s right slot). -/
theorem rrot_char_slotL (t : RBTree) (x y b0r qq qr : Nat)
    (hxy : (nd t x).left = some y)
    (hb0 : (nd t y).right = some b0r)
    (hxney : x ≠ y) (hbx : b0r ≠ x) (hby : b0r ≠ y)
    (hblen : b0r < t.nodes.length)
    (hqx : qq ≠ x) (hqy : qq ≠ y) (hqb : qq ≠ b0r)
    (hxp : (nd t x).parent = some qq)
    (hqr : (nd t qq).right = some qr) (hqrx : qr ≠ x) :
    ∃ t', right_rotate t x = some t' ∧
      t'.nodes.length = t.nodes.length ∧
      t'.root = t.root ∧
      (∀ k, k ≠ x → k ≠ y → k ≠ b0r → k ≠ qq → nd t' k = nd t k) ∧
      nd t' x = { nd t x with left := some b0r, parent := some y } ∧
      nd t' y = { nd t y with right := some x, parent := some qq } ∧
      nd t' b0r = { nd t b0r with parent := some x } ∧
      nd t' qq = { nd t qq with left := some y } := by
  have hxlen : x < t.nodes.length := lt_of_left_some hxy
  have hylen : y < t.nodes.length := lt_of_right_some hb0
  have hqren : qq < t.nodes.length := lt_of_right_some hqr
  have hyx : y ≠ x := Ne.symm hxney
  have hxb : x ≠ b0r := Ne.symm hbx
  have hyb : y ≠ b0r := Ne.symm hby
  have hxq : x ≠ qq := Ne.symm hqx
  have hyq : y ≠ qq := Ne.symm hqy
  have hbq : b0r ≠ qq := Ne.symm hqb
  have hxqr : x ≠ qr := Ne.symm hqrx
  have h1 : (nd (setLeft t x (some b0r)) y).right = some b0r := by
    rw [nd_setLeft, if_neg (fun h => hxney h.1)]
    exact hb0
  have h2 : (nd (setParent (setLeft t x (some b0r)) b0r (some x)) x).parent = some qq := by
    rw [nd_setParent, if_neg (fun h => hbx h.1), nd_setLeft, if_pos ⟨rfl, hxlen⟩]
    exact hxp
  have h3 : (nd (setParent (setParent (setLeft t x (some b0r)) b0r (some x)) y
      (some qq)) x).parent = some qq := by
    rw [nd_setParent, if_neg (fun h => hyx h.1)]
    exact h2
  have h4 : (nd (setParent (setParent (setLeft t x (some b0r)) b0r (some x)) y
      (some qq)) qq).right = some qr := by
    rw [nd_setParent, if_neg (fun h => hyq h.1), nd_setParent, if_neg (fun h => hbq h.1),
      nd_setLeft, if_neg (fun h => hxq h.1)]
    exact hqr
  have heq : right_rotate t x =
      some (setParent (setRight (setLeft (setParent (setParent (setLeft t x (some b0r)) b0r
        (some x)) y (some qq)) qq (some y)) y (some x)) x (some y)) := by
    simp only [right_rotate, hxy, hb0, h1, h2, h3, h4, if_neg hxqr]
  refine ⟨_, heq, ?_, ?_, ?_, ?_, ?_, ?_, ?_⟩
  · simp [length_setParent, length_setRight, length_setLeft]
  · simp [root_setParent, root_setRight, root_setLeft]
  · intro k hkx hky hkb hkq
    rw [nd_setParent, if_neg (fun h => hkx h.1.symm), nd_setRight,
      if_neg (fun h => hky h.1.symm), nd_setLeft, if_neg (fun h => hkq h.1.symm),
      nd_setParent, if_neg (fun h => hky h.1.symm), nd_setParent,
      if_neg (fun h => hkb h.1.symm), nd_setLeft, if_neg (fun h => hkx h.1.symm)]
  · rw [nd_setParent, if_pos ⟨rfl, by
        simp [length_setParent, length_setRight, length_setLeft, hxlen]⟩,
      nd_setRight, if_neg (fun h => hyx h.1), nd_setLeft, if_neg (fun h => hqx h.1),
      nd_setParent, if_neg (fun h => hyx h.1), nd_setParent, if_neg (fun h => hbx h.1),
      nd_setLeft, if_pos ⟨rfl, hxlen⟩]
  · rw [nd_setParent, if_neg (fun h => hxney h.1), nd_setRight, if_pos ⟨rfl, by
        simp [length_setParent, length_setLeft, hylen]⟩,
      nd_setLeft, if_neg (fun h => hqy h.1), nd_setParent, if_pos ⟨rfl, by
        simp [length_setParent, length_setLeft, hylen]⟩,
      nd_setParent, if_neg (fun h => hby h.1), nd_setLeft, if_neg (fun h => hxney h.1)]
  · rw [nd_setParent, if_neg (fun h => hxb h.1), nd_setRight, if_neg (fun h => hyb h.1),
      nd_setLeft, if_neg (fun h => hqb h.1), nd_setParent, if_neg (fun h => hyb h.1),
      nd_setParent, if_pos ⟨rfl, by simp [length_setLeft, hblen]⟩,
      nd_setLeft, if_neg (fun h => hxb h.1)]
  · rw [nd_setParent, if_neg (fun h => hxq h.1), nd_setRight, if_neg (fun h => hyq h.1),
      nd_setLeft, if_pos ⟨rfl, by
        simp [length_setParent, length_setLeft, hqren]⟩,
      nd_setParent, if_neg (fun h => hyq h.1), nd_setParent, if_neg (fun h => hbq h.1),
      nd_setLeft, if_neg (fun h => hxq h.1)]

theorem nodup_parts {i : Nat} {L R : ITree} (h : (ITree.node i L R).idxs.Nodup) :
    L.idxs.Nodup ∧ R.idxs.Nodup ∧ i ∉ L.idxs ∧ i ∉ R.idxs ∧
      ∀ a, a ∈ L.idxs → a ∉ R.idxs := by
  have h' : (L.idxs ++ i :: R.idxs).Nodup := h
  rw [List.nodup_append] at h'
  obtain ⟨h1, h2, h3⟩ := h'
  rw [List.nodup_cons] at h2
  refine ⟨h1, h2.2, ?_, h2.1, ?_⟩
  · intro hiL
    exact (h3 hiL) (List.mem_cons_self i _)
  · intro a ha haR
    exact (h3 ha) (List.mem_cons_of_mem _ haR)

theorem enc_root_of_mem {t : RBTree} {o : Option Nat} {S : ITree} (hE : Enc t o S)
    {x : Nat} (hx : x ∈ S.idxs) :
    ∃ sr l r, S = ITree.node sr l r ∧ o = some sr := by
  cases hE with
  | absent => cases hx
  | nil => cases hx
  | node h0 hl hL hR => exact ⟨_, _, _, rfl, rfl⟩

/-- Surgery of `left_rotate` on the encoded tree.  `t'` is any arena whose
fields relate to `t` exactly as the rotation's writes dictate (see the
`lrot_char_*` lemmas); rotating at a member `x` of an encoded,
duplicate-free, parent-consistent subtree turns it into the rotated
subtree: same index set, same in-order values, parent links consistent. -/
theorem rot_rebuild_left (t t' : RBTree) (x y b0l : Nat)
    (hlen : t'.nodes.length = t.nodes.length)
    (hxy : (nd t x).right = some y) (hy0 : y ≠ 0)
    (hb0 : (nd t y).left = some b0l)
    (hcs : ∀ i, i ≠ 0 → i < t.nodes.length →
        (nd t i).left ≠ none ∧ (nd t i).right ≠ none)
    (hframe : ∀ k, k ≠ x → k ≠ y → k ≠ b0l →
        (∀ pp, (nd t x).parent = some pp → k ≠ pp) → nd t' k = nd t k)
    (hx' : nd t' x = { nd t x with right := some b0l, parent := some y })
    (hy' : nd t' y = { nd t y with left := some x, parent := (nd t x).parent })
    (hb' : nd t' b0l = { nd t b0l with parent := some x })
    (hslot : ∀ pp, (nd t x).parent = some pp → pp ≠ x → pp ≠ y → pp ≠ b0l →
        (nd t' pp).parent = (nd t pp).parent ∧ (nd t' pp).data = (nd t pp).data ∧
        ((nd t pp).left = some x →
          (nd t' pp).left = some y ∧ (nd t' pp).right = (nd t pp).right) ∧
        (∀ ql, (nd t pp).left = some ql → ql ≠ x →
          (nd t' pp).left = (nd t pp).left ∧ (nd t' pp).right = some y)) :
    ∀ (T : ITree), T.idxs.Nodup → ∀ (j : Nat) (q : Option Nat),
      Enc t (some j) T → pcT t T q → x ∈ T.idxs →
      (∀ qq, q = some qq → qq ∉ T.idxs ∧ qq ≠ 0) →
      ∃ T', Enc t' (some (if x = j then y else j)) T' ∧
        T'.idxs = T.idxs ∧ pcT t' T' q ∧ T'.valsIn t' = T.valsIn t := by
  intro T
  induction T with
  | leaf =>
    intro _ j q _ _ hx _
    simp [ITree.idxs] at hx
  | node i L R ihL ihR =>
    intro hND j q hE hPC hxmem hq
    obtain ⟨hNDL, hNDR, hiL, hiR, hLRdisj⟩ := nodup_parts hND
    obtain ⟨hpj, hPCL, hPCR⟩ := hPC
    cases hE with
    | node h0 hilen hL hR =>
      have hxmem' : x ∈ L.idxs ∨ x = i ∨ x ∈ R.idxs := by simpa [ITree.idxs] using hxmem
      rcases hxmem' with hxL | rfl | hxR
      · -- x strictly inside the left subtree
        obtain ⟨lr, L1, L2, hLeq, hlink⟩ := enc_root_of_mem hL hxL
        have hEL : Enc t (some lr) L := hlink ▸ hL
        have hqL : ∀ qq, some i = some qq → qq ∉ L.idxs ∧ qq ≠ 0 := by
          intro qq hqq
          obtain rfl : i = qq := Option.some.inj hqq
          exact ⟨hiL, h0⟩
        obtain ⟨TL', hEncL', hIdxL', hPCL', hValsL'⟩ := ihL hNDL lr (some i) hEL hPCL hxL hqL
        have hyL : y ∈ L.idxs := enc_right_mem hEL hxL hxy hy0
        have hb0lL : b0l ≠ 0 → b0l ∈ L.idxs := fun hz => enc_left_mem hEL hyL hb0 hz
        have hxnei : x ≠ i := fun h => hiL (h ▸ hxL)
        have hynei : y ≠ i := fun h => hiL (h ▸ hyL)
        have hbnei : i ≠ b0l := by
          by_cases hz : b0l = 0
          · exact fun h => h0 (h.trans hz)
          · exact fun h => hiL (h ▸ hb0lL hz)
        by_cases hxlr : x = lr
        · -- x is the root of L: the slot write lands on i's left slot
          subst hxlr
          rw [hLeq] at hPCL
          obtain ⟨hpx, _, _⟩ := hPCL
          have hileft : (nd t i).left = some x := hlink
          obtain ⟨hpi_par, hpi_data, hcaseL, _⟩ :=
            hslot i hpx (Ne.symm hxnei) (Ne.symm hynei) hbnei
          obtain ⟨hileft', hiright'⟩ := hcaseL hileft
          have hndR : ∀ k, k ∈ R.idxs → nd t' k = nd t k := by
            intro k hk
            refine hframe k (fun h => hLRdisj x hxL (h ▸ hk))
              (fun h => hLRdisj y hyL (h ▸ hk)) ?_ ?_
            · by_cases hz : b0l = 0
              · exact fun h => (enc_mem hR k hk).1 (h.trans hz)
              · exact fun h => hLRdisj b0l (hb0lL hz) (h ▸ hk)
            · intro pp hpp
              rw [hpx] at hpp
              obtain rfl : i = pp := Option.some.inj hpp
              exact fun h => hiR (h ▸ hk)
          refine ⟨ITree.node i TL' R, ?_, ?_, ?_, ?_⟩
          · rw [if_neg hxnei]
            refine Enc.node h0 (by rw [hlen]; exact hilen) ?_ ?_
            · rw [hileft']
              rw [if_pos rfl] at hEncL'
              exact hEncL'
            · rw [hiright']
              refine enc_frame hlen hR ?_
              intro k hk
              rw [hndR k hk]
              exact ⟨rfl, rfl⟩
          · simp [ITree.idxs, hIdxL']
          · refine ⟨?_, hPCL', ?_⟩
            · rw [hpi_par]
              exact hpj
            · refine pcT_frame hPCR ?_
              intro k hk
              rw [hndR k hk]
          · have vR : R.valsIn t' = R.valsIn t :=
              valsIn_frame (fun k hk => by rw [hndR k hk])
            show TL'.valsIn t' ++ (nd t' i).data :: R.valsIn t' =
              L.valsIn t ++ (nd t i).data :: R.valsIn t
            rw [hValsL', hpi_data, vR]
        · -- x is deeper inside L: i's fields are untouched
          rcases enc_parent_mem hEL hPCL hxL with ⟨hlrx, _⟩ | ⟨pp, hppx, hppL, _⟩
          · exact absurd (Option.some.inj hlrx).symm hxlr
          have hndi : nd t' i = nd t i := by
            refine hframe i (Ne.symm hxnei) (Ne.symm hynei) hbnei ?_
            intro pp' hpp'
            rw [hppx] at hpp'
            obtain rfl : pp = pp' := Option.some.inj hpp'
            exact fun h => hiL (h ▸ hppL)
          have hndR : ∀ k, k ∈ R.idxs → nd t' k = nd t k := by
            intro k hk
            refine hframe k (fun h => hLRdisj x hxL (h ▸ hk))
              (fun h => hLRdisj y hyL (h ▸ hk)) ?_ ?_
            · by_cases hz : b0l = 0
              · exact fun h => (enc_mem hR k hk).1 (h.trans hz)
              · exact fun h => hLRdisj b0l (hb0lL hz) (h ▸ hk)
            · intro pp' hpp'
              rw [hppx] at hpp'
              obtain rfl : pp = pp' := Option.some.inj hpp'
              exact fun h => hLRdisj pp hppL (h ▸ hk)
          refine ⟨ITree.node i TL' R, ?_, ?_, ?_, ?_⟩
          · rw [if_neg hxnei]
            refine Enc.node h0 (by rw [hlen]; exact hilen) ?_ ?_
            · rw [show (nd t' i).left = some lr from by rw [hndi]; exact hlink]
              rw [if_neg hxlr] at hEncL'
              exact hEncL'
            · rw [show (nd t' i).right = (nd t i).right from by rw [hndi]]
              refine enc_frame hlen hR ?_
              intro k hk
              rw [hndR k hk]
              exact ⟨rfl, rfl⟩
          · simp [ITree.idxs, hIdxL']
          · refine ⟨?_, hPCL', ?_⟩
            · rw [show (nd t' i).parent = (nd t i).parent from by rw [hndi]]
              exact hpj
            · refine pcT_frame hPCR ?_
              intro k hk
              rw [hndR k hk]
          · have vR : R.valsIn t' = R.valsIn t :=
              valsIn_frame (fun k hk => by rw [hndR k hk])
            show TL'.valsIn t' ++ (nd t' i).data :: R.valsIn t' =
              L.valsIn t ++ (nd t i).data :: R.valsIn t
            rw [hValsL', show (nd t' i).data = (nd t i).data from by rw [hndi], vR]
      · -- x is the root of this subtree
        have hRy : Enc t (some y) R := hxy ▸ hR
        obtain ⟨B1, B2, rfl, hylen, hB1, hB2⟩ := enc_node_shape hRy hy0
        have hyR : y ∈ (ITree.node y B1 B2).idxs := by simp [ITree.idxs]
        have hxney : x ≠ y := fun h => hiR (h ▸ hyR)
        obtain ⟨hNB1, hNB2, hyB1, hyB2, hB12disj⟩ := nodup_parts hNDR
        have hB1b : Enc t (some b0l) B1 := hb0 ▸ hB1
        have hb0lR : b0l ≠ 0 → b0l ∈ (ITree.node y B1 B2).idxs :=
          fun hz => enc_left_mem hRy hyR hb0 hz
        have hb0lB1 : b0l ≠ 0 → b0l ∈ B1.idxs := by
          intro hz
          obtain ⟨B11, B12, hB1eq, _, _, _⟩ := enc_node_shape hB1b hz
          rw [hB1eq]
          simp [ITree.idxs]
        obtain ⟨hpy, pcB1, pcB2⟩ := hPCR
        have hxp_q : (nd t x).parent = q := hpj
        have hguard : ∀ k, k ∈ (ITree.node x L (ITree.node y B1 B2)).idxs →
            ∀ pp, (nd t x).parent = some pp → k ≠ pp := by
          intro k hk pp hpp
          rw [hxp_q] at hpp
          obtain ⟨hnot, _⟩ := hq pp hpp
          exact fun h => hnot (h ▸ hk)
        have hndL : ∀ k, k ∈ L.idxs → nd t' k = nd t k := by
          intro k hk
          have hkT : k ∈ (ITree.node x L (ITree.node y B1 B2)).idxs := by
            simp [ITree.idxs, hk]
          refine hframe k (fun h => hiL (h ▸ hk)) (fun h => hLRdisj k hk (h ▸ hyR)) ?_
            (hguard k hkT)
          by_cases hz : b0l = 0
          · exact fun h => (enc_mem hL k hk).1 (h.trans hz)
          · exact fun h => hLRdisj k hk (h ▸ hb0lR hz)
        have hndB2 : ∀ k, k ∈ B2.idxs → nd t' k = nd t k := by
          intro k hk
          have hkR : k ∈ (ITree.node y B1 B2).idxs := by simp [ITree.idxs, hk]
          have hkT : k ∈ (ITree.node x L (ITree.node y B1 B2)).idxs := by
            simp [ITree.idxs, hk]
          refine hframe k (fun h => hiR (h ▸ hkR)) (fun h => hyB2 (h ▸ hk)) ?_
            (hguard k hkT)
          by_cases hz : b0l = 0
          · exact fun h => (enc_mem hB2 k hk).1 (h.trans hz)
          · exact fun h => hB12disj b0l (hb0lB1 hz) (h ▸ hk)
        have hndB1ne : ∀ k, k ∈ B1.idxs → k ≠ b0l → nd t' k = nd t k := by
          intro k hk hkb
          have hkR : k ∈ (ITree.node y B1 B2).idxs := by simp [ITree.idxs, hk]
          have hkT : k ∈ (ITree.node x L (ITree.node y B1 B2)).idxs := by
            simp [ITree.idxs, hk]
          exact hframe k (fun h => hiR (h ▸ hkR)) (fun h => hyB1 (h ▸ hk)) hkb
            (hguard k hkT)
        have hEncB1 : Enc t' (some b0l) B1 := by
          by_cases hz : b0l = 0
          · subst hz
            cases hB1b with
            | nil => exact Enc.nil
            | node h0' _ _ _ => exact absurd rfl h0'
          · refine enc_frame hlen hB1b ?_
            intro k hk
            by_cases hkb : k = b0l
            · subst hkb
              constructor
              · rw [hb']
              · rw [hb']
            · rw [hndB1ne k hk hkb]
              exact ⟨rfl, rfl⟩
        have hPCB1' : pcT t' B1 (some x) := by
          by_cases hz : b0l = 0
          · subst hz
            cases hB1b with
            | nil => trivial
            | node h0' _ _ _ => exact absurd rfl h0'
          · obtain ⟨B11, B12, hB1eq, _, _, _⟩ := enc_node_shape hB1b hz
            rw [hB1eq]
            rw [hB1eq] at pcB1 hNB1 hndB1ne
            obtain ⟨_, pc11, pc12⟩ := pcB1
            obtain ⟨hN11, hN12, hb11, hb12, _⟩ := nodup_parts hNB1
            refine ⟨by rw [hb'], ?_, ?_⟩
            · refine pcT_frame pc11 ?_
              intro k hk
              rw [hndB1ne k (by simp [ITree.idxs, hk]) (fun h => hb11 (h ▸ hk))]
            · refine pcT_frame pc12 ?_
              intro k hk
              rw [hndB1ne k (by simp [ITree.idxs, hk]) (fun h => hb12 (h ▸ hk))]
        refine ⟨ITree.node y (ITree.node x L B1) B2, ?_, ?_, ?_, ?_⟩
        · rw [if_pos rfl]
          refine Enc.node hy0 (by rw [hlen]; exact hylen) ?_ ?_
          · rw [show (nd t' y).left = some x from by rw [hy']]
            refine Enc.node h0 (by rw [hlen]; exact hilen) ?_ ?_
            · rw [show (nd t' x).left = (nd t x).left from by rw [hx']]
              refine enc_frame hlen hL ?_
              intro k hk
              rw [hndL k hk]
              exact ⟨rfl, rfl⟩
            · rw [show (nd t' x).right = some b0l from by rw [hx']]
              exact hEncB1
          · rw [show (nd t' y).right = (nd t y).right from by rw [hy']]
            refine enc_frame hlen hB2 ?_
            intro k hk
            rw [hndB2 k hk]
            exact ⟨rfl, rfl⟩
        · simp [ITree.idxs, List.append_assoc]
        · refine ⟨?_, ⟨?_, ?_, ?_⟩, ?_⟩
          · rw [show (nd t' y).parent = (nd t x).parent from by rw [hy'], hxp_q]
          · rw [show (nd t' x).parent = some y from by rw [hx']]
          · refine pcT_frame hPCL ?_
            intro k hk
            rw [hndL k hk]
          · exact hPCB1'
          · refine pcT_frame pcB2 ?_
            intro k hk
            rw [hndB2 k hk]
        · have dx : (nd t' x).data = (nd t x).data := by rw [hx']
          have dy : (nd t' y).data = (nd t y).data := by rw [hy']
          have vL : L.valsIn t' = L.valsIn t := valsIn_frame (fun k hk => by rw [hndL k hk])
          have v1 : B1.valsIn t' = B1.valsIn t := by
            refine valsIn_frame ?_
            intro k hk
            by_cases hkb : k = b0l
            · subst hkb
              rw [hb']
            · rw [hndB1ne k hk hkb]
          have v2 : B2.valsIn t' = B2.valsIn t :=
            valsIn_frame (fun k hk => by rw [hndB2 k hk])
          simp [ITree.valsIn, vL, v1, v2, dx, dy, List.append_assoc]
      · -- x strictly inside the right subtree
        obtain ⟨rr, R1, R2, hReq, hrlink⟩ := enc_root_of_mem hR hxR
        have hER : Enc t (some rr) R := hrlink ▸ hR
        have hqR : ∀ qq, some i = some qq → qq ∉ R.idxs ∧ qq ≠ 0 := by
          intro qq hqq
          obtain rfl : i = qq := Option.some.inj hqq
          exact ⟨hiR, h0⟩
        obtain ⟨TR', hEncR', hIdxR', hPCR', hValsR'⟩ := ihR hNDR rr (some i) hER hPCR hxR hqR
        have hyRm : y ∈ R.idxs := enc_right_mem hER hxR hxy hy0
        have hb0lR : b0l ≠ 0 → b0l ∈ R.idxs := fun hz => enc_left_mem hER hyRm hb0 hz
        have hxnei : x ≠ i := fun h => hiR (h ▸ hxR)
        have hynei : y ≠ i := fun h => hiR (h ▸ hyRm)
        have hbnei : i ≠ b0l := by
          by_cases hz : b0l = 0
          · exact fun h => h0 (h.trans hz)
          · exact fun h => hiR (h ▸ hb0lR hz)
        have hqlx : ∀ ql, (nd t i).left = some ql → ql ≠ x := by
          intro ql hql hqlx
          subst hqlx
          have hx0 : ql ≠ 0 := (enc_mem hER ql hxR).1
          rw [hql] at hL
          obtain ⟨l1, l2, hLeq2, _, _, _⟩ := enc_node_shape hL hx0
          exact hLRdisj ql (by rw [hLeq2]; simp [ITree.idxs]) hxR
        obtain ⟨ql, hql⟩ : ∃ ql, (nd t i).left = some ql := by
          cases hqlv : (nd t i).left with
          | none => exact absurd hqlv (hcs i h0 hilen).1
          | some v => exact ⟨v, rfl⟩
        by_cases hxrr : x = rr
        · -- x is the root of R: the slot write lands on i's right slot
          subst hxrr
          rw [hReq] at hPCR
          obtain ⟨hpx, _, _⟩ := hPCR
          obtain ⟨hpi_par, hpi_data, _, hcaseR⟩ :=
            hslot i hpx (Ne.symm hxnei) (Ne.symm hynei) hbnei
          obtain ⟨hileft', hiright'⟩ := hcaseR ql hql (hqlx ql hql)
          have hndL : ∀ k, k ∈ L.idxs → nd t' k = nd t k := by
            intro k hk
            refine hframe k (fun h => hLRdisj k hk (h ▸ hxR))
              (fun h => hLRdisj k hk (h ▸ hyRm)) ?_ ?_
            · by_cases hz : b0l = 0
              · exact fun h => (enc_mem hL k hk).1 (h.trans hz)
              · exact fun h => hLRdisj k hk (h ▸ hb0lR hz)
            · intro pp hpp
              rw [hpx] at hpp
              obtain rfl : i = pp := Option.some.inj hpp
              exact fun h => hiL (h ▸ hk)
          refine ⟨ITree.node i L TR', ?_, ?_, ?_, ?_⟩
          · rw [if_neg hxnei]
            refine Enc.node h0 (by rw [hlen]; exact hilen) ?_ ?_
            · rw [hileft']
              refine enc_frame hlen hL ?_
              intro k hk
              rw [hndL k hk]
              exact ⟨rfl, rfl⟩
            · rw [hiright']
              rw [if_pos rfl] at hEncR'
              exact hEncR'
          · simp [ITree.idxs, hIdxR']
          · refine ⟨?_, ?_, hPCR'⟩
            · rw [hpi_par]
              exact hpj
            · refine pcT_frame hPCL ?_
              intro k hk
              rw [hndL k hk]
          · have vL : L.valsIn t' = L.valsIn t :=
              valsIn_frame (fun k hk => by rw [hndL k hk])
            show L.valsIn t' ++ (nd t' i).data :: TR'.valsIn t' =
              L.valsIn t ++ (nd t i).data :: R.valsIn t
            rw [hValsR', hpi_data, vL]
        · -- x is deeper inside R: i's fields are untouched
          rcases enc_parent_mem hER hPCR hxR with ⟨hrrx, _⟩ | ⟨pp, hppx, hppR, _⟩
          · exact absurd (Option.some.inj hrrx).symm hxrr
          have hndi : nd t' i = nd t i := by
            refine hframe i (Ne.symm hxnei) (Ne.symm hynei) hbnei ?_
            intro pp' hpp'
            rw [hppx] at hpp'
            obtain rfl : pp = pp' := Option.some.inj hpp'
            exact fun h => hiR (h ▸ hppR)
          have hndL : ∀ k, k ∈ L.idxs → nd t' k = nd t k := by
            intro k hk
            refine hframe k (fun h => hLRdisj k hk (h ▸ hxR))
              (fun h => hLRdisj k hk (h ▸ hyRm)) ?_ ?_
            · by_cases hz : b0l = 0
              · exact fun h => (enc_mem hL k hk).1 (h.trans hz)
              · exact fun h => hLRdisj k hk (h ▸ hb0lR hz)
            · intro pp' hpp'
              rw [hppx] at hpp'
              obtain rfl : pp = pp' := Option.some.inj hpp'
              exact fun h => hLRdisj k hk (h ▸ hppR)
          refine ⟨ITree.node i L TR', ?_, ?_, ?_, ?_⟩
          · rw [if_neg hxnei]
            refine Enc.node h0 (by rw [hlen]; exact hilen) ?_ ?_
            · rw [show (nd t' i).left = (nd t i).left from by rw [hndi]]
              refine enc_frame hlen hL ?_
              intro k hk
              rw [hndL k hk]
              exact ⟨rfl, rfl⟩
            · rw [show (nd t' i).right = some rr from by rw [hndi]; exact hrlink]
              rw [if_neg hxrr] at hEncR'
              exact hEncR'
          · simp [ITree.idxs, hIdxR']
          · refine ⟨?_, ?_, hPCR'⟩
            · rw [show (nd t' i).parent = (nd t i).parent from by rw [hndi]]
              exact hpj
            · refine pcT_frame hPCL ?_
              intro k hk
              rw [hndL k hk]
          · have vL : L.valsIn t' = L.valsIn t :=
              valsIn_frame (fun k hk => by rw [hndL k hk])
            show L.valsIn t' ++ (nd t' i).data :: TR'.valsIn t' =
              L.valsIn t ++ (nd t i).data :: R.valsIn t
            rw [hValsR', show (nd t' i).data = (nd t i).data from by rw [hndi], vL]

/-- Surgery of `right_rotate` on the encoded tree: mirror of
`rot_rebuild_left`.  Here `y` is `x`'s left child and `b0r` is `y`'s right
child; the rotated subtree is `node y B1 (node x B2 R)`. -/
theorem rot_rebuild_right (t t' : RBTree) (x y b0r : Nat)
    (hlen : t'.nodes.length = t.nodes.length)
    (hxy : (nd t x).left = some y) (hy0 : y ≠ 0)
    (hb0 : (nd t y).right = some b0r)
    (hcs : ∀ i, i ≠ 0 → i < t.nodes.length →
        (nd t i).left ≠ none ∧ (nd t i).right ≠ none)
    (hframe : ∀ k, k ≠ x → k ≠ y → k ≠ b0r →
        (∀ pp, (nd t x).parent = some pp → k ≠ pp) → nd t' k = nd t k)
    (hx' : nd t' x = { nd t x with left := some b0r, parent := some y })
    (hy' : nd t' y = { nd t y with right := some x, parent := (nd t x).parent })
    (hb' : nd t' b0r = { nd t b0r with parent := some x })
    (hslot : ∀ pp, (nd t x).parent = some pp → pp ≠ x → pp ≠ y → pp ≠ b0r →
        (nd t' pp).parent = (nd t pp).parent ∧ (nd t' pp).data = (nd t pp).data ∧
        ((nd t pp).right = some x →
          (nd t' pp).right = some y ∧ (nd t' pp).left = (nd t pp).left) ∧
        (∀ qr, (nd t pp).right = some qr → qr ≠ x →
          (nd t' pp).right = (nd t pp).right ∧ (nd t' pp).left = some y)) :
    ∀ (T : ITree), T.idxs.Nodup → ∀ (j : Nat) (q : Option Nat),
      Enc t (some j) T → pcT t T q → x ∈ T.idxs →
      (∀ qq, q = some qq → qq ∉ T.idxs ∧ qq ≠ 0) →
      ∃ T', Enc t' (some (if x = j then y else j)) T' ∧
        T'.idxs = T.idxs ∧ pcT t' T' q ∧ T'.valsIn t' = T.valsIn t := by
  intro T
  induction T with
  | leaf =>
    intro _ j q _ _ hx _
    simp [ITree.idxs] at hx
  | node i L R ihL ihR =>
    intro hND j q hE hPC hxmem hq
    obtain ⟨hNDL, hNDR, hiL, hiR, hLRdisj⟩ := nodup_parts hND
    obtain ⟨hpj, hPCL, hPCR⟩ := hPC
    cases hE with
    | node h0 hilen hL hR =>
      have hxmem' : x ∈ L.idxs ∨ x = i ∨ x ∈ R.idxs := by simpa [ITree.idxs] using hxmem
      rcases hxmem' with hxL | rfl | hxR
      · -- x strictly inside the left subtree
        obtain ⟨lr, L1, L2, hLeq, hlink⟩ := enc_root_of_mem hL hxL
        have hEL : Enc t (some lr) L := hlink ▸ hL
        have hqL : ∀ qq, some i = some qq → qq ∉ L.idxs ∧ qq ≠ 0 := by
          intro qq hqq
          obtain rfl : i = qq := Option.some.inj hqq
          exact ⟨hiL, h0⟩
        obtain ⟨TL', hEncL', hIdxL', hPCL', hValsL'⟩ := ihL hNDL lr (some i) hEL hPCL hxL hqL
        have hyL : y ∈ L.idxs := enc_left_mem hEL hxL hxy hy0
        have hb0rL : b0r ≠ 0 → b0r ∈ L.idxs := fun hz => enc_right_mem hEL hyL hb0 hz
        have hxnei : x ≠ i := fun h => hiL (h ▸ hxL)
        have hynei : y ≠ i := fun h => hiL (h ▸ hyL)
        have hbnei : i ≠ b0r := by
          by_cases hz : b0r = 0
          · exact fun h => h0 (h.trans hz)
          · exact fun h => hiL (h ▸ hb0rL hz)
        have hqrx : ∀ qr, (nd t i).right = some qr → qr ≠ x := by
          intro qr hqr hqrx
          subst hqrx
          have hx0 : qr ≠ 0 := (enc_mem hEL qr hxL).1
          rw [hqr] at hR
          obtain ⟨r1, r2, hReq2, _, _, _⟩ := enc_node_shape hR hx0
          exact hLRdisj qr hxL (by rw [hReq2]; simp [ITree.idxs])
        obtain ⟨qr, hqr⟩ : ∃ qr, (nd t i).right = some qr := by
          cases hqrv : (nd t i).right with
          | none => exact absurd hqrv (hcs i h0 hilen).2
          | some v => exact ⟨v, rfl⟩
        by_cases hxlr : x = lr
        · -- x is the root of L: the slot write lands on i's left slot
          subst hxlr
          rw [hLeq] at hPCL
          obtain ⟨hpx, _, _⟩ := hPCL
          obtain ⟨hpi_par, hpi_data, _, hcaseL⟩ :=
            hslot i hpx (Ne.symm hxnei) (Ne.symm hynei) hbnei
          obtain ⟨hiright', hileft'⟩ := hcaseL qr hqr (hqrx qr hqr)
          have hndR : ∀ k, k ∈ R.idxs → nd t' k = nd t k := by
            intro k hk
            refine hframe k (fun h => hLRdisj x hxL (h ▸ hk))
              (fun h => hLRdisj y hyL (h ▸ hk)) ?_ ?_
            · by_cases hz : b0r = 0
              · exact fun h => (enc_mem hR k hk).1 (h.trans hz)
              · exact fun h => hLRdisj b0r (hb0rL hz) (h ▸ hk)
            · intro pp hpp
              rw [hpx] at hpp
              obtain rfl : i = pp := Option.some.inj hpp
              exact fun h => hiR (h ▸ hk)
          refine ⟨ITree.node i TL' R, ?_, ?_, ?_, ?_⟩
          · rw [if_neg hxnei]
            refine Enc.node h0 (by rw [hlen]; exact hilen) ?_ ?_
            · rw [hileft']
              rw [if_pos rfl] at hEncL'
              exact hEncL'
            · rw [hiright']
              refine enc_frame hlen hR ?_
              intro k hk
              rw [hndR k hk]
              exact ⟨rfl, rfl⟩
          · simp [ITree.idxs, hIdxL']
          · refine ⟨?_, hPCL', ?_⟩
            · rw [hpi_par]
              exact hpj
            · refine pcT_frame hPCR ?_
              intro k hk
              rw [hndR k hk]
          · have vR : R.valsIn t' = R.valsIn t :=
              valsIn_frame (fun k hk => by rw [hndR k hk])
            show TL'.valsIn t' ++ (nd t' i).data :: R.valsIn t' =
              L.valsIn t ++ (nd t i).data :: R.valsIn t
            rw [hValsL', hpi_data, vR]
        · -- x is deeper inside L: i's fields are untouched
          rcases enc_parent_mem hEL hPCL hxL with ⟨hlrx, _⟩ | ⟨pp, hppx, hppL, _⟩
          · exact absurd (Option.some.inj hlrx).symm hxlr
          have hndi : nd t' i = nd t i := by
            refine hframe i (Ne.symm hxnei) (Ne.symm hynei) hbnei ?_
            intro pp' hpp'
            rw [hppx] at hpp'
            obtain rfl : pp = pp' := Option.some.inj hpp'
            exact fun h => hiL (h ▸ hppL)
          have hndR : ∀ k, k ∈ R.idxs → nd t' k = nd t k := by
            intro k hk
            refine hframe k (fun h => hLRdisj x hxL (h ▸ hk))
              (fun h => hLRdisj y hyL (h ▸ hk)) ?_ ?_
            · by_cases hz : b0r = 0
              · exact fun h => (enc_mem hR k hk).1 (h.trans hz)
              · exact fun h => hLRdisj b0r (hb0rL hz) (h ▸ hk)
            · intro pp' hpp'
              rw [hppx] at hpp'
              obtain rfl : pp = pp' := Option.some.inj hpp'
              exact fun h => hLRdisj pp hppL (h ▸ hk)
          refine ⟨ITree.node i TL' R, ?_, ?_, ?_, ?_⟩
          · rw [if_neg hxnei]
            refine Enc.node h0 (by rw [hlen]; exact hilen) ?_ ?_
            · rw [show (nd t' i).left = some lr from by rw [hndi]; exact hlink]
              rw [if_neg hxlr] at hEncL'
              exact hEncL'
            · rw [show (nd t' i).right = (nd t i).right from by rw [hndi]]
              refine enc_frame hlen hR ?_
              intro k hk
              rw [hndR k hk]
              exact ⟨rfl, rfl⟩
          · simp [ITree.idxs, hIdxL']
          · refine ⟨?_, hPCL', ?_⟩
            · rw [show (nd t' i).parent = (nd t i).parent from by rw [hndi]]
              exact hpj
            · refine pcT_frame hPCR ?_
              intro k hk
              rw [hndR k hk]
          · have vR : R.valsIn t' = R.valsIn t :=
              valsIn_frame (fun k hk => by rw [hndR k hk])
            show TL'.valsIn t' ++ (nd t' i).data :: R.valsIn t' =
              L.valsIn t ++ (nd t i).data :: R.valsIn t
            rw [hValsL', show (nd t' i).data = (nd t i).data from by rw [hndi], vR]
      · -- x is the root of this subtree
        have hLy : Enc t (some y) L := hxy ▸ hL
        obtain ⟨B1, B2, rfl, hylen, hB1, hB2⟩ := enc_node_shape hLy hy0
        have hyL : y ∈ (ITree.node y B1 B2).idxs := by simp [ITree.idxs]
        have hxney : x ≠ y := fun h => hiL (h ▸ hyL)
        obtain ⟨hNB1, hNB2, hyB1, hyB2, hB12disj⟩ := nodup_parts hNDL
        have hB2b : Enc t (some b0r) B2 := hb0 ▸ hB2
        have hb0rL : b0r ≠ 0 → b0r ∈ (ITree.node y B1 B2).idxs :=
          fun hz => enc_right_mem hLy hyL hb0 hz
        have hb0rB2 : b0r ≠ 0 → b0r ∈ B2.idxs := by
          intro hz
          obtain ⟨B21, B22, hB2eq, _, _, _⟩ := enc_node_shape hB2b hz
          rw [hB2eq]
          simp [ITree.idxs]
        obtain ⟨hpy, pcB1, pcB2⟩ := hPCL
        have hxp_q : (nd t x).parent = q := hpj
        have hguard : ∀ k, k ∈ (ITree.node x (ITree.node y B1 B2) R).idxs →
            ∀ pp, (nd t x).parent = some pp → k ≠ pp := by
          intro k hk pp hpp
          rw [hxp_q] at hpp
          obtain ⟨hnot, _⟩ := hq pp hpp
          exact fun h => hnot (h ▸ hk)
        have hndR : ∀ k, k ∈ R.idxs → nd t' k = nd t k := by
          intro k hk
          have hkT : k ∈ (ITree.node x (ITree.node y B1 B2) R).idxs := by
            simp [ITree.idxs, hk]
          refine hframe k (fun h => hiR (h ▸ hk)) (fun h => hLRdisj y hyL (h ▸ hk)) ?_
            (hguard k hkT)
          by_cases hz : b0r = 0
          · exact fun h => (enc_mem hR k hk).1 (h.trans hz)
          · exact fun h => hLRdisj b0r (hb0rL hz) (h ▸ hk)
        have hndB1 : ∀ k, k ∈ B1.idxs → nd t' k = nd t k := by
          intro k hk
          have hkL : k ∈ (ITree.node y B1 B2).idxs := by simp [ITree.idxs, hk]
          have hkT : k ∈ (ITree.node x (ITree.node y B1 B2) R).idxs := by
            simp [ITree.idxs, hk]
          refine hframe k (fun h => hiL (h ▸ hkL)) (fun h => hyB1 (h ▸ hk)) ?_
            (hguard k hkT)
          by_cases hz : b0r = 0
          · exact fun h => (enc_mem hB1 k hk).1 (h.trans hz)
          · exact fun h => hB12disj b0r (h ▸ hk) (hb0rB2 hz)
        have hndB2ne : ∀ k, k ∈ B2.idxs → k ≠ b0r → nd t' k = nd t k := by
          intro k hk hkb
          have hkL : k ∈ (ITree.node y B1 B2).idxs := by simp [ITree.idxs, hk]
          have hkT : k ∈ (ITree.node x (ITree.node y B1 B2) R).idxs := by
            simp [ITree.idxs, hk]
          exact hframe k (fun h => hiL (h ▸ hkL)) (fun h => hyB2 (h ▸ hk)) hkb
            (hguard k hkT)
        have hEncB2 : Enc t' (some b0r) B2 := by
          by_cases hz : b0r = 0
          · subst hz
            cases hB2b with
            | nil => exact Enc.nil
            | node h0' _ _ _ => exact absurd rfl h0'
          · refine enc_frame hlen hB2b ?_
            intro k hk
            by_cases hkb : k = b0r
            · subst hkb
              constructor
              · rw [hb']
              · rw [hb']
            · rw [hndB2ne k hk hkb]
              exact ⟨rfl, rfl⟩
        have hPCB2' : pcT t' B2 (some x) := by
          by_cases hz : b0r = 0
          · subst hz
            cases hB2b with
            | nil => trivial
            | node h0' _ _ _ => exact absurd rfl h0'
          · obtain ⟨B21, B22, hB2eq, _, _, _⟩ := enc_node_shape hB2b hz
            rw [hB2eq]
            rw [hB2eq] at pcB2 hNB2 hndB2ne
            obtain ⟨_, pc21, pc22⟩ := pcB2
            obtain ⟨hN21, hN22, hb21, hb22, _⟩ := nodup_parts hNB2
            refine ⟨by rw [hb'], ?_, ?_⟩
            · refine pcT_frame pc21 ?_
              intro k hk
              rw [hndB2ne k (by simp [ITree.idxs, hk]) (fun h => hb21 (h ▸ hk))]
            · refine pcT_frame pc22 ?_
              intro k hk
              rw [hndB2ne k (by simp [ITree.idxs, hk]) (fun h => hb22 (h ▸ hk))]
        refine ⟨ITree.node y B1 (ITree.node x B2 R), ?_, ?_, ?_, ?_⟩
        · rw [if_pos rfl]
          refine Enc.node hy0 (by rw [hlen]; exact hylen) ?_ ?_
          · rw [show (nd t' y).left = (nd t y).left from by rw [hy']]
            refine enc_frame hlen hB1 ?_
            intro k hk
            rw [hndB1 k hk]
            exact ⟨rfl, rfl⟩
          · rw [show (nd t' y).right = some x from by rw [hy']]
            refine Enc.node h0 (by rw [hlen]; exact hilen) ?_ ?_
            · rw [show (nd t' x).left = some b0r from by rw [hx']]
              exact hEncB2
            · rw [show (nd t' x).right = (nd t x).right from by rw [hx']]
              refine enc_frame hlen hR ?_
              intro k hk
              rw [hndR k hk]
              exact ⟨rfl, rfl⟩
        · simp [ITree.idxs, List.append_assoc]
        · refine ⟨?_, ?_, ?_, ?_, ?_⟩
          · rw [show (nd t' y).parent = (nd t x).parent from by rw [hy'], hxp_q]
          · refine pcT_frame pcB1 ?_
            intro k hk
            rw [hndB1 k hk]
          · rw [show (nd t' x).parent = some y from by rw [hx']]
          · exact hPCB2'
          · refine pcT_frame hPCR ?_
            intro k hk
            rw [hndR k hk]
        · have dx : (nd t' x).data = (nd t x).data := by rw [hx']
          have dy : (nd t' y).data = (nd t y).data := by rw [hy']
          have v1 : B1.valsIn t' = B1.valsIn t :=
            valsIn_frame (fun k hk => by rw [hndB1 k hk])
          have v2 : B2.valsIn t' = B2.valsIn t := by
            refine valsIn_frame ?_
            intro k hk
            by_cases hkb : k = b0r
            · subst hkb
              rw [hb']
            · rw [hndB2ne k hk hkb]
          have vR : R.valsIn t' = R.valsIn t :=
            valsIn_frame (fun k hk => by rw [hndR k hk])
          simp [ITree.valsIn, v1, v2, vR, dx, dy, List.append_assoc]
      · -- x strictly inside the right subtree
        obtain ⟨rr, R1, R2, hReq, hrlink⟩ := enc_root_of_mem hR hxR
        have hER : Enc t (some rr) R := hrlink ▸ hR
        have hqR : ∀ qq, some i = some qq → qq ∉ R.idxs ∧ qq ≠ 0 := by
          intro qq hqq
          obtain rfl : i = qq := Option.some.inj hqq
          exact ⟨hiR, h0⟩
        obtain ⟨TR', hEncR', hIdxR', hPCR', hValsR'⟩ := ihR hNDR rr (some i) hER hPCR hxR hqR
        have hyRm : y ∈ R.idxs := enc_left_mem hER hxR hxy hy0
        have hb0rR : b0r ≠ 0 → b0r ∈ R.idxs := fun hz => enc_right_mem hER hyRm hb0 hz
        have hxnei : x ≠ i := fun h => hiR (h ▸ hxR)
        have hynei : y ≠ i := fun h => hiR (h ▸ hyRm)
        have hbnei : i ≠ b0r := by
          by_cases hz : b0r = 0
          · exact fun h => h0 (h.trans hz)
          · exact fun h => hiR (h ▸ hb0rR hz)
        by_cases hxrr : x = rr
        · -- x is the root of R: the slot write lands on i's right slot
          subst hxrr
          rw [hReq] at hPCR
          obtain ⟨hpx, _, _⟩ := hPCR
          have hiright : (nd t i).right = some x := hrlink
          obtain ⟨hpi_par, hpi_data, hcaseR, _⟩ :=
            hslot i hpx (Ne.symm hxnei) (Ne.symm hynei) hbnei
          obtain ⟨hiright', hileft'⟩ := hcaseR hiright
          have hndL : ∀ k, k ∈ L.idxs → nd t' k = nd t k := by
            intro k hk
            refine hframe k (fun h => hLRdisj k hk (h ▸ hxR))
              (fun h => hLRdisj k hk (h ▸ hyRm)) ?_ ?_
            · by_cases hz : b0r = 0
              · exact fun h => (enc_mem hL k hk).1 (h.trans hz)
              · exact fun h => hLRdisj k hk (h ▸ hb0rR hz)
            · intro pp hpp
              rw [hpx] at hpp
              obtain rfl : i = pp := Option.some.inj hpp
              exact fun h => hiL (h ▸ hk)
          refine ⟨ITree.node i L TR', ?_, ?_, ?_, ?_⟩
          · rw [if_neg hxnei]
            refine Enc.node h0 (by rw [hlen]; exact hilen) ?_ ?_
            · rw [hileft']
              refine enc_frame hlen hL ?_
              intro k hk
              rw [hndL k hk]
              exact ⟨rfl, rfl⟩
            · rw [hiright']
              rw [if_pos rfl] at hEncR'
              exact hEncR'
          · simp [ITree.idxs, hIdxR']
          · refine ⟨?_, ?_, hPCR'⟩
            · rw [hpi_par]
              exact hpj
            · refine pcT_frame hPCL ?_
              intro k hk
              rw [hndL k hk]
          · have vL : L.valsIn t' = L.valsIn t :=
              valsIn_frame (fun k hk => by rw [hndL k hk])
            show L.valsIn t' ++ (nd t' i).data :: TR'.valsIn t' =
              L.valsIn t ++ (nd t i).data :: R.valsIn t
            rw [hValsR', hpi_data, vL]
        · -- x is deeper inside R: i's fields are untouched
          rcases enc_parent_mem hER hPCR hxR with ⟨hrrx, _⟩ | ⟨pp, hppx, hppR, _⟩
          · exact absurd (Option.some.inj hrrx).symm hxrr
          have hndi : nd t' i = nd t i := by
            refine hframe i (Ne.symm hxnei) (Ne.symm hynei) hbnei ?_
            intro pp' hpp'
            rw [hppx] at hpp'
            obtain rfl : pp = pp' := Option.some.inj hpp'
            exact fun h => hiR (h ▸ hppR)
          have hndL : ∀ k, k ∈ L.idxs → nd t' k = nd t k := by
            intro k hk
            refine hframe k (fun h => hLRdisj k hk (h ▸ hxR))
              (fun h => hLRdisj k hk (h ▸ hyRm)) ?_ ?_
            · by_cases hz : b0r = 0
              · exact fun h => (enc_mem hL k hk).1 (h.trans hz)
              · exact fun h => hLRdisj k hk (h ▸ hb0rR hz)
            · intro pp' hpp'
              rw [hppx] at hpp'
              obtain rfl : pp = pp' := Option.some.inj hpp'
              exact fun h => hLRdisj k hk (h ▸ hppR)
          refine ⟨ITree.node i L TR', ?_, ?_, ?_, ?_⟩
          · rw [if_neg hxnei]
            refine Enc.node h0 (by rw [hlen]; exact hilen) ?_ ?_
            · rw [show (nd t' i).left = (nd t i).left from by rw [hndi]]
              refine enc_frame hlen hL ?_
              intro k hk
              rw [hndL k hk]
              exact ⟨rfl, rfl⟩
            · rw [show (nd t' i).right = some rr from by rw [hndi]; exact hrlink]
              rw [if_neg hxrr] at hEncR'
              exact hEncR'
          · simp [ITree.idxs, hIdxR']
          · refine ⟨?_, ?_, hPCR'⟩
            · rw [show (nd t' i).parent = (nd t i).parent from by rw [hndi]]
              exact hpj
            · refine pcT_frame hPCL ?_
              intro k hk
              rw [hndL k hk]
          · have vL : L.valsIn t' = L.valsIn t :=
              valsIn_frame (fun k hk => by rw [hndL k hk])
            show L.valsIn t' ++ (nd t' i).data :: TR'.valsIn t' =
              L.valsIn t ++ (nd t i).data :: R.valsIn t
            rw [hValsR', show (nd t' i).data = (nd t i).data from by rw [hndi], vL]

/-- The subtree hanging off a member's right link: encodable, contained in
the tree, and not containing the member itself. -/
theorem enc_sub_right {t : RBTree} :
    ∀ {o : Option Nat} {T : ITree}, Enc t o T → T.idxs.Nodup →
      ∀ {x y : Nat}, x ∈ T.idxs → (nd t x).right = some y → y ≠ 0 →
      ∃ S : ITree, Enc t (some y) S ∧ (∀ k, k ∈ S.idxs → k ∈ T.idxs) ∧
        x ∉ S.idxs ∧ S.idxs.Nodup := by
  intro o T hE
  induction hE with
  | absent => intro _ x y hx _ _; cases hx
  | nil => intro _ x y hx _ _; cases hx
  | node h0 hlen hL hR ihL ihR =>
    rename_i i l r
    intro hND x y hx hxy hy0
    obtain ⟨hNDL, hNDR, hiL, hiR, hLRdisj⟩ := nodup_parts hND
    have hx' : x ∈ l.idxs ∨ x = i ∨ x ∈ r.idxs := by simpa [ITree.idxs] using hx
    rcases hx' with hx1 | rfl | hx1
    · obtain ⟨S, h1, h2, h3, h4⟩ := ihL hNDL hx1 hxy hy0
      exact ⟨S, h1, fun k hk => by simp [ITree.idxs, h2 k hk], h3, h4⟩
    · refine ⟨r, hxy ▸ hR, fun k hk => by simp [ITree.idxs, hk], hiR, hNDR⟩
    · obtain ⟨S, h1, h2, h3, h4⟩ := ihR hNDR hx1 hxy hy0
      exact ⟨S, h1, fun k hk => by simp [ITree.idxs, h2 k hk], h3, h4⟩

/-- Mirror of `enc_sub_right` for the left link. -/
theorem enc_sub_left {t : RBTree} :
    ∀ {o : Option Nat} {T : ITree}, Enc t o T → T.idxs.Nodup →
      ∀ {x y : Nat}, x ∈ T.idxs → (nd t x).left = some y → y ≠ 0 →
      ∃ S : ITree, Enc t (some y) S ∧ (∀ k, k ∈ S.idxs → k ∈ T.idxs) ∧
        x ∉ S.idxs ∧ S.idxs.Nodup := by
  intro o T hE
  induction hE with
  | absent => intro _ x y hx _ _; cases hx
  | nil => intro _ x y hx _ _; cases hx
  | node h0 hlen hL hR ihL ihR =>
    rename_i i l r
    intro hND x y hx hxy hy0
    obtain ⟨hNDL, hNDR, hiL, hiR, hLRdisj⟩ := nodup_parts hND
    have hx' : x ∈ l.idxs ∨ x = i ∨ x ∈ r.idxs := by simpa [ITree.idxs] using hx
    rcases hx' with hx1 | rfl | hx1
    · obtain ⟨S, h1, h2, h3, h4⟩ := ihL hNDL hx1 hxy hy0
      exact ⟨S, h1, fun k hk => by simp [ITree.idxs, h2 k hk], h3, h4⟩
    · refine ⟨l, hxy ▸ hL, fun k hk => by simp [ITree.idxs, hk], hiL, hNDL⟩
    · obtain ⟨S, h1, h2, h3, h4⟩ := ihR hNDR hx1 hxy hy0
      exact ⟨S, h1, fun k hk => by simp [ITree.idxs, h2 k hk], h3, h4⟩

/-- In a duplicate-free encoded tree, a member's real left and right
children differ. -/
theorem enc_children_ne {t : RBTree} :
    ∀ {o : Option Nat} {T : ITree}, Enc t o T → T.idxs.Nodup →
      ∀ {i a b : Nat}, i ∈ T.idxs → (nd t i).left = some a → a ≠ 0 →
        (nd t i).right = some b → b ≠ 0 → a ≠ b := by
  intro o T hE
  induction hE with
  | absent => intro _ i a b hi _ _ _ _; cases hi
  | nil => intro _ i a b hi _ _ _ _; cases hi
  | node h0 hlen hL hR ihL ihR =>
    rename_i j l r
    intro hND i a b hi hia ha0 hib hb0
    obtain ⟨hNDL, hNDR, hjL, hjR, hLRdisj⟩ := nodup_parts hND
    have hi' : i ∈ l.idxs ∨ i = j ∨ i ∈ r.idxs := by simpa [ITree.idxs] using hi
    rcases hi' with hi1 | rfl | hi1
    · exact ihL hNDL hi1 hia ha0 hib hb0
    · rw [hia] at hL
      rw [hib] at hR
      obtain ⟨l1, l2, hleq, _, _, _⟩ := enc_node_shape hL ha0
      obtain ⟨r1, r2, hreq, _, _, _⟩ := enc_node_shape hR hb0
      intro hab
      refine hLRdisj a ?_ ?_
      · rw [hleq]; simp [ITree.idxs]
      · rw [hab, hreq]; simp [ITree.idxs]
    · exact ihR hNDR hi1 hia ha0 hib hb0

/-- On a well-formed arena, `left_rotate` at a member `x` with a real right
child succeeds and preserves well-formedness, every node's color and data,
the index set, and the in-order value sequence. -/
theorem lrot_preserves (t : RBTree) (T : ITree) (x y : Nat)
    (hlenPos : 0 < t.nodes.length)
    (hrootReal : ∀ r, t.root = some r → r ≠ 0)
    (hcs : ∀ i, i ≠ 0 → i < t.nodes.length →
        (nd t i).left ≠ none ∧ (nd t i).right ≠ none)
    (hEncT : Enc t t.root T) (hNDT : T.idxs.Nodup) (hPCT : pcT t T none)
    (hcomp : ∀ i, i ≠ 0 → i < t.nodes.length → i ∈ T.idxs)
    (hx : x ∈ T.idxs) (hxy : (nd t x).right = some y) (hy0 : y ≠ 0) :
    ∃ t' T', left_rotate t x = some t' ∧
      t'.nodes.length = t.nodes.length ∧
      (∀ k, (nd t' k).color = (nd t k).color) ∧
      (∀ k, (nd t' k).data = (nd t k).data) ∧
      Enc t' t'.root T' ∧ T'.idxs = T.idxs ∧ pcT t' T' none ∧
      (∀ r, t'.root = some r → r ≠ 0) ∧
      (∀ i, i ≠ 0 → i < t'.nodes.length →
        (nd t' i).left ≠ none ∧ (nd t' i).right ≠ none) ∧
      T'.valsIn t' = T.valsIn t ∧
      (∀ pp, (nd t x).parent = some pp →
        ((nd t pp).left = some x → (nd t' pp).left = some y) ∧
        ((nd t pp).left ≠ some x → (nd t' pp).right = some y)) := by
  obtain ⟨j, TL, TR, hTeq, hroot⟩ := enc_root_of_mem hEncT hx
  have hEj : Enc t (some j) T := hroot ▸ hEncT
  obtain ⟨hx0, hxlen⟩ := enc_mem hEj x hx
  have hy_mem : y ∈ T.idxs := enc_right_mem hEj hx hxy hy0
  obtain ⟨_, hylen⟩ := enc_mem hEj y hy_mem
  obtain ⟨b0l, hb0⟩ : ∃ b, (nd t y).left = some b := by
    cases hlv : (nd t y).left with
    | none => exact absurd hlv (hcs y hy0 hylen).1
    | some v => exact ⟨v, rfl⟩
  obtain ⟨S, hS, hSsub, hxS, hSND⟩ := enc_sub_right hEj hNDT hx hxy hy0
  obtain ⟨S1, S2, hSeq, _, hS1, hS2⟩ := enc_node_shape hS hy0
  have hS1b : Enc t (some b0l) S1 := hb0 ▸ hS1
  have hxney : x ≠ y := fun h => hxS (h ▸ (by rw [hSeq]; simp [ITree.idxs] : y ∈ S.idxs))
  have hb0S1 : b0l ≠ 0 → b0l ∈ S1.idxs := by
    intro hz
    obtain ⟨a1, a2, haeq, _, _, _⟩ := enc_node_shape hS1b hz
    rw [haeq]
    simp [ITree.idxs]
  have hb0x : b0l ≠ x := by
    by_cases hz : b0l = 0
    · exact fun h => hx0 (h ▸ hz)
    · intro h
      have hbS : b0l ∈ S.idxs := by rw [hSeq]; simp [ITree.idxs, hb0S1 hz]
      exact hxS (h ▸ hbS)
  have hb0y : b0l ≠ y := by
    by_cases hz : b0l = 0
    · exact fun h => hy0 (h.symm.trans hz)
    · rw [hSeq] at hSND
      obtain ⟨_, _, hyS1, _, _⟩ := nodup_parts hSND
      exact fun h => hyS1 (h ▸ hb0S1 hz)
  have hb0len : b0l < t.nodes.length := by
    by_cases hz : b0l = 0
    · rw [hz]; exact hlenPos
    · exact (enc_mem hS b0l (by rw [hSeq]; simp [ITree.idxs, hb0S1 hz])).2
  have hq_top : ∀ qq : Nat, (none : Option Nat) = some qq → qq ∉ T.idxs ∧ qq ≠ 0 := by
    intro qq h; cases h
  have hpjnone : (nd t j).parent = none := by
    rw [hTeq] at hPCT
    exact hPCT.1
  cases hxp : (nd t x).parent with
  | none =>
    have hxj : x = j := by
      rcases enc_parent_mem hEj hPCT hx with ⟨h1, _⟩ | ⟨pp, hpp, _, _⟩
      · exact (Option.some.inj h1).symm
      · rw [hxp] at hpp; cases hpp
    obtain ⟨t', heq, hlen', hroot', hfr, hxr, hyr, hbr⟩ :=
      lrot_char_root t x y b0l hxy hb0 hxney hb0x hb0y hb0len hxp
    have hframe : ∀ k, k ≠ x → k ≠ y → k ≠ b0l →
        (∀ pp, (nd t x).parent = some pp → k ≠ pp) → nd t' k = nd t k := by
      intro k h1 h2 h3 _
      exact hfr k h1 h2 h3
    have hyr' : nd t' y = { nd t y with left := some x, parent := (nd t x).parent } := by
      rw [hxp]; exact hyr
    have hslot : ∀ pp, (nd t x).parent = some pp → pp ≠ x → pp ≠ y → pp ≠ b0l →
        (nd t' pp).parent = (nd t pp).parent ∧ (nd t' pp).data = (nd t pp).data ∧
        ((nd t pp).left = some x →
          (nd t' pp).left = some y ∧ (nd t' pp).right = (nd t pp).right) ∧
        (∀ ql, (nd t pp).left = some ql → ql ≠ x →
          (nd t' pp).left = (nd t pp).left ∧ (nd t' pp).right = some y) := by
      intro pp hpp
      rw [hxp] at hpp
      cases hpp
    obtain ⟨T', hEncT', hIdx', hPC', hVals'⟩ :=
      rot_rebuild_left t t' x y b0l hlen' hxy hy0 hb0 hcs hframe hxr hyr' hbr hslot
        T hNDT j none hEj hPCT hx hq_top
    rw [if_pos hxj] at hEncT'
    have hcolors : ∀ k, (nd t' k).color = (nd t k).color := by
      intro k
      by_cases h1 : k = x
      · subst h1; rw [hxr]
      · by_cases h2 : k = y
        · subst h2; rw [hyr]
        · by_cases h3 : k = b0l
          · subst h3; rw [hbr]
          · rw [hfr k h1 h2 h3]
    have hdata : ∀ k, (nd t' k).data = (nd t k).data := by
      intro k
      by_cases h1 : k = x
      · subst h1; rw [hxr]
      · by_cases h2 : k = y
        · subst h2; rw [hyr]
        · by_cases h3 : k = b0l
          · subst h3; rw [hbr]
          · rw [hfr k h1 h2 h3]
    refine ⟨t', T', heq, hlen', hcolors, hdata, ?_, hIdx', hPC', ?_, ?_, hVals', ?_⟩
    · rw [hroot']
      exact hEncT'
    · intro r hr
      rw [hroot'] at hr
      obtain rfl : y = r := Option.some.inj hr
      exact hy0
    · intro i hi0 hilen'
      rw [hlen'] at hilen'
      by_cases h1 : i = x
      · rw [h1]
        constructor
        · rw [hxr]; exact (hcs x hx0 hxlen).1
        · rw [hxr]; simp
      · by_cases h2 : i = y
        · rw [h2]
          constructor
          · rw [hyr]; simp
          · rw [hyr]; exact (hcs y hy0 hylen).2
        · by_cases h3 : i = b0l
          · rw [h3]
            constructor
            · rw [hbr]; exact (hcs b0l (h3 ▸ hi0) hb0len).1
            · rw [hbr]; exact (hcs b0l (h3 ▸ hi0) hb0len).2
          · rw [hfr i h1 h2 h3]
            exact hcs i hi0 hilen'
    · intro pp hpp
      cases hpp
  | some qq =>
    have hxj : x ≠ j := by
      intro h
      rw [h, hpjnone] at hxp
      cases hxp
    rcases enc_parent_mem hEj hPCT hx with ⟨_, hpar⟩ | ⟨pp, hpp, hppT, hside⟩
    · rw [hxp] at hpar; cases hpar
    rw [hxp] at hpp
    obtain rfl : qq = pp := Option.some.inj hpp
    obtain ⟨hq0, hqlen⟩ := enc_mem hEj qq hppT
    have hqx : qq ≠ x := by
      intro h
      subst h
      rcases hside with hs | hs
      · obtain ⟨S', hS', _, hxS', _⟩ := enc_sub_left hEj hNDT hx hs hx0
        obtain ⟨a1, a2, haeq, _, _, _⟩ := enc_node_shape hS' hx0
        exact hxS' (by rw [haeq]; simp [ITree.idxs])
      · rw [hxy] at hs
        exact hxney (Option.some.inj hs).symm
    have hqy : qq ≠ y := by
      intro h
      subst h
      rcases hside with hs | hs
      · rw [hb0] at hs
        exact hb0x (Option.some.inj hs)
      · obtain ⟨S'', hS'', _, hyS'', _⟩ := enc_sub_right hEj hNDT hy_mem hs hx0
        have hxS'' : x ∈ S''.idxs := by
          obtain ⟨a1, a2, haeq, _, _, _⟩ := enc_node_shape hS'' hx0
          rw [haeq]; simp [ITree.idxs]
        exact hyS'' (enc_right_mem hS'' hxS'' hxy hy0)
    have hqb : qq ≠ b0l := by
      intro h
      by_cases hz : b0l = 0
      · exact hq0 (h.trans hz)
      · subst h
        have hbS1 : qq ∈ S1.idxs := hb0S1 hz
        rcases hside with hs | hs
        · have hxmem1 : x ∈ S1.idxs := enc_left_mem hS1b hbS1 hs hx0
          exact hxS (by rw [hSeq]; simp [ITree.idxs, hxmem1])
        · have hxmem1 : x ∈ S1.idxs := enc_right_mem hS1b hbS1 hs hx0
          exact hxS (by rw [hSeq]; simp [ITree.idxs, hxmem1])
    rcases hside with hsl | hsr
    · -- x hangs on qq's left: its left slot is redirected
      obtain ⟨t', heq, hlen', hroot', hfr, hxr, hyr, hbr, hqr⟩ :=
        lrot_char_slotL t x y b0l qq hxy hb0 hxney hb0x hb0y hb0len hqx hqy hqb hxp hsl
      have hframe : ∀ k, k ≠ x → k ≠ y → k ≠ b0l →
          (∀ pp, (nd t x).parent = some pp → k ≠ pp) → nd t' k = nd t k := by
        intro k h1 h2 h3 hg
        exact hfr k h1 h2 h3 (hg qq hxp)
      have hyr' : nd t' y = { nd t y with left := some x, parent := (nd t x).parent } := by
        rw [hxp]; exact hyr
      have hslot : ∀ pp, (nd t x).parent = some pp → pp ≠ x → pp ≠ y → pp ≠ b0l →
          (nd t' pp).parent = (nd t pp).parent ∧ (nd t' pp).data = (nd t pp).data ∧
          ((nd t pp).left = some x →
            (nd t' pp).left = some y ∧ (nd t' pp).right = (nd t pp).right) ∧
          (∀ ql, (nd t pp).left = some ql → ql ≠ x →
            (nd t' pp).left = (nd t pp).left ∧ (nd t' pp).right = some y) := by
        intro pp hpp _ _ _
        rw [hxp] at hpp
        obtain rfl : qq = pp := Option.some.inj hpp
        refine ⟨by rw [hqr], by rw [hqr], fun _ => ⟨by rw [hqr], by rw [hqr]⟩, ?_⟩
        intro ql hql hqlx
        exact absurd (Option.some.inj (hsl.symm.trans hql)) (fun h => hqlx h.symm)
      obtain ⟨T', hEncT', hIdx', hPC', hVals'⟩ :=
        rot_rebuild_left t t' x y b0l hlen' hxy hy0 hb0 hcs hframe hxr hyr' hbr hslot
          T hNDT j none hEj hPCT hx hq_top
      rw [if_neg hxj] at hEncT'
      have hcolors : ∀ k, (nd t' k).color = (nd t k).color := by
        intro k
        by_cases h1 : k = x
        · subst h1; rw [hxr]
        · by_cases h2 : k = y
          · subst h2; rw [hyr]
          · by_cases h3 : k = b0l
            · subst h3; rw [hbr]
            · by_cases h4 : k = qq
              · subst h4; rw [hqr]
              · rw [hfr k h1 h2 h3 h4]
      have hdata : ∀ k, (nd t' k).data = (nd t k).data := by
        intro k
        by_cases h1 : k = x
        · subst h1; rw [hxr]
        · by_cases h2 : k = y
          · subst h2; rw [hyr]
          · by_cases h3 : k = b0l
            · subst h3; rw [hbr]
            · by_cases h4 : k = qq
              · subst h4; rw [hqr]
              · rw [hfr k h1 h2 h3 h4]
      refine ⟨t', T', heq, hlen', hcolors, hdata, ?_, hIdx', hPC', ?_, ?_, hVals', ?_⟩
      · rw [hroot', hroot]
        exact hEncT'
      · intro r hr
        rw [hroot'] at hr
        exact hrootReal r hr
      · intro i hi0 hilen'
        rw [hlen'] at hilen'
        by_cases h1 : i = x
        · rw [h1]
          constructor
          · rw [hxr]; exact (hcs x hx0 hxlen).1
          · rw [hxr]; simp
        · by_cases h2 : i = y
          · rw [h2]
            constructor
            · rw [hyr]; simp
            · rw [hyr]; exact (hcs y hy0 hylen).2
          · by_cases h3 : i = b0l
            · rw [h3]
              constructor
              · rw [hbr]; exact (hcs b0l (h3 ▸ hi0) hb0len).1
              · rw [hbr]; exact (hcs b0l (h3 ▸ hi0) hb0len).2
            · by_cases h4 : i = qq
              · rw [h4]
                constructor
                · rw [hqr]; simp
                · rw [hqr]; exact (hcs qq hq0 hqlen).2
              · rw [hfr i h1 h2 h3 h4]
                exact hcs i hi0 hilen'
      · intro pp hpp
        obtain rfl : qq = pp := Option.some.inj hpp
        exact ⟨fun _ => by rw [hqr], fun hne => absurd hsl hne⟩
    · -- x hangs on qq's right: its right slot is redirected
      obtain ⟨ql, hql⟩ : ∃ v, (nd t qq).left = some v := by
        cases hqv : (nd t qq).left with
        | none => exact absurd hqv (hcs qq hq0 hqlen).1
        | some v => exact ⟨v, rfl⟩
      have hqlx : ql ≠ x := by
        intro h
        subst h
        exact (enc_children_ne hEj hNDT hppT hql hx0 hsr hx0) rfl
      obtain ⟨t', heq, hlen', hroot', hfr, hxr, hyr, hbr, hqr⟩ :=
        lrot_char_slotR t x y b0l qq ql hxy hb0 hxney hb0x hb0y hb0len hqx hqy hqb hxp hql hqlx
      have hframe : ∀ k, k ≠ x → k ≠ y → k ≠ b0l →
          (∀ pp, (nd t x).parent = some pp → k ≠ pp) → nd t' k = nd t k := by
        intro k h1 h2 h3 hg
        exact hfr k h1 h2 h3 (hg qq hxp)
      have hyr' : nd t' y = { nd t y with left := some x, parent := (nd t x).parent } := by
        rw [hxp]; exact hyr
      have hslot : ∀ pp, (nd t x).parent = some pp → pp ≠ x → pp ≠ y → pp ≠ b0l →
          (nd t' pp).parent = (nd t pp).parent ∧ (nd t' pp).data = (nd t pp).data ∧
          ((nd t pp).left = some x →
            (nd t' pp).left = some y ∧ (nd t' pp).right = (nd t pp).right) ∧
          (∀ ql', (nd t pp).left = some ql' → ql' ≠ x →
            (nd t' pp).left = (nd t pp).left ∧ (nd t' pp).right = some y) := by
        intro pp hpp _ _ _
        rw [hxp] at hpp
        obtain rfl : qq = pp := Option.some.inj hpp
        refine ⟨by rw [hqr], by rw [hqr], ?_, ?_⟩
        · intro habs
          exact absurd (Option.some.inj (hql.symm.trans habs)) hqlx
        · intro ql' hql' _
          exact ⟨by rw [hqr], by rw [hqr]⟩
      obtain ⟨T', hEncT', hIdx', hPC', hVals'⟩ :=
        rot_rebuild_left t t' x y b0l hlen' hxy hy0 hb0 hcs hframe hxr hyr' hbr hslot
          T hNDT j none hEj hPCT hx hq_top
      rw [if_neg hxj] at hEncT'
      have hcolors : ∀ k, (nd t' k).color = (nd t k).color := by
        intro k
        by_cases h1 : k = x
        · subst h1; rw [hxr]
        · by_cases h2 : k = y
          · subst h2; rw [hyr]
          · by_cases h3 : k = b0l
            · subst h3; rw [hbr]
            · by_cases h4 : k = qq
              · subst h4; rw [hqr]
              · rw [hfr k h1 h2 h3 h4]
      have hdata : ∀ k, (nd t' k).data = (nd t k).data := by
        intro k
        by_cases h1 : k = x
        · subst h1; rw [hxr]
        · by_cases h2 : k = y
          · subst h2; rw [hyr]
          · by_cases h3 : k = b0l
            · subst h3; rw [hbr]
            · by_cases h4 : k = qq
              · subst h4; rw [hqr]
              · rw [hfr k h1 h2 h3 h4]
      refine ⟨t', T', heq, hlen', hcolors, hdata, ?_, hIdx', hPC', ?_, ?_, hVals', ?_⟩
      · rw [hroot', hroot]
        exact hEncT'
      · intro r hr
        rw [hroot'] at hr
        exact hrootReal r hr
      · intro i hi0 hilen'
        rw [hlen'] at hilen'
        by_cases h1 : i = x
        · rw [h1]
          constructor
          · rw [hxr]; exact (hcs x hx0 hxlen).1
          · rw [hxr]; simp
        · by_cases h2 : i = y
          · rw [h2]
            constructor
            · rw [hyr]; simp
            · rw [hyr]; exact (hcs y hy0 hylen).2
          · by_cases h3 : i = b0l
            · rw [h3]
              constructor
              · rw [hbr]; exact (hcs b0l (h3 ▸ hi0) hb0len).1
              · rw [hbr]; exact (hcs b0l (h3 ▸ hi0) hb0len).2
            · by_cases h4 : i = qq
              · rw [h4]
                constructor
                · rw [hqr]; exact (hcs qq hq0 hqlen).1
                · rw [hqr]; simp
              · rw [hfr i h1 h2 h3 h4]
                exact hcs i hi0 hilen'
      · intro pp hpp
        obtain rfl : qq = pp := Option.some.inj hpp
        refine ⟨?_, fun _ => by rw [hqr]⟩
        intro habs
        exact absurd (Option.some.inj (hql.symm.trans habs)) hqlx

/-- On a well-formed arena, `right_rotate` at a member `x` with a real left
child succeeds and preserves well-formedness, every node's color and data,
the index set, and the in-order value sequence. -/
theorem rrot_preserves (t : RBTree) (T : ITree) (x y : Nat)
    (hlenPos : 0 < t.nodes.length)
    (hrootReal : ∀ r, t.root = some r → r ≠ 0)
    (hcs : ∀ i, i ≠ 0 → i < t.nodes.length →
        (nd t i).left ≠ none ∧ (nd t i).right ≠ none)
    (hEncT : Enc t t.root T) (hNDT : T.idxs.Nodup) (hPCT : pcT t T none)
    (hcomp : ∀ i, i ≠ 0 → i < t.nodes.length → i ∈ T.idxs)
    (hx : x ∈ T.idxs) (hxy : (nd t x).left = some y) (hy0 : y ≠ 0) :
    ∃ t' T', right_rotate t x = some t' ∧
      t'.nodes.length = t.nodes.length ∧
      (∀ k, (nd t' k).color = (nd t k).color) ∧
      (∀ k, (nd t' k).data = (nd t k).data) ∧
      Enc t' t'.root T' ∧ T'.idxs = T.idxs ∧ pcT t' T' none ∧
      (∀ r, t'.root = some r → r ≠ 0) ∧
      (∀ i, i ≠ 0 → i < t'.nodes.length →
        (nd t' i).left ≠ none ∧ (nd t' i).right ≠ none) ∧
      T'.valsIn t' = T.valsIn t ∧
      (∀ pp, (nd t x).parent = some pp →
        ((nd t pp).right = some x → (nd t' pp).right = some y) ∧
        ((nd t pp).right ≠ some x → (nd t' pp).left = some y)) := by
  obtain ⟨j, TL, TR, hTeq, hroot⟩ := enc_root_of_mem hEncT hx
  have hEj : Enc t (some j) T := hroot ▸ hEncT
  obtain ⟨hx0, hxlen⟩ := enc_mem hEj x hx
  have hy_mem : y ∈ T.idxs := enc_left_mem hEj hx hxy hy0
  obtain ⟨_, hylen⟩ := enc_mem hEj y hy_mem
  obtain ⟨b0r, hb0⟩ : ∃ b, (nd t y).right = some b := by
    cases hlv : (nd t y).right with
    | none => exact absurd hlv (hcs y hy0 hylen).2
    | some v => exact ⟨v, rfl⟩
  obtain ⟨S, hS, hSsub, hxS, hSND⟩ := enc_sub_left hEj hNDT hx hxy hy0
  obtain ⟨S1, S2, hSeq, _, hS1, hS2⟩ := enc_node_shape hS hy0
  have hS2b : Enc t (some b0r) S2 := hb0 ▸ hS2
  have hxney : x ≠ y := fun h => hxS (h ▸ (by rw [hSeq]; simp [ITree.idxs] : y ∈ S.idxs))
  have hb0S2 : b0r ≠ 0 → b0r ∈ S2.idxs := by
    intro hz
    obtain ⟨a1, a2, haeq, _, _, _⟩ := enc_node_shape hS2b hz
    rw [haeq]
    simp [ITree.idxs]
  have hb0x : b0r ≠ x := by
    by_cases hz : b0r = 0
    · exact fun h => hx0 (h ▸ hz)
    · intro h
      have hbS : b0r ∈ S.idxs := by rw [hSeq]; simp [ITree.idxs, hb0S2 hz]
      exact hxS (h ▸ hbS)
  have hb0y : b0r ≠ y := by
    by_cases hz : b0r = 0
    · exact fun h => hy0 (h ▸ hz)
    · rw [hSeq] at hSND
      obtain ⟨_, _, _, hyS2, _⟩ := nodup_parts hSND
      exact fun h => hyS2 (h ▸ hb0S2 hz)
  have hb0len : b0r < t.nodes.length := by
    by_cases hz : b0r = 0
    · rw [hz]; exact hlenPos
    · exact (enc_mem hS b0r (by rw [hSeq]; simp [ITree.idxs, hb0S2 hz])).2
  have hq_top : ∀ qq : Nat, (none : Option Nat) = some qq → qq ∉ T.idxs ∧ qq ≠ 0 := by
    intro qq h; cases h
  have hpjnone : (nd t j).parent = none := by
    rw [hTeq] at hPCT
    exact hPCT.1
  cases hxp : (nd t x).parent with
  | none =>
    have hxj : x = j := by
      rcases enc_parent_mem hEj hPCT hx with ⟨h1, _⟩ | ⟨pp, hpp, _, _⟩
      · exact (Option.some.inj h1).symm
      · rw [hxp] at hpp; cases hpp
    obtain ⟨t', heq, hlen', hroot', hfr, hxr, hyr, hbr⟩ :=
      rrot_char_root t x y b0r hxy hb0 hxney hb0x hb0y hb0len hxp
    have hframe : ∀ k, k ≠ x → k ≠ y → k ≠ b0r →
        (∀ pp, (nd t x).parent = some pp → k ≠ pp) → nd t' k = nd t k := by
      intro k h1 h2 h3 _
      exact hfr k h1 h2 h3
    have hyr' : nd t' y = { nd t y with right := some x, parent := (nd t x).parent } := by
      rw [hxp]; exact hyr
    have hslot : ∀ pp, (nd t x).parent = some pp → pp ≠ x → pp ≠ y → pp ≠ b0r →
        (nd t' pp).parent = (nd t pp).parent ∧ (nd t' pp).data = (nd t pp).data ∧
        ((nd t pp).right = some x →
          (nd t' pp).right = some y ∧ (nd t' pp).left = (nd t pp).left) ∧
        (∀ qr, (nd t pp).right = some qr → qr ≠ x →
          (nd t' pp).right = (nd t pp).right ∧ (nd t' pp).left = some y) := by
      intro pp hpp
      rw [hxp] at hpp
      cases hpp
    obtain ⟨T', hEncT', hIdx', hPC', hVals'⟩ :=
      rot_rebuild_right t t' x y b0r hlen' hxy hy0 hb0 hcs hframe hxr hyr' hbr hslot
        T hNDT j none hEj hPCT hx hq_top
    rw [if_pos hxj] at hEncT'
    have hcolors : ∀ k, (nd t' k).color = (nd t k).color := by
      intro k
      by_cases h1 : k = x
      · subst h1; rw [hxr]
      · by_cases h2 : k = y
        · subst h2; rw [hyr]
        · by_cases h3 : k = b0r
          · subst h3; rw [hbr]
          · rw [hfr k h1 h2 h3]
    have hdata : ∀ k, (nd t' k).data = (nd t k).data := by
      intro k
      by_cases h1 : k = x
      · subst h1; rw [hxr]
      · by_cases h2 : k = y
        · subst h2; rw [hyr]
        · by_cases h3 : k = b0r
          · subst h3; rw [hbr]
          · rw [hfr k h1 h2 h3]
    refine ⟨t', T', heq, hlen', hcolors, hdata, ?_, hIdx', hPC', ?_, ?_, hVals', ?_⟩
    · rw [hroot']
      exact hEncT'
    · intro r hr
      rw [hroot'] at hr
      obtain rfl : y = r := Option.some.inj hr
      exact hy0
    · intro i hi0 hilen'
      rw [hlen'] at hilen'
      by_cases h1 : i = x
      · rw [h1]
        constructor
        · rw [hxr]; simp
        · rw [hxr]; exact (hcs x hx0 hxlen).2
      · by_cases h2 : i = y
        · rw [h2]
          constructor
          · rw [hyr]; exact (hcs y hy0 hylen).1
          · rw [hyr]; simp
        · by_cases h3 : i = b0r
          · rw [h3]
            constructor
            · rw [hbr]; exact (hcs b0r (h3 ▸ hi0) hb0len).1
            · rw [hbr]; exact (hcs b0r (h3 ▸ hi0) hb0len).2
          · rw [hfr i h1 h2 h3]
            exact hcs i hi0 hilen'
    · intro pp hpp
      cases hpp
  | some qq =>
    have hxj : x ≠ j := by
      intro h
      rw [h, hpjnone] at hxp
      cases hxp
    rcases enc_parent_mem hEj hPCT hx with ⟨_, hpar⟩ | ⟨pp, hpp, hppT, hside⟩
    · rw [hxp] at hpar; cases hpar
    rw [hxp] at hpp
    obtain rfl : qq = pp := Option.some.inj hpp
    obtain ⟨hq0, hqlen⟩ := enc_mem hEj qq hppT
    have hqx : qq ≠ x := by
      intro h
      subst h
      rcases hside with hs | hs
      · rw [hxy] at hs
        exact hxney (Option.some.inj hs).symm
      · obtain ⟨S', hS', _, hxS', _⟩ := enc_sub_right hEj hNDT hx hs hx0
        obtain ⟨a1, a2, haeq, _, _, _⟩ := enc_node_shape hS' hx0
        exact hxS' (by rw [haeq]; simp [ITree.idxs])
    have hqy : qq ≠ y := by
      intro h
      subst h
      rcases hside with hs | hs
      · obtain ⟨S'', hS'', _, hyS'', _⟩ := enc_sub_left hEj hNDT hy_mem hs hx0
        have hxS'' : x ∈ S''.idxs := by
          obtain ⟨a1, a2, haeq, _, _, _⟩ := enc_node_shape hS'' hx0
          rw [haeq]; simp [ITree.idxs]
        exact hyS'' (enc_left_mem hS'' hxS'' hxy hy0)
      · rw [hb0] at hs
        exact hb0x (Option.some.inj hs)
    have hqb : qq ≠ b0r := by
      intro h
      by_cases hz : b0r = 0
      · exact hq0 (h.trans hz)
      · subst h
        have hbS2 : qq ∈ S2.idxs := hb0S2 hz
        rcases hside with hs | hs
        · have hxmem1 : x ∈ S2.idxs := enc_left_mem hS2b hbS2 hs hx0
          exact hxS (by rw [hSeq]; simp [ITree.idxs, hxmem1])
        · have hxmem1 : x ∈ S2.idxs := enc_right_mem hS2b hbS2 hs hx0
          exact hxS (by rw [hSeq]; simp [ITree.idxs, hxmem1])
    rcases hside with hsl | hsr
    · -- x hangs on qq's left: qq's right child is real and differs from x
      obtain ⟨qr, hqr⟩ : ∃ v, (nd t qq).right = some v := by
        cases hqv : (nd t qq).right with
        | none => exact absurd hqv (hcs qq hq0 hqlen).2
        | some v => exact ⟨v, rfl⟩
      have hqrx : qr ≠ x := by
        intro h
        subst h
        exact (enc_children_ne hEj hNDT hppT hsl hx0 hqr hx0).symm rfl
      obtain ⟨t', heq, hlen', hroot', hfr, hxr, hyr, hbr, hqrr⟩ :=
        rrot_char_slotL t x y b0r qq qr hxy hb0 hxney hb0x hb0y hb0len hqx hqy hqb hxp hqr hqrx
      have hframe : ∀ k, k ≠ x → k ≠ y → k ≠ b0r →
          (∀ pp, (nd t x).parent = some pp → k ≠ pp) → nd t' k = nd t k := by
        intro k h1 h2 h3 hg
        exact hfr k h1 h2 h3 (hg qq hxp)
      have hyr' : nd t' y = { nd t y with right := some x, parent := (nd t x).parent } := by
        rw [hxp]; exact hyr
      have hslot : ∀ pp, (nd t x).parent = some pp → pp ≠ x → pp ≠ y → pp ≠ b0r →
          (nd t' pp).parent = (nd t pp).parent ∧ (nd t' pp).data = (nd t pp).data ∧
          ((nd t pp).right = some x →
            (nd t' pp).right = some y ∧ (nd t' pp).left = (nd t pp).left) ∧
          (∀ qr', (nd t pp).right = some qr' → qr' ≠ x →
            (nd t' pp).right = (nd t pp).right ∧ (nd t' pp).left = some y) := by
        intro pp hpp _ _ _
        rw [hxp] at hpp
        obtain rfl : qq = pp := Option.some.inj hpp
        refine ⟨by rw [hqrr], by rw [hqrr], ?_, ?_⟩
        · intro habs
          exact absurd (Option.some.inj (hqr.symm.trans habs)) hqrx
        · intro qr' hqr' _
          exact ⟨by rw [hqrr], by rw [hqrr]⟩
      obtain ⟨T', hEncT', hIdx', hPC', hVals'⟩ :=
        rot_rebuild_right t t' x y b0r hlen' hxy hy0 hb0 hcs hframe hxr hyr' hbr hslot
          T hNDT j none hEj hPCT hx hq_top
      rw [if_neg hxj] at hEncT'
      have hcolors : ∀ k, (nd t' k).color = (nd t k).color := by
        intro k
        by_cases h1 : k = x
        · subst h1; rw [hxr]
        · by_cases h2 : k = y
          · subst h2; rw [hyr]
          · by_cases h3 : k = b0r
            · subst h3; rw [hbr]
            · by_cases h4 : k = qq
              · subst h4; rw [hqrr]
              · rw [hfr k h1 h2 h3 h4]
      have hdata : ∀ k, (nd t' k).data = (nd t k).data := by
        intro k
        by_cases h1 : k = x
        · subst h1; rw [hxr]
        · by_cases h2 : k = y
          · subst h2; rw [hyr]
          · by_cases h3 : k = b0r
            · subst h3; rw [hbr]
            · by_cases h4 : k = qq
              · subst h4; rw [hqrr]
              · rw [hfr k h1 h2 h3 h4]
      refine ⟨t', T', heq, hlen', hcolors, hdata, ?_, hIdx', hPC', ?_, ?_, hVals', ?_⟩
      · rw [hroot', hroot]
        exact hEncT'
      · intro r hr
        rw [hroot'] at hr
        exact hrootReal r hr
      · intro i hi0 hilen'
        rw [hlen'] at hilen'
        by_cases h1 : i = x
        · rw [h1]
          constructor
          · rw [hxr]; simp
          · rw [hxr]; exact (hcs x hx0 hxlen).2
        · by_cases h2 : i = y
          · rw [h2]
            constructor
            · rw [hyr]; exact (hcs y hy0 hylen).1
            · rw [hyr]; simp
          · by_cases h3 : i = b0r
            · rw [h3]
              constructor
              · rw [hbr]; exact (hcs b0r (h3 ▸ hi0) hb0len).1
              · rw [hbr]; exact (hcs b0r (h3 ▸ hi0) hb0len).2
            · by_cases h4 : i = qq
              · rw [h4]
                constructor
                · rw [hqrr]; simp
                · rw [hqrr]; exact (hcs qq hq0 hqlen).2
              · rw [hfr i h1 h2 h3 h4]
                exact hcs i hi0 hilen'
      · intro pp hpp
        obtain rfl : qq = pp := Option.some.inj hpp
        refine ⟨?_, fun _ => by rw [hqrr]⟩
        intro habs
        exact absurd (Option.some.inj (hqr.symm.trans habs)) hqrx
    · -- x hangs on qq's right: its right slot is redirected
      obtain ⟨t', heq, hlen', hroot', hfr, hxr, hyr, hbr, hqrr⟩ :=
        rrot_char_slotR t x y b0r qq hxy hb0 hxney hb0x hb0y hb0len hqx hqy hqb hxp hsr
      have hframe : ∀ k, k ≠ x → k ≠ y → k ≠ b0r →
          (∀ pp, (nd t x).parent = some pp → k ≠ pp) → nd t' k = nd t k := by
        intro k h1 h2 h3 hg
        exact hfr k h1 h2 h3 (hg qq hxp)
      have hyr' : nd t' y = { nd t y with right := some x, parent := (nd t x).parent } := by
        rw [hxp]; exact hyr
      have hslot : ∀ pp, (nd t x).parent = some pp → pp ≠ x → pp ≠ y → pp ≠ b0r →
          (nd t' pp).parent = (nd t pp).parent ∧ (nd t' pp).data = (nd t pp).data ∧
          ((nd t pp).right = some x →
            (nd t' pp).right = some y ∧ (nd t' pp).left = (nd t pp).left) ∧
          (∀ qr', (nd t pp).right = some qr' → qr' ≠ x →
            (nd t' pp).right = (nd t pp).right ∧ (nd t' pp).left = some y) := by
        intro pp hpp _ _ _
        rw [hxp] at hpp
        obtain rfl : qq = pp := Option.some.inj hpp
        refine ⟨by rw [hqrr], by rw [hqrr], fun _ => ⟨by rw [hqrr], by rw [hqrr]⟩, ?_⟩
        intro qr' hqr' hq'
        exact absurd (Option.some.inj (hsr.symm.trans hqr')) (fun h => hq' h.symm)
      obtain ⟨T', hEncT', hIdx', hPC', hVals'⟩ :=
        rot_rebuild_right t t' x y b0r hlen' hxy hy0 hb0 hcs hframe hxr hyr' hbr hslot
          T hNDT j none hEj hPCT hx hq_top
      rw [if_neg hxj] at hEncT'
      have hcolors : ∀ k, (nd t' k).color = (nd t k).color := by
        intro k
        by_cases h1 : k = x
        · subst h1; rw [hxr]
        · by_cases h2 : k = y
          · subst h2; rw [hyr]
          · by_cases h3 : k = b0r
            · subst h3; rw [hbr]
            · by_cases h4 : k = qq
              · subst h4; rw [hqrr]
              · rw [hfr k h1 h2 h3 h4]
      have hdata : ∀ k, (nd t' k).data = (nd t k).data := by
        intro k
        by_cases h1 : k = x
        · subst h1; rw [hxr]
        · by_cases h2 : k = y
          · subst h2; rw [hyr]
          · by_cases h3 : k = b0r
            · subst h3; rw [hbr]
            · by_cases h4 : k = qq
              · subst h4; rw [hqrr]
              · rw [hfr k h1 h2 h3 h4]
      refine ⟨t', T', heq, hlen', hcolors, hdata, ?_, hIdx', hPC', ?_, ?_, hVals', ?_⟩
      · rw [hroot', hroot]
        exact hEncT'
      · intro r hr
        rw [hroot'] at hr
        exact hrootReal r hr
      · intro i hi0 hilen'
        rw [hlen'] at hilen'
        by_cases h1 : i = x
        · rw [h1]
          constructor
          · rw [hxr]; simp
          · rw [hxr]; exact (hcs x hx0 hxlen).2
        · by_cases h2 : i = y
          · rw [h2]
            constructor
            · rw [hyr]; exact (hcs y hy0 hylen).1
            · rw [hyr]; simp
          · by_cases h3 : i = b0r
            · rw [h3]
              constructor
              · rw [hbr]; exact (hcs b0r (h3 ▸ hi0) hb0len).1
              · rw [hbr]; exact (hcs b0r (h3 ▸ hi0) hb0len).2
            · by_cases h4 : i = qq
              · rw [h4]
                constructor
                · rw [hqrr]; exact (hcs qq hq0 hqlen).1
                · rw [hqrr]; simp
              · rw [hfr i h1 h2 h3 h4]
                exact hcs i hi0 hilen'
      · intro pp hpp
        obtain rfl : qq = pp := Option.some.inj hpp
        exact ⟨fun _ => by rw [hqrr], fun hne => absurd hsr hne⟩

/-! ## Recoloring preserves the structure -/

theorem left_setColor (t : RBTree) (i : Nat) (c : Color) (k : Nat) :
    (nd (setColor t i c) k).left = (nd t k).left := by
  rw [nd_setColor]
  by_cases h : i = k ∧ i < t.nodes.length
  · rw [if_pos h]
    obtain ⟨rfl, _⟩ := h
    rfl
  · rw [if_neg h]

theorem right_setColor (t : RBTree) (i : Nat) (c : Color) (k : Nat) :
    (nd (setColor t i c) k).right = (nd t k).right := by
  rw [nd_setColor]
  by_cases h : i = k ∧ i < t.nodes.length
  · rw [if_pos h]
    obtain ⟨rfl, _⟩ := h
    rfl
  · rw [if_neg h]

theorem parent_setColor (t : RBTree) (i : Nat) (c : Color) (k : Nat) :
    (nd (setColor t i c) k).parent = (nd t k).parent := by
  rw [nd_setColor]
  by_cases h : i = k ∧ i < t.nodes.length
  · rw [if_pos h]
    obtain ⟨rfl, _⟩ := h
    rfl
  · rw [if_neg h]

theorem data_setColor (t : RBTree) (i : Nat) (c : Color) (k : Nat) :
    (nd (setColor t i c) k).data = (nd t k).data := by
  rw [nd_setColor]
  by_cases h : i = k ∧ i < t.nodes.length
  · rw [if_pos h]
    obtain ⟨rfl, _⟩ := h
    rfl
  · rw [if_neg h]

theorem WFT_setColor {t : RBTree} {T : ITree} (i : Nat) (c : Color) (h : WFT t T) :
    WFT (setColor t i c) T := by
  obtain ⟨h1, h2, h3, h4, h5, h6, h7⟩ := h
  refine ⟨?_, ?_, ?_, ?_, h5, ?_, ?_⟩
  · rw [length_setColor]; exact h1
  · intro r hr
    exact h2 r hr
  · intro k hk0 hklen
    rw [length_setColor] at hklen
    constructor
    · rw [left_setColor]; exact (h3 k hk0 hklen).1
    · rw [right_setColor]; exact (h3 k hk0 hklen).2
  · exact enc_frame (length_setColor t i c) h4
      (fun k _ => ⟨left_setColor t i c k, right_setColor t i c k⟩)
  · exact pcT_frame h6 (fun k _ => parent_setColor t i c k)
  · intro k hk0 hklen
    rw [length_setColor] at hklen
    exact h7 k hk0 hklen

/-- Package the conclusions of a rotation-preservation lemma back into
`WFT`. -/
theorem WFT_rot {t t' : RBTree} {T T' : ITree}
    (hWF : WFT t T)
    (hlen' : t'.nodes.length = t.nodes.length)
    (hEnc' : Enc t' t'.root T') (hIdx' : T'.idxs = T.idxs) (hPC' : pcT t' T' none)
    (hroot' : ∀ r, t'.root = some r → r ≠ 0)
    (hcs' : ∀ i, i ≠ 0 → i < t'.nodes.length →
      (nd t' i).left ≠ none ∧ (nd t' i).right ≠ none) :
    WFT t' T' := by
  obtain ⟨h1, _, _, _, h5, _, h7⟩ := hWF
  refine ⟨by rw [hlen']; exact h1, hroot', hcs', hEnc', by rw [hIdx']; exact h5, hPC', ?_⟩
  intro i hi0 hil
  rw [hIdx']
  rw [hlen'] at hil
  exact h7 i hi0 hil

/-- What a single `fix_insert` iteration may produce on a well-formed
arena: never a panic, and any result is again well-formed with the new
current node a member. -/
def stepOk (out : FixStep) : Prop :=
  match out with
  | FixStep.panic => False
  | FixStep.exit t' => ∃ T', WFT t' T'
  | FixStep.cont t' cur' _ => ∃ T', WFT t' T' ∧ cur' ∈ T'.idxs

/-- One iteration of the `fix_insert` loop on a well-formed arena does not
panic and preserves well-formedness; the next current node is a member. -/
theorem fixStep_ok {t : RBTree} {T : ITree} {cur : Nat}
    (hWF : WFT t T) (hcur : cur ∈ T.idxs) : stepOk (fixStep t cur) := by
  obtain ⟨hlenPos, hrootReal, hcs, hEncT, hNDT, hPCT, hcomp⟩ := hWF
  have hWF' : WFT t T := ⟨hlenPos, hrootReal, hcs, hEncT, hNDT, hPCT, hcomp⟩
  obtain ⟨hcur0, hcurlen⟩ := enc_mem hEncT cur hcur
  cases hp : (nd t cur).parent with
  | none =>
    simp only [fixStep, hp]
    exact ⟨T, hWF'⟩
  | some p =>
    rcases enc_parent_mem hEncT hPCT hcur with ⟨_, hparnone⟩ | ⟨pp, hppx, hppT, _⟩
    · rw [hp] at hparnone; cases hparnone
    rw [hp] at hppx
    obtain rfl : p = pp := Option.some.inj hppx
    obtain ⟨hp0, hplen⟩ := enc_mem hEncT p hppT
    by_cases hcol : (nd t p).color = Color.black
    · simp only [fixStep, hp, if_pos hcol]
      exact ⟨T, hWF'⟩
    · cases hg : (nd t p).parent with
      | none =>
        simp only [fixStep, hp, if_neg hcol, hg]
        exact ⟨T, hWF', hcur⟩
      | some g =>
        rcases enc_parent_mem hEncT hPCT hppT with ⟨_, hgn⟩ | ⟨gg, hggx, hggT, hgside⟩
        · rw [hg] at hgn; cases hgn
        rw [hg] at hggx
        obtain rfl : g = gg := Option.some.inj hggx
        obtain ⟨hg0, hglen⟩ := enc_mem hEncT g hggT
        obtain ⟨gl, hgl⟩ : ∃ v, (nd t g).left = some v := by
          cases hv : (nd t g).left with
          | none => exact absurd hv (hcs g hg0 hglen).1
          | some v => exact ⟨v, rfl⟩
        obtain ⟨gr, hgr⟩ : ∃ v, (nd t g).right = some v := by
          cases hv : (nd t g).right with
          | none => exact absurd hv (hcs g hg0 hglen).2
          | some v => exact ⟨v, rfl⟩
        by_cases hpgl : p = gl
        · -- parent is the grandparent's left child
          by_cases hu : (nd t gr).color = Color.red
          · -- red uncle: recolor and move to the grandparent
            simp only [fixStep, hp, if_neg hcol, hg, hgl, hgr, if_pos hpgl, if_pos hu]
            exact ⟨T, WFT_setColor g Color.red (WFT_setColor gr Color.black
              (WFT_setColor p Color.black hWF')), hggT⟩
          · -- black or sentinel uncle: rotation cases
            obtain ⟨pr, hpr⟩ : ∃ v, (nd t p).right = some v := by
              cases hv : (nd t p).right with
              | none => exact absurd hv (hcs p hp0 hplen).2
              | some v => exact ⟨v, rfl⟩
            have hglp : (nd t g).left = some p := by rw [hgl, hpgl]
            by_cases hprc : pr = cur
            · -- triangle: left-rotate at the parent, then right-rotate at the grandparent
              rw [hprc] at hpr
              obtain ⟨t1, T1, heq1, hlen1, hcol1, hdata1, hEnc1, hIdx1, hPC1, hroot1,
                hcs1, hvals1, hslot1⟩ :=
                lrot_preserves t T p cur hlenPos hrootReal hcs hEncT hNDT hPCT hcomp
                  hppT hpr hcur0
              have hWF1 : WFT t1 T1 := WFT_rot hWF' hlen1 hEnc1 hIdx1 hPC1 hroot1 hcs1
              obtain ⟨w1, w2, w3, w4, w5, w6, w7⟩ :=
                WFT_setColor g Color.red (WFT_setColor p Color.black hWF1)
              have hg3left :
                  (nd (setColor (setColor t1 p Color.black) g Color.red) g).left
                    = some cur := by
                rw [left_setColor, left_setColor]
                exact (hslot1 g hg).1 hglp
              have hgT1 : g ∈ T1.idxs := by rw [hIdx1]; exact hggT
              obtain ⟨t4, T2, heq4, hlen4, hcol4, hdata4, hEnc4, hIdx4, hPC4, hroot4,
                hcs4, hvals4, hslot4⟩ :=
                rrot_preserves (setColor (setColor t1 p Color.black) g Color.red) T1 g cur
                  w1 w2 w3 w4 w5 w6 w7 hgT1 hg3left hcur0
              have hWF4 : WFT t4 T2 :=
                WFT_rot ⟨w1, w2, w3, w4, w5, w6, w7⟩ hlen4 hEnc4 hIdx4 hPC4 hroot4 hcs4
              have hpT2 : p ∈ T2.idxs := by rw [hIdx4, hIdx1]; exact hppT
              simp only [fixStep, hp, if_neg hcol, hg, hgl, hgr, if_pos hpgl, if_neg hu]
              rw [decide_eq_true hpgl]
              simp only [fixRotCase, eq_self_iff_true, if_true, hpr, heq1, heq4, stepOk]
              exact ⟨T2, hWF4, hpT2⟩
            · -- line: recolor, then right-rotate at the grandparent
              obtain ⟨w1, w2, w3, w4, w5, w6, w7⟩ :=
                WFT_setColor g Color.red (WFT_setColor p Color.black hWF')
              have hg3left :
                  (nd (setColor (setColor t p Color.black) g Color.red) g).left
                    = some p := by
                rw [left_setColor, left_setColor]
                exact hglp
              have hgT : g ∈ T.idxs := hggT
              obtain ⟨t4, T2, heq4, hlen4, hcol4, hdata4, hEnc4, hIdx4, hPC4, hroot4,
                hcs4, hvals4, hslot4⟩ :=
                rrot_preserves (setColor (setColor t p Color.black) g Color.red) T g p
                  w1 w2 w3 w4 w5 w6 w7 hgT hg3left hp0
              have hWF4 : WFT t4 T2 :=
                WFT_rot ⟨w1, w2, w3, w4, w5, w6, w7⟩ hlen4 hEnc4 hIdx4 hPC4 hroot4 hcs4
              have hcT2 : cur ∈ T2.idxs := by rw [hIdx4]; exact hcur
              simp only [fixStep, hp, if_neg hcol, hg, hgl, hgr, if_pos hpgl, if_neg hu]
              rw [decide_eq_true hpgl]
              simp only [fixRotCase, eq_self_iff_true, if_true, if_false, hpr, hprc,
                heq4, stepOk]
              exact ⟨T2, hWF4, hcT2⟩
        · -- parent is not the grandparent's left child
          by_cases hu : (nd t gl).color = Color.red
          · simp only [fixStep, hp, if_neg hcol, hg, hgl, hgr, if_neg hpgl, if_pos hu]
            exact ⟨T, WFT_setColor g Color.red (WFT_setColor gl Color.black
              (WFT_setColor p Color.black hWF')), hggT⟩
          · -- black or sentinel uncle, mirrored rotation cases
            obtain ⟨pl, hpl⟩ : ∃ v, (nd t p).left = some v := by
              cases hv : (nd t p).left with
              | none => exact absurd hv (hcs p hp0 hplen).1
              | some v => exact ⟨v, rfl⟩
            have hgrp : (nd t g).right = some p := by
              rcases hgside with hs | hs
              · rw [hgl] at hs
                exact absurd (Option.some.inj hs).symm hpgl
              · exact hs
            by_cases hplc : pl = cur
            · -- triangle: right-rotate at the parent, then left-rotate at the grandparent
              rw [hplc] at hpl
              obtain ⟨t1, T1, heq1, hlen1, hcol1, hdata1, hEnc1, hIdx1, hPC1, hroot1,
                hcs1, hvals1, hslot1⟩ :=
                rrot_preserves t T p cur hlenPos hrootReal hcs hEncT hNDT hPCT hcomp
                  hppT hpl hcur0
              have hWF1 : WFT t1 T1 := WFT_rot hWF' hlen1 hEnc1 hIdx1 hPC1 hroot1 hcs1
              obtain ⟨w1, w2, w3, w4, w5, w6, w7⟩ :=
                WFT_setColor g Color.red (WFT_setColor p Color.black hWF1)
              have hg3right :
                  (nd (setColor (setColor t1 p Color.black) g Color.red) g).right
                    = some cur := by
                rw [right_setColor, right_setColor]
                exact (hslot1 g hg).1 hgrp
              have hgT1 : g ∈ T1.idxs := by rw [hIdx1]; exact hggT
              obtain ⟨t4, T2, heq4, hlen4, hcol4, hdata4, hEnc4, hIdx4, hPC4, hroot4,
                hcs4, hvals4, hslot4⟩ :=
                lrot_preserves (setColor (setColor t1 p Color.black) g Color.red) T1 g cur
                  w1 w2 w3 w4 w5 w6 w7 hgT1 hg3right hcur0
              have hWF4 : WFT t4 T2 :=
                WFT_rot ⟨w1, w2, w3, w4, w5, w6, w7⟩ hlen4 hEnc4 hIdx4 hPC4 hroot4 hcs4
              have hpT2 : p ∈ T2.idxs := by rw [hIdx4, hIdx1]; exact hppT
              simp only [fixStep, hp, if_neg hcol, hg, hgl, hgr, if_neg hpgl, if_neg hu]
              rw [decide_eq_false hpgl]
              simp only [fixRotCase, Bool.false_eq_true, eq_self_iff_true, if_true,
                if_false, hpl, heq1, heq4, stepOk]
              exact ⟨T2, hWF4, hpT2⟩
            · -- line: recolor, then left-rotate at the grandparent
              obtain ⟨w1, w2, w3, w4, w5, w6, w7⟩ :=
                WFT_setColor g Color.red (WFT_setColor p Color.black hWF')
              have hg3right :
                  (nd (setColor (setColor t p Color.black) g Color.red) g).right
                    = some p := by
                rw [right_setColor, right_setColor]
                exact hgrp
              obtain ⟨t4, T2, heq4, hlen4, hcol4, hdata4, hEnc4, hIdx4, hPC4, hroot4,
                hcs4, hvals4, hslot4⟩ :=
                lrot_preserves (setColor (setColor t p Color.black) g Color.red) T g p
                  w1 w2 w3 w4 w5 w6 w7 hggT hg3right hp0
              have hWF4 : WFT t4 T2 :=
                WFT_rot ⟨w1, w2, w3, w4, w5, w6, w7⟩ hlen4 hEnc4 hIdx4 hPC4 hroot4 hcs4
              have hcT2 : cur ∈ T2.idxs := by rw [hIdx4]; exact hcur
              simp only [fixStep, hp, if_neg hcol, hg, hgl, hgr, if_neg hpgl, if_neg hu]
              rw [decide_eq_false hpgl]
              simp only [fixRotCase, Bool.false_eq_true, eq_self_iff_true, if_true,
                if_false, hpl, hplc, heq4, stepOk]
              exact ⟨T2, hWF4, hcT2⟩

/-! ## The fixup loop and `fix_insert` on well-formed arenas -/

theorem fixLoop_ok : ∀ (fuel : Nat) (t : RBTree) (T : ITree) (cur rots : Nat),
    WFT t T → cur ∈ T.idxs →
    fixLoop fuel t cur rots ≠ Res.panicked ∧
    (∀ t' rots', fixLoop fuel t cur rots = Res.ok (t', rots') → WF t') := by
  intro fuel
  induction fuel with
  | zero =>
    intro t T cur rots _ _
    constructor
    · intro h; simp [fixLoop] at h
    · intro t' r h; simp [fixLoop] at h
  | succ n ih =>
    intro t T cur rots hWF hcur
    have hso := fixStep_ok hWF hcur
    cases hs : fixStep t cur with
    | panic =>
      rw [hs] at hso
      simp only [stepOk] at hso
    | exit t1 =>
      rw [hs] at hso
      simp only [stepOk] at hso
      constructor
      · intro h; simp [fixLoop, hs] at h
      · intro t' rots' h
        simp only [fixLoop, hs, Res.ok.injEq, Prod.mk.injEq] at h
        exact h.1 ▸ hso
    | cont t1 cur1 r =>
      rw [hs] at hso
      simp only [stepOk] at hso
      obtain ⟨T1, hWF1, hcur1⟩ := hso
      have hrec := ih t1 T1 cur1 (rots + r) hWF1 hcur1
      constructor
      · intro h
        simp only [fixLoop, hs] at h
        exact hrec.1 h
      · intro t' rots' h
        simp only [fixLoop, hs] at h
        exact hrec.2 t' rots' h

theorem WFT_forceRootBlack {t : RBTree} {T : ITree} (h : WFT t T) :
    WFT (forceRootBlack t) T := by
  unfold forceRootBlack
  cases t.root with
  | none => exact h
  | some r => exact WFT_setColor r Color.black h

theorem root_forceRootBlack (t : RBTree) : (forceRootBlack t).root = t.root := by
  cases h : t.root with
  | none => simp [forceRootBlack, h]
  | some r => simp [forceRootBlack, h, root_setColor]

/-- After `forceRootBlack`, the root (if present) is black. -/
theorem forceRootBlack_black {t : RBTree} {T : ITree} (h : WFT t T) :
    ∀ r, (forceRootBlack t).root = some r →
      (nd (forceRootBlack t) r).color = Color.black := by
  intro r hr
  rw [root_forceRootBlack] at hr
  obtain ⟨hlen, hroot, hcs, hE, hND, hPC, hcomp⟩ := h
  have hr0 : r ≠ 0 := hroot r hr
  rw [hr] at hE
  obtain ⟨l, rr, _, hrlen, _, _⟩ := enc_node_shape hE hr0
  simp only [forceRootBlack, hr]
  rw [nd_setColor, if_pos ⟨rfl, hrlen⟩]

theorem fix_insert_ok {t : RBTree} {T : ITree} {node : Nat} (fuel : Nat)
    (hWF : WFT t T) (hnode : node ∈ T.idxs) :
    fix_insert fuel t node ≠ Res.panicked ∧
    (∀ t' rots, fix_insert fuel t node = Res.ok (t', rots) →
      WF t' ∧ ∀ r, t'.root = some r → (nd t' r).color = Color.black) := by
  have h := fixLoop_ok fuel t T node 0 hWF hnode
  cases hl : fixLoop fuel t node 0 with
  | ok p =>
    obtain ⟨t1, rots1⟩ := p
    obtain ⟨T1, hWF1⟩ := h.2 t1 rots1 hl
    constructor
    · intro hc; simp [fix_insert, hl] at hc
    · intro t' rots' hc
      simp only [fix_insert, hl, Res.ok.injEq, Prod.mk.injEq] at hc
      rw [← hc.1]
      exact ⟨⟨T1, WFT_forceRootBlack hWF1⟩, forceRootBlack_black hWF1⟩
  | panicked => exact absurd hl (fun hh => h.1 hh)
  | fuelOut =>
    constructor
    · intro hc; simp [fix_insert, hl] at hc
    · intro t' rots' hc; simp [fix_insert, hl] at hc

/-! ## The BST descent of `insert` on well-formed arenas -/

theorem descend_ok :
    ∀ (fuel : Nat) (u : RBTree) (T : ITree) (data : Int) (c : Nat) (par : Option Nat),
    (∀ i, i ≠ 0 → i < u.nodes.length →
      (nd u i).left ≠ none ∧ (nd u i).right ≠ none) →
    Enc u u.root T → c ∈ T.idxs →
    descend fuel u data (some c) par ≠ Res.panicked ∧
    (∀ res, descend fuel u data (some c) par = Res.ok res →
      ∃ p, res = some p ∧ p ∈ T.idxs ∧
        (data < (nd u p).data → (nd u p).left = some 0) ∧
        (¬ data < (nd u p).data → (nd u p).right = some 0)) := by
  intro fuel
  induction fuel with
  | zero =>
    intro u T data c par _ _ _
    constructor
    · intro h; simp [descend] at h
    · intro res h; simp [descend] at h
  | succ n ih =>
    intro u T data c par hcs hE hc
    obtain ⟨hc0, hclen⟩ := enc_mem hE c hc
    by_cases hlt : data < (nd u c).data
    · cases hl : (nd u c).left with
      | none => exact absurd hl (hcs c hc0 hclen).1
      | some l =>
        by_cases hl0 : l = 0
        · subst hl0
          constructor
          · intro h; simp [descend, hlt, hl] at h
          · intro res h
            simp only [descend, if_pos hlt, hl, eq_self_iff_true, if_true, Res.ok.injEq] at h
            exact ⟨c, h.symm, hc, fun _ => hl, fun hn => absurd hlt hn⟩
        · have hlT : l ∈ T.idxs := enc_left_mem hE hc hl hl0
          have hrec := ih u T data l (some c) hcs hE hlT
          constructor
          · intro h
            simp only [descend, if_pos hlt, hl, if_neg hl0] at h
            exact hrec.1 h
          · intro res h
            simp only [descend, if_pos hlt, hl, if_neg hl0] at h
            exact hrec.2 res h
    · cases hr : (nd u c).right with
      | none => exact absurd hr (hcs c hc0 hclen).2
      | some r =>
        by_cases hr0 : r = 0
        · subst hr0
          constructor
          · intro h; simp [descend, hlt, hr] at h
          · intro res h
            simp only [descend, if_neg hlt, hr, eq_self_iff_true, if_true, Res.ok.injEq] at h
            exact ⟨c, h.symm, hc, fun hlt' => absurd hlt' hlt, fun _ => hr⟩
        · have hrT : r ∈ T.idxs := enc_right_mem hE hc hr hr0
          have hrec := ih u T data r (some c) hcs hE hrT
          constructor
          · intro h
            simp only [descend, if_neg hlt, hr, if_neg hr0] at h
            exact hrec.1 h
          · intro res h
            simp only [descend, if_neg hlt, hr, if_neg hr0] at h
            exact hrec.2 res h

/-! ## Attaching the freshly inserted node to its parent -/

/-- The index tree after the new node `new` is attached under `p` on the
given side (`true` = left).  The replaced slot held the `nil` sentinel, so
the corresponding subtree was a leaf. -/
def attachT (p new : Nat) (side : Bool) : ITree → ITree
  | ITree.leaf => ITree.leaf
  | ITree.node i l r =>
    if i = p then
      if side then
        ITree.node i (ITree.node new ITree.leaf ITree.leaf) (attachT p new side r)
      else
        ITree.node i (attachT p new side l) (ITree.node new ITree.leaf ITree.leaf)
    else ITree.node i (attachT p new side l) (attachT p new side r)

theorem attachT_not_mem {p new : Nat} {side : Bool} :
    ∀ {S : ITree}, p ∉ S.idxs → attachT p new side S = S := by
  intro S
  induction S with
  | leaf => intro _; rfl
  | node i l r ihl ihr =>
    intro h
    have h' : ¬(p ∈ l.idxs ∨ p = i ∨ p ∈ r.idxs) := by simpa [ITree.idxs] using h
    push_neg at h'
    obtain ⟨h1, h2, h3⟩ := h'
    simp only [attachT, if_neg (fun hip : i = p => h2 hip.symm), ihl h1, ihr h3]

/-- Rebuilding the encoded tree after attaching `new` on the left of `p`:
the arena `t3` agrees with `t` away from `p` and `new`, `p`'s left slot
(previously the sentinel) now holds `new`, and `new` is a fresh red leaf
node.  The encoding, parent consistency and the index set (with `new`
inserted) all transfer. -/
theorem enc_attach_left {t t3 : RBTree} {p new : Nat}
    (hlen3 : t.nodes.length ≤ t3.nodes.length)
    (hfr : ∀ k, k ≠ p → k < t.nodes.length →
      (nd t3 k).left = (nd t k).left ∧ (nd t3 k).right = (nd t k).right)
    (hfrp : ∀ k, k < t.nodes.length → (nd t3 k).parent = (nd t k).parent)
    (hnew0 : new ≠ 0) (hnewlen : new < t3.nodes.length)
    (hnewl : (nd t3 new).left = some 0) (hnewr : (nd t3 new).right = some 0)
    (hnewp : (nd t3 new).parent = some p)
    (hpl3 : (nd t3 p).left = some new)
    (hpr3 : (nd t3 p).right = (nd t p).right)
    (hplt : (nd t p).left = some 0) :
    ∀ {o : Option Nat} {S : ITree}, Enc t o S → S.idxs.Nodup →
      Enc t3 o (attachT p new true S) ∧
      (∀ q, pcT t S q → pcT t3 (attachT p new true S) q) ∧
      (p ∈ S.idxs → (attachT p new true S).idxs.Perm (new :: S.idxs)) := by
  intro o S hE
  induction hE with
  | absent =>
    intro _
    exact ⟨Enc.absent, fun _ _ => trivial, fun h => absurd h (by simp [ITree.idxs])⟩
  | nil =>
    intro _
    exact ⟨Enc.nil, fun _ _ => trivial, fun h => absurd h (by simp [ITree.idxs])⟩
  | node h0 hl hL hR ihL ihR =>
    rename_i i l r
    intro hND
    obtain ⟨hNDL, hNDR, hiL, hiR, hdisj⟩ := nodup_parts hND
    by_cases hip : i = p
    · subst hip
      rw [hplt] at hL
      cases hL with
      | node h0x _ _ _ => exact absurd rfl h0x
      | nil =>
        have hR3 := ihR hNDR
        have hrefl : attachT i new true r = r := attachT_not_mem hiR
        refine ⟨?_, ?_, ?_⟩
        · simp only [attachT, eq_self_iff_true, if_true]
          refine Enc.node h0 (lt_of_lt_of_le hl hlen3) ?_ ?_
          · rw [hpl3]
            refine Enc.node hnew0 hnewlen ?_ ?_
            · rw [hnewl]; exact Enc.nil
            · rw [hnewr]; exact Enc.nil
          · rw [hpr3]; exact hR3.1
        · intro q hPC
          obtain ⟨hparent, _, hpcr⟩ := hPC
          simp only [attachT, eq_self_iff_true, if_true]
          refine ⟨?_, ⟨hnewp, trivial, trivial⟩, hR3.2.1 _ hpcr⟩
          rw [hfrp i hl]; exact hparent
        · intro _
          simp only [attachT, eq_self_iff_true, if_true, hrefl]
          have he : (ITree.node i (ITree.node new ITree.leaf ITree.leaf) r).idxs
              = new :: (ITree.node i ITree.leaf r).idxs := by
            simp [ITree.idxs]
          rw [he]
    · have hL3 := ihL hNDL
      have hR3 := ihR hNDR
      refine ⟨?_, ?_, ?_⟩
      · simp only [attachT, if_neg hip]
        refine Enc.node h0 (lt_of_lt_of_le hl hlen3) ?_ ?_
        · rw [(hfr i hip hl).1]; exact hL3.1
        · rw [(hfr i hip hl).2]; exact hR3.1
      · intro q hPC
        obtain ⟨hparent, hpcl, hpcr⟩ := hPC
        simp only [attachT, if_neg hip]
        exact ⟨by rw [hfrp i hl]; exact hparent, hL3.2.1 _ hpcl, hR3.2.1 _ hpcr⟩
      · intro hpS
        have hpS2 : p ∈ l.idxs ∨ p = i ∨ p ∈ r.idxs := by
          simpa [ITree.idxs] using hpS
        rcases hpS2 with hpL | hpi | hpR
        · have hrefl : attachT p new true r = r :=
            attachT_not_mem (fun hc => hdisj p hpL hc)
          have hperm := hL3.2.2 hpL
          simp only [attachT, if_neg hip, ITree.idxs, hrefl]
          exact hperm.append_right _
        · exact absurd hpi.symm hip
        · have hrefl : attachT p new true l = l :=
            attachT_not_mem (fun hc => hdisj p hc hpR)
          have hperm := hR3.2.2 hpR
          simp only [attachT, if_neg hip, ITree.idxs, hrefl]
          refine (List.Perm.append_left l.idxs (List.Perm.cons i hperm)).trans ?_
          have h2 : List.Perm ((l.idxs ++ [i]) ++ new :: r.idxs)
              (new :: ((l.idxs ++ [i]) ++ r.idxs)) := List.perm_middle
          simpa using h2

/-- Mirror of `enc_attach_left`: the new node is attached on the right of
`p`. -/
theorem enc_attach_right {t t3 : RBTree} {p new : Nat}
    (hlen3 : t.nodes.length ≤ t3.nodes.length)
    (hfr : ∀ k, k ≠ p → k < t.nodes.length →
      (nd t3 k).left = (nd t k).left ∧ (nd t3 k).right = (nd t k).right)
    (hfrp : ∀ k, k < t.nodes.length → (nd t3 k).parent = (nd t k).parent)
    (hnew0 : new ≠ 0) (hnewlen : new < t3.nodes.length)
    (hnewl : (nd t3 new).left = some 0) (hnewr : (nd t3 new).right = some 0)
    (hnewp : (nd t3 new).parent = some p)
    (hpr3 : (nd t3 p).right = some new)
    (hpl3 : (nd t3 p).left = (nd t p).left)
    (hprt : (nd t p).right = some 0) :
    ∀ {o : Option Nat} {S : ITree}, Enc t o S → S.idxs.Nodup →
      Enc t3 o (attachT p new false S) ∧
      (∀ q, pcT t S q → pcT t3 (attachT p new false S) q) ∧
      (p ∈ S.idxs → (attachT p new false S).idxs.Perm (new :: S.idxs)) := by
  intro o S hE
  induction hE with
  | absent =>
    intro _
    exact ⟨Enc.absent, fun _ _ => trivial, fun h => absurd h (by simp [ITree.idxs])⟩
  | nil =>
    intro _
    exact ⟨Enc.nil, fun _ _ => trivial, fun h => absurd h (by simp [ITree.idxs])⟩
  | node h0 hl hL hR ihL ihR =>
    rename_i i l r
    intro hND
    obtain ⟨hNDL, hNDR, hiL, hiR, hdisj⟩ := nodup_parts hND
    by_cases hip : i = p
    · subst hip
      rw [hprt] at hR
      cases hR with
      | node h0x _ _ _ => exact absurd rfl h0x
      | nil =>
        have hL3 := ihL hNDL
        have hrefl : attachT i new false l = l := attachT_not_mem hiL
        refine ⟨?_, ?_, ?_⟩
        · simp only [attachT, eq_self_iff_true, if_true, Bool.false_eq_true, if_false]
          refine Enc.node h0 (lt_of_lt_of_le hl hlen3) ?_ ?_
          · rw [hpl3]; exact hL3.1
          · rw [hpr3]
            refine Enc.node hnew0 hnewlen ?_ ?_
            · rw [hnewl]; exact Enc.nil
            · rw [hnewr]; exact Enc.nil
        · intro q hPC
          obtain ⟨hparent, hpcl, _⟩ := hPC
          simp only [attachT, eq_self_iff_true, if_true, Bool.false_eq_true, if_false]
          refine ⟨?_, hL3.2.1 _ hpcl, ⟨hnewp, trivial, trivial⟩⟩
          rw [hfrp i hl]; exact hparent
        · intro _
          simp only [attachT, eq_self_iff_true, if_true, Bool.false_eq_true, if_false,
            hrefl]
          have he : (ITree.node i l (ITree.node new ITree.leaf ITree.leaf)).idxs
              = l.idxs ++ i :: [new] := by
            simp [ITree.idxs]
          rw [he]
          have h2 : List.Perm ((l.idxs ++ [i]) ++ new :: ([] : List Nat))
              (new :: ((l.idxs ++ [i]) ++ ([] : List Nat))) := List.perm_middle
          have he2 : (ITree.node i l ITree.leaf).idxs = l.idxs ++ [i] := by
            simp [ITree.idxs]
          rw [he2]
          simpa using h2
    · have hL3 := ihL hNDL
      have hR3 := ihR hNDR
      refine ⟨?_, ?_, ?_⟩
      · simp only [attachT, if_neg hip]
        refine Enc.node h0 (lt_of_lt_of_le hl hlen3) ?_ ?_
        · rw [(hfr i hip hl).1]; exact hL3.1
        · rw [(hfr i hip hl).2]; exact hR3.1
      · intro q hPC
        obtain ⟨hparent, hpcl, hpcr⟩ := hPC
        simp only [attachT, if_neg hip]
        exact ⟨by rw [hfrp i hl]; exact hparent, hL3.2.1 _ hpcl, hR3.2.1 _ hpcr⟩
      · intro hpS
        have hpS2 : p ∈ l.idxs ∨ p = i ∨ p ∈ r.idxs := by
          simpa [ITree.idxs] using hpS
        rcases hpS2 with hpL | hpi | hpR
        · have hrefl : attachT p new false r = r :=
            attachT_not_mem (fun hc => hdisj p hpL hc)
          have hperm := hL3.2.2 hpL
          simp only [attachT, if_neg hip, ITree.idxs, hrefl]
          exact hperm.append_right _
        · exact absurd hpi.symm hip
        · have hrefl : attachT p new false l = l :=
            attachT_not_mem (fun hc => hdisj p hc hpR)
          have hperm := hR3.2.2 hpR
          simp only [attachT, if_neg hip, ITree.idxs, hrefl]
          refine (List.Perm.append_left l.idxs (List.Perm.cons i hperm)).trans ?_
          have h2 : List.Perm ((l.idxs ++ [i]) ++ new :: r.idxs)
              (new :: ((l.idxs ++ [i]) ++ r.idxs)) := List.perm_middle
          simpa using h2

/-- Attaching the pushed node `x` on the left of `p` (its slot held the
sentinel) preserves well-formedness; the new index joins the tree. -/
theorem WFT_attach_left (t : RBTree) (T : ITree) (x : Node) (p : Nat)
    (hWF : WFT t T) (hp : p ∈ T.idxs)
    (hxl : x.left = some 0) (hxr : x.right = some 0)
    (hslot : (nd t p).left = some 0) :
    WFT (setLeft (setParent { t with nodes := t.nodes ++ [x] } t.nodes.length (some p))
          p (some t.nodes.length))
        (attachT p t.nodes.length true T) ∧
      t.nodes.length ∈ (attachT p t.nodes.length true T).idxs := by
  obtain ⟨hlen, hroot, hcs, hE, hND, hPC, hcomp⟩ := hWF
  obtain ⟨hp0, hplen⟩ := enc_mem hE p hp
  have hpne : p ≠ t.nodes.length := Nat.ne_of_lt hplen
  have hlenp : ({ t with nodes := t.nodes ++ [x] } : RBTree).nodes.length
      = t.nodes.length + 1 := by simp
  have hlen2 : (setParent { t with nodes := t.nodes ++ [x] }
      t.nodes.length (some p)).nodes.length = t.nodes.length + 1 := by
    rw [length_setParent, hlenp]
  have hlen3 : (setLeft (setParent { t with nodes := t.nodes ++ [x] }
      t.nodes.length (some p)) p (some t.nodes.length)).nodes.length
      = t.nodes.length + 1 := by
    rw [length_setLeft, hlen2]
  have hnd3old : ∀ k, k ≠ p → k < t.nodes.length →
      nd (setLeft (setParent { t with nodes := t.nodes ++ [x] }
        t.nodes.length (some p)) p (some t.nodes.length)) k = nd t k := by
    intro k hk hklt
    rw [nd_setLeft, if_neg (fun hc => hk hc.1.symm),
        nd_setParent, if_neg (fun hc => (Nat.ne_of_lt hklt) hc.1.symm),
        nd_push t x k hklt]
  have hnd2p : nd (setParent { t with nodes := t.nodes ++ [x] }
      t.nodes.length (some p)) p = nd t p := by
    rw [nd_setParent, if_neg (fun hc => hpne hc.1.symm), nd_push t x p hplen]
  have hnd3p : nd (setLeft (setParent { t with nodes := t.nodes ++ [x] }
      t.nodes.length (some p)) p (some t.nodes.length)) p
      = { nd t p with left := some t.nodes.length } := by
    rw [nd_setLeft, if_pos ⟨rfl, by rw [hlen2]; exact Nat.lt_succ_of_lt hplen⟩, hnd2p]
  have hnd2new : nd (setParent { t with nodes := t.nodes ++ [x] }
      t.nodes.length (some p)) t.nodes.length = { x with parent := some p } := by
    rw [nd_setParent, if_pos ⟨rfl, by rw [hlenp]; exact Nat.lt_succ_self _⟩,
        nd_push_self]
  have hnd3new : nd (setLeft (setParent { t with nodes := t.nodes ++ [x] }
      t.nodes.length (some p)) p (some t.nodes.length)) t.nodes.length
      = { x with parent := some p } := by
    rw [nd_setLeft, if_neg (fun hc => hpne hc.1), hnd2new]
  have hfr : ∀ k, k ≠ p → k < t.nodes.length →
      (nd (setLeft (setParent { t with nodes := t.nodes ++ [x] }
        t.nodes.length (some p)) p (some t.nodes.length)) k).left = (nd t k).left ∧
      (nd (setLeft (setParent { t with nodes := t.nodes ++ [x] }
        t.nodes.length (some p)) p (some t.nodes.length)) k).right = (nd t k).right :=
    fun k hk hklt => by rw [hnd3old k hk hklt]; exact ⟨rfl, rfl⟩
  have hfrp : ∀ k, k < t.nodes.length →
      (nd (setLeft (setParent { t with nodes := t.nodes ++ [x] }
        t.nodes.length (some p)) p (some t.nodes.length)) k).parent
        = (nd t k).parent := by
    intro k hklt
    by_cases hk : k = p
    · subst hk; rw [hnd3p]
    · rw [hnd3old k hk hklt]
  have hnew0 : t.nodes.length ≠ 0 := Nat.pos_iff_ne_zero.mp hlen
  have hle3 : t.nodes.length ≤ (setLeft (setParent
      { t with nodes := t.nodes ++ [x] } t.nodes.length (some p))
      p (some t.nodes.length)).nodes.length := by
    rw [hlen3]; exact Nat.le_succ _
  have hlt3 : t.nodes.length < (setLeft (setParent
      { t with nodes := t.nodes ++ [x] } t.nodes.length (some p))
      p (some t.nodes.length)).nodes.length := by
    rw [hlen3]; exact Nat.lt_succ_self _
  have hatt := enc_attach_left hle3 hfr hfrp hnew0 hlt3
    (by rw [hnd3new]; exact hxl) (by rw [hnd3new]; exact hxr)
    (by rw [hnd3new]) (by rw [hnd3p]) (by rw [hnd3p]) hslot hE hND
  have hperm := hatt.2.2 hp
  have hnotin : t.nodes.length ∉ T.idxs := fun hmem =>
    absurd (enc_mem hE _ hmem).2 (lt_irrefl _)
  have hnewmem : t.nodes.length ∈ (attachT p t.nodes.length true T).idxs :=
    (hperm.mem_iff).mpr (List.mem_cons_self _ _)
  have hroot3 : (setLeft (setParent { t with nodes := t.nodes ++ [x] }
      t.nodes.length (some p)) p (some t.nodes.length)).root = t.root := rfl
  refine ⟨⟨?_, ?_, ?_, ?_, ?_, ?_, ?_⟩, hnewmem⟩
  · rw [hlen3]; exact Nat.succ_pos _
  · intro r hr; rw [hroot3] at hr; exact hroot r hr
  · intro i hi0 hilen
    rw [hlen3] at hilen
    by_cases hin : i = t.nodes.length
    · subst hin
      rw [hnd3new]
      constructor
      · show x.left ≠ none
        rw [hxl]; exact Option.noConfusion
      · show x.right ≠ none
        rw [hxr]; exact Option.noConfusion
    · have hilt : i < t.nodes.length := by omega
      by_cases hipp : i = p
      · subst hipp
        rw [hnd3p]
        constructor
        · show some t.nodes.length ≠ none
          exact Option.noConfusion
        · show (nd t i).right ≠ none
          exact (hcs i hi0 hilt).2
      · rw [hnd3old i hipp hilt]
        exact hcs i hi0 hilt
  · rw [hroot3]; exact hatt.1
  · exact (hperm.nodup_iff).mpr (List.nodup_cons.mpr ⟨hnotin, hND⟩)
  · exact hatt.2.1 none hPC
  · intro i hi0 hilen
    rw [hlen3] at hilen
    refine (hperm.mem_iff).mpr ?_
    by_cases hin : i = t.nodes.length
    · subst hin; exact List.mem_cons_self _ _
    · exact List.mem_cons_of_mem _ (hcomp i hi0 (by omega))

/-- Mirror of `WFT_attach_left` for attaching on the right of `p`. -/
theorem WFT_attach_right (t : RBTree) (T : ITree) (x : Node) (p : Nat)
    (hWF : WFT t T) (hp : p ∈ T.idxs)
    (hxl : x.left = some 0) (hxr : x.right = some 0)
    (hslot : (nd t p).right = some 0) :
    WFT (setRight (setParent { t with nodes := t.nodes ++ [x] } t.nodes.length (some p))
          p (some t.nodes.length))
        (attachT p t.nodes.length false T) ∧
      t.nodes.length ∈ (attachT p t.nodes.length false T).idxs := by
  obtain ⟨hlen, hroot, hcs, hE, hND, hPC, hcomp⟩ := hWF
  obtain ⟨hp0, hplen⟩ := enc_mem hE p hp
  have hpne : p ≠ t.nodes.length := Nat.ne_of_lt hplen
  have hlenp : ({ t with nodes := t.nodes ++ [x] } : RBTree).nodes.length
      = t.nodes.length + 1 := by simp
  have hlen2 : (setParent { t with nodes := t.nodes ++ [x] }
      t.nodes.length (some p)).nodes.length = t.nodes.length + 1 := by
    rw [length_setParent, hlenp]
  have hlen3 : (setRight (setParent { t with nodes := t.nodes ++ [x] }
      t.nodes.length (some p)) p (some t.nodes.length)).nodes.length
      = t.nodes.length + 1 := by
    rw [length_setRight, hlen2]
  have hnd3old : ∀ k, k ≠ p → k < t.nodes.length →
      nd (setRight (setParent { t with nodes := t.nodes ++ [x] }
        t.nodes.length (some p)) p (some t.nodes.length)) k = nd t k := by
    intro k hk hklt
    rw [nd_setRight, if_neg (fun hc => hk hc.1.symm),
        nd_setParent, if_neg (fun hc => (Nat.ne_of_lt hklt) hc.1.symm),
        nd_push t x k hklt]
  have hnd2p : nd (setParent { t with nodes := t.nodes ++ [x] }
      t.nodes.length (some p)) p = nd t p := by
    rw [nd_setParent, if_neg (fun hc => hpne hc.1.symm), nd_push t x p hplen]
  have hnd3p : nd (setRight (setParent { t with nodes := t.nodes ++ [x] }
      t.nodes.length (some p)) p (some t.nodes.length)) p
      = { nd t p with right := some t.nodes.length } := by
    rw [nd_setRight, if_pos ⟨rfl, by rw [hlen2]; exact Nat.lt_succ_of_lt hplen⟩, hnd2p]
  have hnd2new : nd (setParent { t with nodes := t.nodes ++ [x] }
      t.nodes.length (some p)) t.nodes.length = { x with parent := some p } := by
    rw [nd_setParent, if_pos ⟨rfl, by rw [hlenp]; exact Nat.lt_succ_self _⟩,
        nd_push_self]
  have hnd3new : nd (setRight (setParent { t with nodes := t.nodes ++ [x] }
      t.nodes.length (some p)) p (some t.nodes.length)) t.nodes.length
      = { x with parent := some p } := by
    rw [nd_setRight, if_neg (fun hc => hpne hc.1), hnd2new]
  have hfr : ∀ k, k ≠ p → k < t.nodes.length →
      (nd (setRight (setParent { t with nodes := t.nodes ++ [x] }
        t.nodes.length (some p)) p (some t.nodes.length)) k).left = (nd t k).left ∧
      (nd (setRight (setParent { t with nodes := t.nodes ++ [x] }
        t.nodes.length (some p)) p (some t.nodes.length)) k).right = (nd t k).right :=
    fun k hk hklt => by rw [hnd3old k hk hklt]; exact ⟨rfl, rfl⟩
  have hfrp : ∀ k, k < t.nodes.length →
      (nd (setRight (setParent { t with nodes := t.nodes ++ [x] }
        t.nodes.length (some p)) p (some t.nodes.length)) k).parent
        = (nd t k).parent := by
    intro k hklt
    by_cases hk : k = p
    · subst hk; rw [hnd3p]
    · rw [hnd3old k hk hklt]
  have hnew0 : t.nodes.length ≠ 0 := Nat.pos_iff_ne_zero.mp hlen
  have hle3 : t.nodes.length ≤ (setRight (setParent
      { t with nodes := t.nodes ++ [x] } t.nodes.length (some p))
      p (some t.nodes.length)).nodes.length := by
    rw [hlen3]; exact Nat.le_succ _
  have hlt3 : t.nodes.length < (setRight (setParent
      { t with nodes := t.nodes ++ [x] } t.nodes.length (some p))
      p (some t.nodes.length)).nodes.length := by
    rw [hlen3]; exact Nat.lt_succ_self _
  have hatt := enc_attach_right hle3 hfr hfrp hnew0 hlt3
    (by rw [hnd3new]; exact hxl) (by rw [hnd3new]; exact hxr)
    (by rw [hnd3new]) (by rw [hnd3p]) (by rw [hnd3p]) hslot hE hND
  have hperm := hatt.2.2 hp
  have hnotin : t.nodes.length ∉ T.idxs := fun hmem =>
    absurd (enc_mem hE _ hmem).2 (lt_irrefl _)
  have hnewmem : t.nodes.length ∈ (attachT p t.nodes.length false T).idxs :=
    (hperm.mem_iff).mpr (List.mem_cons_self _ _)
  have hroot3 : (setRight (setParent { t with nodes := t.nodes ++ [x] }
      t.nodes.length (some p)) p (some t.nodes.length)).root = t.root := rfl
  refine ⟨⟨?_, ?_, ?_, ?_, ?_, ?_, ?_⟩, hnewmem⟩
  · rw [hlen3]; exact Nat.succ_pos _
  · intro r hr; rw [hroot3] at hr; exact hroot r hr
  · intro i hi0 hilen
    rw [hlen3] at hilen
    by_cases hin : i = t.nodes.length
    · subst hin
      rw [hnd3new]
      constructor
      · show x.left ≠ none
        rw [hxl]; exact Option.noConfusion
      · show x.right ≠ none
        rw [hxr]; exact Option.noConfusion
    · have hilt : i < t.nodes.length := by omega
      by_cases hipp : i = p
      · subst hipp
        rw [hnd3p]
        constructor
        · show (nd t i).left ≠ none
          exact (hcs i hi0 hilt).1
        · show some t.nodes.length ≠ none
          exact Option.noConfusion
      · rw [hnd3old i hipp hilt]
        exact hcs i hi0 hilt
  · rw [hroot3]; exact hatt.1
  · exact (hperm.nodup_iff).mpr (List.nodup_cons.mpr ⟨hnotin, hND⟩)
  · exact hatt.2.1 none hPC
  · intro i hi0 hilen
    rw [hlen3] at hilen
    refine (hperm.mem_iff).mpr ?_
    by_cases hin : i = t.nodes.length
    · subst hin; exact List.mem_cons_self _ _
    · exact List.mem_cons_of_mem _ (hcomp i hi0 (by omega))

/-- Appending a fresh node to the arena does not disturb the encoding of
the existing structure. -/
theorem enc_append {t : RBTree} (x : Node) :
    ∀ {o : Option Nat} {S : ITree}, Enc t o S →
      Enc { t with nodes := t.nodes ++ [x] } o S := by
  intro o S h
  induction h with
  | absent => exact Enc.absent
  | nil => exact Enc.nil
  | node h0 hl hL hR ihL ihR =>
    rename_i i l r
    have hnd : nd { t with nodes := t.nodes ++ [x] } i = nd t i := nd_push t x i hl
    refine Enc.node h0 (by simp; omega) ?_ ?_
    · rw [hnd]; exact ihL
    · rw [hnd]; exact ihR

/-- A full `insert` on a well-formed tree never panics, and a completed
insert leaves a well-formed tree whose root (if present) is black. -/
theorem insert_ok (fuel : Nat) (data : Int) (t : RBTree) (hWF : WF t) :
    RBTree.insert fuel t data ≠ Res.panicked ∧
    (∀ t' rots, RBTree.insert fuel t data = Res.ok (t', rots) →
      WF t' ∧ ∀ r, t'.root = some r → (nd t' r).color = Color.black) := by
  obtain ⟨T, hWFT⟩ := hWF
  obtain ⟨hlen, hroot, hcs, hE, hND, hPC, hcomp⟩ := hWFT
  have hWFT' : WFT t T := ⟨hlen, hroot, hcs, hE, hND, hPC, hcomp⟩
  have hnew0 : t.nodes.length ≠ 0 := Nat.pos_iff_ne_zero.mp hlen
  cases hr : t.root with
  | none =>
    -- the tree is empty: the new node becomes the black root
    rw [hr] at hE
    cases hE
    have hnoreal : ∀ i, i ≠ 0 → i < t.nodes.length → False := by
      intro i hi0 hilen
      have := hcomp i hi0 hilen
      simp [ITree.idxs] at this
    have hred : RBTree.insert fuel t data =
        Res.ok (setColor (setRoot { t with nodes := t.nodes ++
          [⟨data, Color.red, some 0, some 0, none⟩] } (some t.nodes.length))
          t.nodes.length Color.black, 0) := by
      simp only [RBTree.insert, hr]
    rw [hred]
    constructor
    · exact fun h => Res.noConfusion h
    · intro t' rots h
      obtain ⟨rfl, -⟩ : setColor (setRoot { t with nodes := t.nodes ++
          [⟨data, Color.red, some 0, some 0, none⟩] } (some t.nodes.length))
          t.nodes.length Color.black = t' ∧ 0 = rots := by
        exact ⟨congrArg Prod.fst (Res.ok.inj h), congrArg Prod.snd (Res.ok.inj h)⟩
      have hlenE : (setColor (setRoot { t with nodes := t.nodes ++
          [⟨data, Color.red, some 0, some 0, none⟩] } (some t.nodes.length))
          t.nodes.length Color.black).nodes.length = t.nodes.length + 1 := by
        rw [length_setColor]; simp [setRoot]
      have hndE : nd (setColor (setRoot { t with nodes := t.nodes ++
          [⟨data, Color.red, some 0, some 0, none⟩] } (some t.nodes.length))
          t.nodes.length Color.black) t.nodes.length
          = ⟨data, Color.black, some 0, some 0, none⟩ := by
        rw [nd_setColor, if_pos ⟨rfl, by simp [setRoot]⟩, nd_setRoot, nd_push_self]
      have hrootE : (setColor (setRoot { t with nodes := t.nodes ++
          [⟨data, Color.red, some 0, some 0, none⟩] } (some t.nodes.length))
          t.nodes.length Color.black).root = some t.nodes.length := by
        rw [root_setColor, root_setRoot]
      refine ⟨⟨ITree.node t.nodes.length ITree.leaf ITree.leaf,
        ?_, ?_, ?_, ?_, ?_, ?_, ?_⟩, ?_⟩
      · rw [hlenE]; exact Nat.succ_pos _
      · intro r hrr
        rw [hrootE] at hrr
        cases hrr
        exact hnew0
      · intro i hi0 hilen
        rw [hlenE] at hilen
        by_cases hin : i = t.nodes.length
        · subst hin
          rw [hndE]
          exact ⟨Option.noConfusion, Option.noConfusion⟩
        · exact absurd (by omega) (fun hh => hnoreal i hi0 hh)
      · rw [hrootE]
        refine Enc.node hnew0 (by rw [hlenE]; exact Nat.lt_succ_self _) ?_ ?_
        · rw [hndE]; exact Enc.nil
        · rw [hndE]; exact Enc.nil
      · simp [ITree.idxs]
      · refine ⟨?_, trivial, trivial⟩
        rw [hndE]
      · intro i hi0 hilen
        rw [hlenE] at hilen
        by_cases hin : i = t.nodes.length
        · subst hin; simp [ITree.idxs]
        · exact absurd (by omega) (fun hh => hnoreal i hi0 hh)
      · intro r hrr
        rw [hrootE] at hrr
        cases hrr
        rw [hndE]
  | some r =>
    have hE2 : Enc t (some r) T := by rwa [hr] at hE
    have hr0 : r ≠ 0 := hroot r hr
    obtain ⟨l1, r1, hTeq, hrlen, hEl1, hEr1⟩ := enc_node_shape hE2 hr0
    have hrT : r ∈ T.idxs := by rw [hTeq]; simp [ITree.idxs]
    have hcs1 : ∀ i, i ≠ 0 →
        i < (RBTree.mk (t.nodes ++ [⟨data, Color.red, some 0, some 0, none⟩])
          (some r)).nodes.length →
        (nd (RBTree.mk (t.nodes ++ [⟨data, Color.red, some 0, some 0, none⟩])
          (some r)) i).left ≠ none ∧
        (nd (RBTree.mk (t.nodes ++ [⟨data, Color.red, some 0, some 0, none⟩])
          (some r)) i).right ≠ none := by
      intro i hi0 hilen
      simp only [List.length_append, List.length_cons, List.length_nil] at hilen
      by_cases hin : i = t.nodes.length
      · subst hin
        have hx : nd (RBTree.mk (t.nodes ++
            [⟨data, Color.red, some 0, some 0, none⟩]) (some r)) t.nodes.length
            = ⟨data, Color.red, some 0, some 0, none⟩ := nd_push_self t _
        rw [hx]
        exact ⟨Option.noConfusion, Option.noConfusion⟩
      · have hilt : i < t.nodes.length := by omega
        have hx : nd (RBTree.mk (t.nodes ++
            [⟨data, Color.red, some 0, some 0, none⟩]) (some r)) i = nd t i :=
          nd_push t _ i hilt
        rw [hx]
        exact hcs i hi0 hilt
    have hE1 : Enc (RBTree.mk (t.nodes ++
        [⟨data, Color.red, some 0, some 0, none⟩]) (some r)) (some r) T := by
      have h := enc_append (⟨data, Color.red, some 0, some 0, none⟩ : Node) hE2
      rwa [hr] at h
    have hdes := descend_ok fuel (RBTree.mk (t.nodes ++
        [⟨data, Color.red, some 0, some 0, none⟩]) (some r)) T data r none
      hcs1 hE1 hrT
    cases hd : descend fuel (RBTree.mk (t.nodes ++
        [⟨data, Color.red, some 0, some 0, none⟩]) (some r)) data (some r) none with
    | panicked => exact absurd hd hdes.1
    | fuelOut =>
      have hred : RBTree.insert fuel t data = Res.fuelOut := by
        simp only [RBTree.insert, hr, hd]
      rw [hred]
      exact ⟨fun h => Res.noConfusion h, fun t' rots h => Res.noConfusion h⟩
    | ok res =>
      obtain ⟨p, rfl, hpT, hsideL, hsideR⟩ := hdes.2 res hd
      obtain ⟨hp0, hplen⟩ := enc_mem hE2 p hpT
      have hpne : p ≠ t.nodes.length := Nat.ne_of_lt hplen
      have hndu : nd (RBTree.mk (t.nodes ++
          [⟨data, Color.red, some 0, some 0, none⟩]) (some r)) p = nd t p :=
        nd_push t _ p hplen
      rw [hndu] at hsideL hsideR
      have hnd2p : nd (setParent (RBTree.mk (t.nodes ++
          [⟨data, Color.red, some 0, some 0, none⟩]) (some r))
          t.nodes.length (some p)) p = nd t p := by
        rw [nd_setParent, if_neg (fun hc => hpne hc.1.symm)]
        exact hndu
      by_cases hlt : data < (nd t p).data
      · have hslot : (nd t p).left = some 0 := hsideL hlt
        have hattach := WFT_attach_left t T ⟨data, Color.red, some 0, some 0, none⟩
          p ⟨hlen, hroot, hcs, hE, hND, hPC, hcomp⟩ hpT rfl rfl hslot
        rw [hr] at hattach
        have hfix := fix_insert_ok fuel hattach.1 hattach.2
        have hred : RBTree.insert fuel t data = fix_insert fuel
            (setLeft (setParent (RBTree.mk (t.nodes ++
              [⟨data, Color.red, some 0, some 0, none⟩]) (some r))
              t.nodes.length (some p)) p (some t.nodes.length)) t.nodes.length := by
          simp only [RBTree.insert, hr, hd, hnd2p, if_pos hlt]
        rw [hred]
        exact ⟨hfix.1, fun t' rots h => hfix.2 t' rots h⟩
      · have hslot : (nd t p).right = some 0 := hsideR hlt
        have hattach := WFT_attach_right t T ⟨data, Color.red, some 0, some 0, none⟩
          p ⟨hlen, hroot, hcs, hE, hND, hPC, hcomp⟩ hpT rfl rfl hslot
        rw [hr] at hattach
        have hfix := fix_insert_ok fuel hattach.1 hattach.2
        have hred : RBTree.insert fuel t data = fix_insert fuel
            (setRight (setParent (RBTree.mk (t.nodes ++
              [⟨data, Color.red, some 0, some 0, none⟩]) (some r))
              t.nodes.length (some p)) p (some t.nodes.length)) t.nodes.length := by
          simp only [RBTree.insert, hr, hd, hnd2p, if_neg hlt]
        rw [hred]
        exact ⟨hfix.1, fun t' rots h => hfix.2 t' rots h⟩

/-- The tree returned by `new()` is well-formed. -/
theorem WF_new : WF RBTree.new := by
  refine ⟨ITree.leaf, ?_, ?_, ?_, ?_, ?_, ?_, ?_⟩
  · decide
  · intro r hr; cases hr
  · intro i hi0 hilen
    simp [RBTree.new] at hilen
    omega
  · exact Enc.absent
  · simp [ITree.idxs]
  · trivial
  · intro i hi0 hilen
    simp [RBTree.new] at hilen
    omega

/-- A sequence of inserts on a well-formed tree never panics and keeps the
tree well-formed. -/
theorem insertAll_ok : ∀ (vs : List Int) (fuel : Nat) (t : RBTree), WF t →
    insertAll fuel t vs ≠ Res.panicked ∧
    (∀ t', insertAll fuel t vs = Res.ok t' → WF t') := by
  intro vs
  induction vs with
  | nil =>
    intro fuel t hWF
    constructor
    · intro h; simp [insertAll] at h
    · intro t' h
      simp only [insertAll, Res.ok.injEq] at h
      exact h ▸ hWF
  | cons v vs ih =>
    intro fuel t hWF
    have hins := insert_ok fuel v t hWF
    cases hi : RBTree.insert fuel t v with
    | ok p =>
      obtain ⟨t1, rots⟩ := p
      obtain ⟨hWF1, -⟩ := hins.2 t1 rots hi
      have hrec := ih fuel t1 hWF1
      constructor
      · intro h; simp only [insertAll, hi] at h; exact hrec.1 h
      · intro t' h; simp only [insertAll, hi] at h; exact hrec.2 t' h
    | panicked => exact absurd hi hins.1
    | fuelOut =>
      constructor
      · intro h; simp [insertAll, hi] at h
      · intro t' h; simp [insertAll, hi] at h

/-- C9: after any insert call that completes (on any tree reachable from
`new()` by a sequence of completed inserts), the root, if present, is
Black; and inserting into an empty tree makes the new node (the freshly
allocated index) the root and recolors it Black. -/
theorem c9_root_black_after_insert (fuel : Nat) (vs : List Int) (data : Int)
    (t t' : RBTree) (rots : Nat)
    (hrun : insertAll fuel RBTree.new vs = Res.ok t)
    (hins : RBTree.insert fuel t data = Res.ok (t', rots)) :
    (∀ r, t'.root = some r → (nd t' r).color = Color.black) ∧
    (t.root = none →
      t'.root = some t.nodes.length ∧
      (nd t' t.nodes.length).color = Color.black) := by
  have hWF := (insertAll_ok vs fuel RBTree.new WF_new).2 t hrun
  constructor
  · exact ((insert_ok fuel data t hWF).2 t' rots hins).2
  · intro hnone
    have hred : RBTree.insert fuel t data =
        Res.ok (setColor (setRoot { t with nodes := t.nodes ++
          [⟨data, Color.red, some 0, some 0, none⟩] } (some t.nodes.length))
          t.nodes.length Color.black, 0) := by
      simp only [RBTree.insert, hnone]
    rw [hred] at hins
    have h1 := Res.ok.inj hins
    have ht' : setColor (setRoot { t with nodes := t.nodes ++
        [⟨data, Color.red, some 0, some 0, none⟩] } (some t.nodes.length))
        t.nodes.length Color.black = t' := congrArg Prod.fst h1
    rw [← ht']
    constructor
    · rw [root_setColor, root_setRoot]
    · rw [nd_setColor, if_pos ⟨rfl, by simp [setRoot]⟩]

theorem c9_root_black_after_insert_witness :
    (∀ r, (RBTree.mk [nilNode, ⟨5, Color.black, some 0, some 0, none⟩]
        (some 1)).root = some r →
      (nd (RBTree.mk [nilNode, ⟨5, Color.black, some 0, some 0, none⟩]
        (some 1)) r).color = Color.black) ∧
    (RBTree.new.root = none →
      (RBTree.mk [nilNode, ⟨5, Color.black, some 0, some 0, none⟩]
        (some 1)).root = some RBTree.new.nodes.length ∧
      (nd (RBTree.mk [nilNode, ⟨5, Color.black, some 0, some 0, none⟩]
        (some 1)) RBTree.new.nodes.length).color = Color.black) :=
  c9_root_black_after_insert 20 [] 5 RBTree.new
    (RBTree.mk [nilNode, ⟨5, Color.black, some 0, some 0, none⟩] (some 1)) 0
    rfl rfl

/-- C10: over any sequence of insertions from `new()`, the run never hits a
panicking unwrap (in `insert`'s descent, `fix_insert`, or either rotation),
and in any completed run every non-sentinel node has both child links
present. -/
theorem c10_no_unwrap_panics (fuel : Nat) (vs : List Int) :
    insertSeq fuel vs ≠ Res.panicked ∧
    (∀ t, insertSeq fuel vs = Res.ok t →
      ∀ i, i ≠ 0 → i < t.nodes.length →
        (nd t i).left ≠ none ∧ (nd t i).right ≠ none) := by
  have h := insertAll_ok vs fuel RBTree.new WF_new
  refine ⟨h.1, ?_⟩
  intro t ht i hi0 hilen
  obtain ⟨T, hWFT⟩ := h.2 t ht
  exact hWFT.2.2.1 i hi0 hilen

theorem c10_no_unwrap_panics_witness :
    insertSeq 20 [1, 2] ≠ Res.panicked ∧
    (∀ t, insertSeq 20 [1, 2] = Res.ok t →
      ∀ i, i ≠ 0 → i < t.nodes.length →
        (nd t i).left ≠ none ∧ (nd t i).right ≠ none) :=
  c10_no_unwrap_panics 20 [1, 2]

/-- Number of nodes of an index tree (a fuel bound for traversals). -/
def ITree.size : ITree → Nat
  | ITree.leaf => 0
  | ITree.node _ l r => l.size + r.size + 1

/-- With enough fuel, `inorder_helper` returns exactly the in-order value
sequence of the encoded tree. -/
theorem inorder_helper_enc {t : RBTree} :
    ∀ {o : Option Nat} {S : ITree}, Enc t o S → ∀ fuel, S.size < fuel →
      inorder_helper fuel t o = some (S.valsIn t) := by
  intro o S hE
  induction hE with
  | absent =>
    intro fuel _
    cases fuel <;> rfl
  | nil =>
    intro fuel hf
    match fuel, hf with
    | fuel + 1, _ => simp [inorder_helper, ITree.valsIn]
  | node h0 hl hL hR ihL ihR =>
    rename_i i l r
    intro fuel hf
    match fuel, hf with
    | fuel + 1, hf =>
      have hfl : l.size < fuel := by simp [ITree.size] at hf; omega
      have hfr : r.size < fuel := by simp [ITree.size] at hf; omega
      simp only [inorder_helper, if_neg h0, ihL fuel hfl, ihR fuel hfr, ITree.valsIn]

/-- C7: on a well-formed tree, rotating left at a node with a real right
child (resp. right at a node with a real left child) succeeds, changes the
color of no node, and preserves the in-order value sequence: for all
sufficiently large fuel, the traversals of the old and new trees return
the same list. -/
theorem c7_rotations_preserve (t : RBTree) (x y : Nat) (hWF : WF t)
    (hx0 : x ≠ 0) (hxlen : x < t.nodes.length) (hy0 : y ≠ 0) :
    ((nd t x).right = some y →
      ∃ t' vs N, left_rotate t x = some t' ∧
        (∀ k, (nd t' k).color = (nd t k).color) ∧
        (∀ f, N ≤ f → RBTree.inorder f t = some vs ∧
          RBTree.inorder f t' = some vs)) ∧
    ((nd t x).left = some y →
      ∃ t' vs N, right_rotate t x = some t' ∧
        (∀ k, (nd t' k).color = (nd t k).color) ∧
        (∀ f, N ≤ f → RBTree.inorder f t = some vs ∧
          RBTree.inorder f t' = some vs)) := by
  obtain ⟨T, hlen, hroot, hcs, hE, hND, hPC, hcomp⟩ := hWF
  have hxT : x ∈ T.idxs := hcomp x hx0 hxlen
  constructor
  · intro hxy
    obtain ⟨t', T', heq, hlen', hcol', hdata', hE', hIdx', hPC', hroot', hcs',
      hvals', -⟩ :=
      lrot_preserves t T x y hlen hroot hcs hE hND hPC hcomp hxT hxy hy0
    refine ⟨t', T.valsIn t, T.size + T'.size + 1, heq, hcol', ?_⟩
    intro f hf
    constructor
    · exact inorder_helper_enc hE f (by omega)
    · have h2 := inorder_helper_enc hE' f (by omega)
      rw [hvals'] at h2
      exact h2
  · intro hxy
    obtain ⟨t', T', heq, hlen', hcol', hdata', hE', hIdx', hPC', hroot', hcs',
      hvals', -⟩ :=
      rrot_preserves t T x y hlen hroot hcs hE hND hPC hcomp hxT hxy hy0
    refine ⟨t', T.valsIn t, T.size + T'.size + 1, heq, hcol', ?_⟩
    intro f hf
    constructor
    · exact inorder_helper_enc hE f (by omega)
    · have h2 := inorder_helper_enc hE' f (by omega)
      rw [hvals'] at h2
      exact h2

theorem c7_rotations_preserve_witness :
    ((nd stateTwo 1).right = some 2 →
      ∃ t' vs N, left_rotate stateTwo 1 = some t' ∧
        (∀ k, (nd t' k).color = (nd stateTwo k).color) ∧
        (∀ f, N ≤ f → RBTree.inorder f stateTwo = some vs ∧
          RBTree.inorder f t' = some vs)) ∧
    ((nd stateTwo 1).left = some 2 →
      ∃ t' vs N, right_rotate stateTwo 1 = some t' ∧
        (∀ k, (nd t' k).color = (nd stateTwo k).color) ∧
        (∀ f, N ≤ f → RBTree.inorder f stateTwo = some vs ∧
          RBTree.inorder f t' = some vs)) := by
  have hWF : WF stateTwo := by
    refine ⟨ITree.node 1 ITree.leaf (ITree.node 2 ITree.leaf ITree.leaf),
      by decide, ?_, ?_, ?_, by decide, by decide, ?_⟩
    · intro r hr
      simp [stateTwo] at hr
      omega
    · intro i hi0 hilen
      have h2 : i = 1 ∨ i = 2 := by
        simp [stateTwo] at hilen
        omega
      rcases h2 with rfl | rfl
      · exact ⟨by decide, by decide⟩
      · exact ⟨by decide, by decide⟩
    · exact @itreeF_enc 5 stateTwo stateTwo.root
        (ITree.node 1 ITree.leaf (ITree.node 2 ITree.leaf ITree.leaf)) rfl
    · intro i hi0 hilen
      have h2 : i = 1 ∨ i = 2 := by
        simp [stateTwo] at hilen
        omega
      rcases h2 with rfl | rfl <;> decide
  exact c7_rotations_preserve stateTwo 1 2 hWF (by decide) (by decide) (by decide)
